import Mathlib

/-!
The log store and the stable store of raftbadger over an ordered key-value engine

A shallow embedding of `log_store.go` and `stable_store.go`.

* Byte slices are lists of `Fin 256`; `nil` and the empty slice are the same list.
* `uint64` values are natural numbers, reduced modulo `2 ^ 64` where the Go code can wrap.
* The key-value engine (badger) is modelled by its interface: an ascending list of
  key/value pairs, transactions that buffer their writes and apply them atomically on
  commit, and iterators that walk the keys at or after (forward) or at or before
  (reverse) the seek key.  `Set`, `Delete` and `Commit` may fail; whether the n-th such
  call fails is read from a fault schedule.
* The protobuf codec of `RaftLog` is a parameter.
-/

namespace RaftBadger

/-! ## Bytes and keys -/

abbrev Byte := Fin 256

abbrev Bytes := List Byte

/-- Go conversion `byte(x)`: the low eight bits. -/
def byte (x : Nat) : Byte := ⟨x % 256, Nat.mod_lt x (by decide)⟩

/-- Lexicographic comparison of byte strings (`bytes.Compare`), the key order of the engine. -/
def compareBytes : Bytes → Bytes → Ordering
  | [], [] => Ordering.eq
  | [], _ :: _ => Ordering.lt
  | _ :: _, [] => Ordering.gt
  | a :: as, b :: bs =>
    if a < b then Ordering.lt
    else if b < a then Ordering.gt
    else compareBytes as bs

/-- Test `bytes.HasPrefix s p`. -/
def hasPfx : Bytes → Bytes → Bool
  | _, [] => true
  | [], _ :: _ => false
  | a :: s, b :: p => decide (a = b) && hasPfx s p

/-- Encoder `binary.BigEndian.PutUint64`: the eight bytes written for `v`, the most
significant first (`byte(v >> 56)`, ..., `byte(v)`; a right shift by `k` is the quotient
by `2 ^ k`). -/
def putUint64 (v : Nat) : Bytes :=
  [byte (v / 2 ^ 56), byte (v / 2 ^ 48), byte (v / 2 ^ 40), byte (v / 2 ^ 32),
   byte (v / 2 ^ 24), byte (v / 2 ^ 16), byte (v / 2 ^ 8), byte v]

/-- Decoder `binary.BigEndian.Uint64`: the big-endian value of the first eight bytes
(the bytes occupy disjoint bit ranges, so the bitwise or of the shifted bytes is their
sum); `none` is the index-out-of-range panic on a shorter slice. -/
def uint64 : Bytes → Option Nat
  | b0 :: b1 :: b2 :: b3 :: b4 :: b5 :: b6 :: b7 :: _ =>
    some (b7.val + b6.val * 2 ^ 8 + b5.val * 2 ^ 16 + b4.val * 2 ^ 24 +
          b3.val * 2 ^ 32 + b2.val * 2 ^ 40 + b1.val * 2 ^ 48 + b0.val * 2 ^ 56)
  | _ => none

/-! ## Errors -/

/-- Error values seen by the stores. `panic` stands for a Go run-time panic. -/
inductive Error where
  | ErrKeyNotFound
  | ErrLogNotFound
  | engine (code : Nat)
  | encoding (code : Nat)
  | panic
  deriving DecidableEq, Repr

/-! ## The ordered key-value engine -/

/-- Committed content of the engine: key/value pairs in ascending key order. -/
abbrev DB := List (Bytes × Bytes)

/-- Keys strictly ascending. -/
def DB.sorted : DB → Bool
  | [] => true
  | [_] => true
  | a :: b :: rest => decide (compareBytes a.1 b.1 = Ordering.lt) && DB.sorted (b :: rest)

/-- Point lookup. -/
def DB.get : DB → Bytes → Option Bytes
  | [], _ => none
  | (k, v) :: rest, key => if k = key then some v else DB.get rest key

/-- Upsert keeping the key order. -/
def DB.set : DB → Bytes → Bytes → DB
  | [], key, val => [(key, val)]
  | (k, v) :: rest, key, val =>
    match compareBytes key k with
    | Ordering.lt => (key, val) :: (k, v) :: rest
    | Ordering.eq => (key, val) :: rest
    | Ordering.gt => (k, v) :: DB.set rest key val

/-- Removal of a key. -/
def DB.delete (db : DB) (key : Bytes) : DB :=
  db.filter (fun kv => !decide (kv.1 = key))

/-- A buffered write of a transaction. -/
inductive Op where
  | set (key value : Bytes)
  | delete (key : Bytes)
  deriving DecidableEq, Repr

/-- Effect of one write. -/
def DB.applyOp (db : DB) : Op → DB
  | Op.set k v => db.set k v
  | Op.delete k => db.delete k

/-- Effect of a write set, in the order the writes were issued. -/
def DB.apply (db : DB) (ops : List Op) : DB :=
  ops.foldl DB.applyOp db

/-- A transaction: the view it reads and the writes it has buffered. -/
structure Txn where
  snapshot : DB
  pending : List Op
  deriving DecidableEq, Repr

/-- State of the engine. `calls` counts the `Set`/`Delete`/`Commit` calls answered so far,
`opened` the update transactions begun, `committed` the write sets of the committed
transactions, oldest first. -/
structure Engine where
  db : DB
  calls : Nat
  opened : Nat
  committed : List (List Op)
  deriving DecidableEq, Repr

/-- Fault schedule: the error, if any, returned by the n-th `Set`/`Delete`/`Commit` call. -/
abbrev Faults := Nat → Option Error

/-- The schedule of an engine that never fails. -/
def noFaults : Faults := fun _ => none

/-- An engine holding `db` with no history. -/
def Engine.ofDB (db : DB) : Engine :=
  { db := db, calls := 0, opened := 0, committed := [] }

/-- Call `db.NewTransaction(true)`. -/
def newTransaction (e : Engine) : Txn × Engine :=
  ({ snapshot := e.db, pending := [] }, { e with opened := e.opened + 1 })

/-- Call `txn.Get` in a read-only transaction (`db.View`) on the committed store: the
value, or `ErrKeyNotFound`. -/
def txnGet (db : DB) (key : Bytes) : Except Error Bytes :=
  match db.get key with
  | some v => Except.ok v
  | none => Except.error Error.ErrKeyNotFound

/-- Call `txn.Set` (also `txn.SetEntry`). -/
def txnSet (f : Faults) (t : Txn) (key val : Bytes) (e : Engine) : Option Error × Txn × Engine :=
  match f e.calls with
  | some err => (some err, t, { e with calls := e.calls + 1 })
  | none => (none, { t with pending := t.pending ++ [Op.set key val] }, { e with calls := e.calls + 1 })

/-- Call `txn.Delete`. -/
def txnDelete (f : Faults) (t : Txn) (key : Bytes) (e : Engine) : Option Error × Txn × Engine :=
  match f e.calls with
  | some err => (some err, t, { e with calls := e.calls + 1 })
  | none => (none, { t with pending := t.pending ++ [Op.delete key] }, { e with calls := e.calls + 1 })

/-- Call `txn.Commit`: all buffered writes are applied, or none is. -/
def txnCommit (f : Faults) (t : Txn) (e : Engine) : Option Error × Engine :=
  match f e.calls with
  | some err => (some err, { e with calls := e.calls + 1 })
  | none =>
    (none, { e with db := e.db.apply t.pending, calls := e.calls + 1,
                    committed := e.committed ++ [t.pending] })

/-- An iterator after `Seek`: the items still to visit, the current one first. -/
structure Iterator where
  items : List (Bytes × Bytes)
  deriving DecidableEq, Repr

/-- Forward `Seek(key)` on a view: the items with key at or after `key`, ascending. -/
def seekForward (view : DB) (key : Bytes) : Iterator :=
  ⟨view.filter (fun kv => !decide (compareBytes kv.1 key = Ordering.lt))⟩

/-- Reverse `Seek(key)` on a view: the items with key at or before `key`, descending. -/
def seekReverse (view : DB) (key : Bytes) : Iterator :=
  ⟨(view.filter (fun kv => !decide (compareBytes kv.1 key = Ordering.gt))).reverse⟩

/-- Test `it.ValidForPrefix(p)`. -/
def Iterator.validForPfx (it : Iterator) (p : Bytes) : Bool :=
  match it.items with
  | [] => false
  | kv :: _ => hasPfx kv.1 p

/-- Step `it.Next()`. -/
def Iterator.next (it : Iterator) : Iterator := ⟨it.items.tail⟩

/-! ## Log entries and their serialization -/

/-- Type `raft.Log`, the fields this package reads and writes. `Index` and `Term` are
`uint64`, `Typ` (the field `Type`) is a `uint8`. -/
structure Log where
  Index : Nat
  Term : Nat
  Typ : Nat
  Data : Bytes
  Extensions : Bytes
  deriving DecidableEq, Repr

/-- The field ranges of a `raft.Log`. -/
def Log.valid (l : Log) : Prop :=
  l.Index < 2 ^ 64 ∧ l.Term < 2 ^ 64 ∧ l.Typ < 256

/-- Type `RaftLog`, the protobuf message; `Typ` (the field `Type`) is an `int32` enumeration. -/
structure RaftLog where
  Index : Nat
  Term : Nat
  Typ : Int
  Data : Bytes
  Extensions : Bytes
  deriving DecidableEq, Repr

/-- The protobuf codec of `RaftLog` (`proto.Marshal`, `proto.Unmarshal`). -/
structure Codec where
  marshal : RaftLog → Except Error Bytes
  unmarshal : Bytes → Except Error RaftLog

/-- Function `toRaftLog`. -/
def toRaftLog (log : Log) : RaftLog :=
  { Index := log.Index
    Term := log.Term
    Typ := Int.ofNat log.Typ
    Data := log.Data
    Extensions := log.Extensions }

/-- Conversion `raft.LogType(int(x))` of an `int32` to a `uint8`. -/
def logTypeOfInt (x : Int) : Nat := (x % 256).toNat

/-- Function `toLog`. -/
def toLog (log : RaftLog) : Log :=
  { Index := log.Index
    Term := log.Term
    Typ := logTypeOfInt log.Typ
    Data := log.Data
    Extensions := log.Extensions }

/-! ## The log store -/

/-- Type `logStore` without the engine handle, which is passed to each operation. -/
structure logStore where
  pfx : Bytes
  pfxLen : Nat
  deriving DecidableEq, Repr

/-- Constructor `NewLogStore`. -/
def NewLogStore (pfx : Bytes) : logStore :=
  { pfx := pfx, pfxLen := pfx.length }

/-- Method `getRawKey`: a zeroed buffer of `pfxLen + 8` bytes, the prefix copied to its
start, the index written big-endian from offset `pfxLen`. -/
def logStore.getRawKey (t : logStore) (index : Nat) : Bytes :=
  t.pfx.take t.pfxLen ++ List.replicate (t.pfxLen - t.pfx.length) (0 : Byte) ++ putUint64 index

/-- The index read from the item under the iterator by `FirstIndex` and `LastIndex`,
or `dflt` when the item is not taken. -/
def logStore.boundaryIndex (t : logStore) (it : Iterator) (dflt : Nat) : Nat × Option Error :=
  if it.validForPfx t.pfx then
    match it.items with
    | [] => (dflt, none)
    | item :: _ =>
      let rawKey := item.1
      if rawKey.length > t.pfxLen then
        let key := rawKey.drop t.pfxLen
        if key.length = 8 then
          match uint64 key with
          | some v => (v, none)
          | none => (dflt, some Error.panic)
        else (dflt, none)
      else (dflt, none)
  else (dflt, none)

/-- Method `FirstIndex`. -/
def logStore.FirstIndex (t : logStore) (db : DB) : Nat × Option Error :=
  t.boundaryIndex (seekForward db t.pfx) 0

/-- Method `LastIndex`. -/
def logStore.LastIndex (t : logStore) (db : DB) : Nat × Option Error :=
  t.boundaryIndex (seekReverse db (t.pfx ++ [(255 : Byte)])) 0

/-- Method `GetLog`: the error and the content of the caller's entry afterwards. -/
def logStore.GetLog (t : logStore) (c : Codec) (db : DB) (index : Nat) (log : Log) :
    Option Error × Log :=
  match txnGet db (t.getRawKey index) with
  | Except.error err =>
    if err = Error.ErrKeyNotFound then (some Error.ErrLogNotFound, log) else (some err, log)
  | Except.ok b =>
    match c.unmarshal b with
    | Except.error e => (some e, log)
    | Except.ok raftLog =>
      (none, { Index := raftLog.Index
               Term := raftLog.Term
               Typ := logTypeOfInt raftLog.Typ
               Data := raftLog.Data
               Extensions := raftLog.Extensions })

/-- Method `StoreLog`. -/
def logStore.StoreLog (t : logStore) (c : Codec) (f : Faults) (log : Log) (e : Engine) :
    Option Error × Engine :=
  match newTransaction e with
  | (tnx, e1) =>
    match c.marshal (toRaftLog log) with
    | Except.error err => (some err, e1)
    | Except.ok data =>
      match txnSet f tnx (t.getRawKey log.Index) data e1 with
      | (some err, _, e2) => (some err, e2)
      | (none, tnx2, e2) => txnCommit f tnx2 e2

/-- The loop of `StoreLogs` from position `i` on, `tnx` being the open transaction. -/
def logStore.StoreLogsLoop (t : logStore) (c : Codec) (f : Faults) (maxBatchSize : Nat) :
    Nat → List Log → Option Txn → Engine → Option Error × Engine
  | _, [], none, e => (none, e)
  | _, [], some tnx, e => txnCommit f tnx e
  | i, log :: rest, tnx, e =>
    if maxBatchSize = 0 then (some Error.panic, e)
    else
      let closed : Option Error × Option Txn × Engine :=
        if i % maxBatchSize = 0 then
          match tnx with
          | some x =>
            match txnCommit f x e with
            | (some err, e1) => (some err, none, e1)
            | (none, e1) => (none, none, e1)
          | none => (none, none, e)
        else (none, tnx, e)
      match closed with
      | (some err, _, e1) => (some err, e1)
      | (none, tnx1, e1) =>
        let opened : Txn × Engine :=
          match tnx1 with
          | some x => (x, e1)
          | none => newTransaction e1
        match c.marshal (toRaftLog log) with
        | Except.error err => (some err, opened.2)
        | Except.ok data =>
          match txnSet f opened.1 (t.getRawKey log.Index) data opened.2 with
          | (some err, _, e3) => (some err, e3)
          | (none, tnx3, e3) => t.StoreLogsLoop c f maxBatchSize (i + 1) rest (some tnx3) e3

/-- Method `StoreLogs`. -/
def logStore.StoreLogs (t : logStore) (c : Codec) (f : Faults) (maxBatchSize : Nat)
    (logs : List Log) (e : Engine) : Option Error × Engine :=
  t.StoreLogsLoop c f maxBatchSize 0 logs none e

/-- The view an iterator opened in a transaction walks: the snapshot with the writes
buffered so far. -/
def Txn.view (x : Txn) : DB := x.snapshot.apply x.pending

/-- The code after the loop of `DeleteRange`: the iterator is closed and the open
transaction, if any, committed. -/
def DeleteRangeFinish (f : Faults) (txn : Option Txn) (e : Engine) : Option Error × Engine :=
  match txn with
  | some x => txnCommit f x e
  | none => (none, e)

/-- What one pass through the body of the loop of `DeleteRange` leads to: `exit` is a
`break` (the code after the loop runs with the open transaction), `fail` is a `return err`,
`next` is the end of the body, where `index++` has produced the next value of the loop
variable. -/
inductive LoopStep where
  | exit (txn : Option Txn) (e : Engine)
  | fail (err : Error) (e : Engine)
  | next (index : Nat) (txn : Txn) (it : Iterator) (e : Engine)
  deriving DecidableEq, Repr

/-- First part of the loop body of `DeleteRange`: when `index` is a multiple of the batch
size, the iterator is closed and the open transaction committed. -/
def DeleteRangeFlush (f : Faults) (maxBatchSize index : Nat) (txn : Option Txn)
    (it : Option Iterator) (e : Engine) :
    Option Error × Option Txn × Option Iterator × Engine :=
  if index % maxBatchSize = 0 then
    match txn with
    | some x =>
      match txnCommit f x e with
      | (some err, e1) => (some err, none, none, e1)
      | (none, e1) => (none, none, none, e1)
    | none => (none, none, none, e)
  else (none, txn, it, e)

/-- Last part of the loop body of `DeleteRange`, from `it.ValidForPrefix` on: the item under
the iterator is deleted when its key ends in eight bytes that decode to at most `max`. -/
def logStore.DeleteRangeItem (t : logStore) (f : Faults) (max index : Nat) (x : Txn)
    (it : Iterator) (e : Engine) : LoopStep :=
  if it.validForPfx t.pfx then
    match it.items with
    | [] => LoopStep.exit (some x) e
    | item :: _ =>
      let rawKey := item.1
      if rawKey.length < t.pfxLen then LoopStep.fail Error.panic e
      else
        let key := rawKey.drop t.pfxLen
        if key.length = 8 then
          match uint64 key with
          | none => LoopStep.fail Error.panic e
          | some idx =>
            if idx > max then LoopStep.exit (some x) e
            else
              match txnDelete f x rawKey e with
              | (some err, _, e3) => LoopStep.fail err e3
              | (none, x3, e3) => LoopStep.next ((idx + 1) % 2 ^ 64) x3 it.next e3
        else LoopStep.next ((index + 1) % 2 ^ 64) x it.next e
  else LoopStep.exit (some x) e

/-- The loop body of `DeleteRange`: flush at a batch boundary, open the transaction and the
iterator when there is none (the iterator seeks `getRawKey index`), handle the item. -/
def logStore.DeleteRangeIter (t : logStore) (f : Faults) (maxBatchSize max index : Nat)
    (txn : Option Txn) (it : Option Iterator) (e : Engine) : LoopStep :=
  if maxBatchSize = 0 then LoopStep.fail Error.panic e
  else
    match DeleteRangeFlush f maxBatchSize index txn it e with
    | (some err, _, _, e1) => LoopStep.fail err e1
    | (none, txn1, it1, e1) =>
      let opened : Txn × Engine :=
        match txn1 with
        | some x => (x, e1)
        | none => newTransaction e1
      let it2 : Iterator :=
        match it1 with
        | some i => i
        | none => seekForward opened.1.view (t.getRawKey index)
      t.DeleteRangeItem f max index opened.1 it2 opened.2

/-- The loop of `DeleteRange` with the loop variable at `index`; the first argument bounds
the number of iterations, and `none` means that the bound was reached. -/
def logStore.DeleteRangeLoop (t : logStore) (f : Faults) (maxBatchSize max : Nat) :
    Nat → Nat → Option Txn → Option Iterator → Engine → Option (Option Error × Engine)
  | 0, _, _, _, _ => none
  | fuel + 1, index, txn, it, e =>
    if index ≤ max then
      match t.DeleteRangeIter f maxBatchSize max index txn it e with
      | LoopStep.exit txn1 e1 => some (DeleteRangeFinish f txn1 e1)
      | LoopStep.fail err e1 => some (some err, e1)
      | LoopStep.next index1 txn1 it1 e1 =>
        t.DeleteRangeLoop f maxBatchSize max fuel index1 (some txn1) (some it1) e1
    else some (DeleteRangeFinish f txn e)

/-- Method `DeleteRange`, run for at most `fuel` iterations of its loop. -/
def logStore.DeleteRange (t : logStore) (f : Faults) (maxBatchSize fuel min max : Nat)
    (e : Engine) : Option (Option Error × Engine) :=
  t.DeleteRangeLoop f maxBatchSize max fuel min none none e

/-! ## The stable store -/

/-- Type `stableStore` without the engine handle, which is passed to each operation. -/
structure stableStore where
  pfx : Bytes
  deriving DecidableEq, Repr

/-- Constructor `NewStableStore`. -/
def NewStableStore (pfx : Bytes) : stableStore :=
  { pfx := pfx }

/-- Method `Set` of the stable store: one entry with the key `append(t.prefix, key...)` is
set in a transaction of its own, which is then committed. -/
def stableStore.Set (t : stableStore) (f : Faults) (key val : Bytes) (e : Engine) :
    Option Error × Engine :=
  match newTransaction e with
  | (tx, e1) =>
    match txnSet f tx (t.pfx ++ key) val e1 with
    | (some err, _, e2) => (some err, e2)
    | (none, tx2, e2) => txnCommit f tx2 e2

/-- Helper `y.SafeCopy(a, src)` of the engine, `append(a[:0], src...)`: the result has the
length of `src`, whatever the length of `a`. -/
def safeCopy (a src : Bytes) : Bytes := a.take 0 ++ src

/-- Call `item.ValueCopy(dst)`: the stored value copied over `dst`. -/
def valueCopy (value dst : Bytes) : Except Error Bytes := Except.ok (safeCopy dst value)

/-- Method `getImpl`: the bytes and the error returned. An absent key yields `dst` and no
error. -/
def stableStore.getImpl (t : stableStore) (db : DB) (key dst : Bytes) : Bytes × Option Error :=
  let rawKey := t.pfx ++ key
  match txnGet db rawKey with
  | Except.error err =>
    if err = Error.ErrKeyNotFound then (dst, none) else ([], some err)
  | Except.ok value =>
    match valueCopy value dst with
    | Except.error _ => ([], some (Error.engine 0))
    | Except.ok data => (data, none)

/-- Method `Get` of the stable store: `getImpl(key, nil)`. -/
def stableStore.Get (t : stableStore) (db : DB) (key : Bytes) : Bytes × Option Error :=
  t.getImpl db key []

/-- Method `SetUint64`: `Set` with the eight big-endian bytes of `val`. -/
def stableStore.SetUint64 (t : stableStore) (f : Faults) (key : Bytes) (val : Nat)
    (e : Engine) : Option Error × Engine :=
  t.Set f key (putUint64 val) e

/-- Method `GetUint64`: `getImpl` with a destination of eight zero bytes, then
`binary.BigEndian.Uint64` on the bytes returned; a buffer shorter than eight bytes makes
the decoder panic, which is reported as `Error.panic`. -/
def stableStore.GetUint64 (t : stableStore) (db : DB) (key : Bytes) : Nat × Option Error :=
  match t.getImpl db key (List.replicate 8 (0 : Byte)) with
  | (_, some err) => (0, some err)
  | (buf, none) =>
    match uint64 buf with
    | some v => (v, none)
    | none => (0, some Error.panic)

/-- The prefix `"conf"` of the tests of the stable store. -/
def confPfx : Bytes := [99, 111, 110, 102]

/-- The key `"two"` of the tests of the stable store. -/
def keyTwo : Bytes := [116, 119, 111]

/-- The value `"val"` of the tests of the stable store. -/
def valVal : Bytes := [118, 97, 108]

/-! ## Vocabulary of the statements -/

/-- Index `i` has an entry: the key `getRawKey i` is present. -/
def logStore.stored (t : logStore) (db : DB) (i : Nat) : Prop :=
  (db.get (t.getRawKey i)).isSome = true

/-- Every key under the prefix has the shape written by `StoreLog` and `StoreLogs`:
the prefix followed by exactly eight bytes. -/
def logStore.onlyLogKeys (t : logStore) (db : DB) : Prop :=
  ∀ kv ∈ db, hasPfx kv.1 t.pfx = true → kv.1.length = t.pfxLen + 8

/-- Big-endian value of a byte string of any length. -/
def beVal : Bytes → Nat
  | [] => 0
  | x :: r => x.val * 256 ^ r.length + beVal r

/-- A fixed-layout serialization of `RaftLog`, used to instantiate the codec parameter:
index, term, type byte, length of the data, data, extensions. -/
def sampleMarshal (r : RaftLog) : Except Error Bytes :=
  Except.ok (putUint64 r.Index ++ putUint64 r.Term ++ [byte r.Typ.toNat] ++
    putUint64 r.Data.length ++ r.Data ++ r.Extensions)

/-- Inverse of `sampleMarshal`. -/
def sampleUnmarshal (b : Bytes) : Except Error RaftLog :=
  match uint64 b, uint64 (b.drop 8), (b.drop 16).head?, uint64 (b.drop 17) with
  | some i, some tm, some ty, some n =>
    if n ≤ (b.drop 25).length then
      Except.ok { Index := i, Term := tm, Typ := Int.ofNat ty.val,
                  Data := (b.drop 25).take n, Extensions := (b.drop 25).drop n }
    else Except.error (Error.encoding 1)
  | _, _, _, _ => Except.error (Error.encoding 1)

/-- The sample codec. -/
def sampleCodec : Codec := { marshal := sampleMarshal, unmarshal := sampleUnmarshal }

/-- The prefix `"log"` of the tests. -/
def logPfx : Bytes := [108, 111, 103]

/-- The entry `Index: 123, Data: "alex"` of the tests. -/
def sampleLog : Log :=
  { Index := 123, Term := 0, Typ := 0, Data := [97, 108, 101, 120], Extensions := [] }

/-- A zero `raft.Log`. -/
def zeroLog : Log := { Index := 0, Term := 0, Typ := 0, Data := [], Extensions := [] }

/-! ## Vocabulary for `StoreLogs` -/

/-- The write `StoreLogs` and `StoreLog` issue for an entry: its key and its serialization
(the value is irrelevant when `marshal` fails: no write is issued then). -/
def logStore.writeOf (t : logStore) (c : Codec) (log : Log) : Op :=
  Op.set (t.getRawKey log.Index)
    (match c.marshal (toRaftLog log) with
     | Except.ok d => d
     | Except.error _ => [])

/-- The entry serializes without error. -/
def Codec.marshals (c : Codec) (log : Log) : Prop :=
  ∃ d, c.marshal (toRaftLog log) = Except.ok d

/-- Sub-batch `k` of a list of writes for batch size `m`: the writes at positions
`k * m` up to `min ((k + 1) * m) n - 1`. -/
def batch (m : Nat) (ws : List Op) (k : Nat) : List Op := (ws.drop (k * m)).take m

/-- Number of sub-batches of `n` writes for batch size `m`: the ceiling of `n / m`. -/
def batchCount (m n : Nat) : Nat := (n + m - 1) / m

/-- What `StoreLogs` leaves behind, by outcome. On success every entry is written, in
`batchCount` transactions holding the consecutive sub-batches. On failure some number `k`
of leading sub-batches, not all of the list, is committed and nothing else is written. -/
def StoreLogsPost (t : logStore) (c : Codec) (m : Nat) (logs : List Log) (e0 : Engine)
    (res : Option Error × Engine) : Prop :=
  match res.1 with
  | none =>
    (∀ l ∈ logs, c.marshals l) ∧
    res.2.db = e0.db.apply (logs.map (t.writeOf c)) ∧
    res.2.committed = e0.committed ++
      (List.range (batchCount m logs.length)).map (batch m (logs.map (t.writeOf c))) ∧
    res.2.opened = e0.opened + batchCount m logs.length
  | some _ =>
    ∃ k, k * m < logs.length ∧
      (∀ l ∈ logs.take (k * m), c.marshals l) ∧
      res.2.db = e0.db.apply ((logs.take (k * m)).map (t.writeOf c)) ∧
      res.2.committed = e0.committed ++
        (List.range k).map (batch m (logs.map (t.writeOf c)))

/-- Loop invariant of `StoreLogs` at the head of the iteration for position `k * m + r`,
`pre` being the entries already handled: `k` sub-batches are committed and the open
transaction holds the `r` entries after them. -/
structure StoreLogsInv (t : logStore) (c : Codec) (m : Nat) (logs : List Log) (e0 : Engine)
    (pre : List Log) (k r : Nat) (tnx : Option Txn) (e : Engine) : Prop where
  len : pre.length = k * m + r
  rle : r ≤ m
  mar : ∀ l ∈ pre, c.marshals l
  db : e.db = e0.db.apply ((pre.take (k * m)).map (t.writeOf c))
  com : e.committed = e0.committed ++ (List.range k).map (batch m (logs.map (t.writeOf c)))
  txn : match tnx with
    | none => k = 0 ∧ r = 0 ∧ e.opened = e0.opened
    | some x => 1 ≤ r ∧ x.pending = (pre.drop (k * m)).map (t.writeOf c) ∧
        e.opened = e0.opened + k + 1

/-- Decision procedure for the field ranges. -/
instance Log.validDecidable (l : Log) : Decidable l.valid := by
  unfold Log.valid
  infer_instance

/-- The fault schedule in which exactly the call number `n` fails. -/
def failAt (n : Nat) : Faults := fun i => if i = n then some (Error.engine 1) else none

/-- Three entries with the indices 1, 2, 3. -/
def sampleLogs : List Log :=
  [ { Index := 1, Term := 1, Typ := 0, Data := [97], Extensions := [] },
    { Index := 2, Term := 1, Typ := 0, Data := [], Extensions := [] },
    { Index := 3, Term := 1, Typ := 1, Data := [98, 99], Extensions := [7] } ]

/-- The stored item of index `i` under the prefix `"log"`, with a one-byte value. -/
def logItem (i : Nat) (v : Byte) : Bytes × Bytes := ((NewLogStore logPfx).getRawKey i, [v])

/-- A key under the prefix `"log"` with a nine-byte suffix: the key of index `i` followed
by the byte `b`. Such a key is written by a log store whose prefix extends `"log"`. -/
def foreignItem (i : Nat) (b : Byte) : Bytes × Bytes :=
  ((NewLogStore logPfx).getRawKey i ++ [b], [0])

/-! ## Vocabulary for a failing `StoreLogs` -/

/-- A step of `StoreLogs` that can fail: the serialization (`proto.Marshal`) or the `Set` of
the entry at position `i`, or the `Commit` of sub-batch `k`, which the code attempts at the
head of the iteration for position `(k + 1) * m`, or after the loop for the last
sub-batch. -/
inductive FailedStep where
  | atMarshal (i : Nat)
  | atSet (i : Nat)
  | atCommit (k : Nat)
  deriving DecidableEq, Repr

/-- The sub-batch that fails with the step, for batch size `m`: the one holding the
position for a serialization or a `Set`, the one being committed for a `Commit`. -/
def FailedStep.subBatch (m : Nat) : FailedStep → Nat
  | atMarshal i => i / m
  | atSet i => i / m
  | atCommit k => k

/-- Number of engine calls `StoreLogs` makes before the step on a list of `n` entries: a
`Set` for every earlier position and a `Commit` for every earlier sub-batch. The `Set` of
position `i` is the call number `i + i / m`, and the `Commit` of sub-batch `k` follows the
`Set` of its last position, `min ((k + 1) * m) n - 1`. -/
def FailedStep.callsBefore (m n : Nat) : FailedStep → Nat
  | atMarshal i => i + i / m
  | atSet i => i + i / m
  | atCommit k => min ((k + 1) * m) n + k

/-- Number of entries `StoreLogs` serializes before the step. -/
def FailedStep.marshalledBefore (m n : Nat) : FailedStep → Nat
  | atMarshal i => i
  | atSet i => i + 1
  | atCommit k => min ((k + 1) * m) n

/-- The step itself fails with `err`: the codec refuses the entry at position `i`, or the
fault schedule answers the engine call of the step with `err`. `calls` is the number of
engine calls answered before `StoreLogs` starts. -/
def FailedStep.fails (c : Codec) (f : Faults) (m : Nat) (logs : List Log) (calls : Nat)
    (err : Error) : FailedStep → Prop
  | atMarshal i => ∃ l, logs[i]? = some l ∧ c.marshal (toRaftLog l) = Except.error err
  | atSet i => i < logs.length ∧ f (calls + (i + i / m)) = some err
  | atCommit k =>
    k * m < logs.length ∧ f (calls + (min ((k + 1) * m) logs.length + k)) = some err

/-- The step `s` is the first of the run to fail, with `err`: every serialization and
every engine call before it succeeds, and the step fails. -/
def failsFirstAt (c : Codec) (f : Faults) (m : Nat) (logs : List Log) (calls : Nat)
    (s : FailedStep) (err : Error) : Prop :=
  (∀ l ∈ logs.take (s.marshalledBefore m logs.length), c.marshals l) ∧
  (∀ j, j < s.callsBefore m logs.length → f (calls + j) = none) ∧
  s.fails c f m logs calls err

/-- The step `s` is not behind the head of the iteration for position `k * m + r`, where
`k` sub-batches are committed. -/
def stepAhead (m n : Nat) (s : FailedStep) (k r : Nat) : Prop :=
  match s with
  | FailedStep.atMarshal i => k * m + r ≤ i ∧ i < n
  | FailedStep.atSet i => k * m + r ≤ i ∧ i < n
  | FailedStep.atCommit k0 => k ≤ k0 ∧ k0 * m < n

/-- The outcome of a failing run: the error of the failing step, with as many transactions
committed as there are sub-batches before the failing one. -/
def failedWith (e0 : Engine) (m : Nat) (s : FailedStep) (err : Error)
    (res : Option Error × Engine) : Prop :=
  res.1 = some err ∧ res.2.committed.length = e0.committed.length + s.subBatch m

/-- The state at the head of an iteration of `StoreLogs` when no step has failed so far. -/
structure StoreLogsRun (c : Codec) (f : Faults) (m : Nat) (e0 : Engine) (pre : List Log)
    (k r : Nat) (tnx : Option Txn) (e : Engine) : Prop where
  len : pre.length = k * m + r
  rle : r ≤ m
  txn : match tnx with
    | none => k = 0 ∧ r = 0
    | some _ => 1 ≤ r
  calls : e.calls = e0.calls + (k * m + r + k)
  mar : ∀ l ∈ pre, c.marshals l
  ok : ∀ j, j < k * m + r + k → f (e0.calls + j) = none

/-- A codec that refuses the entries of type 1. -/
def pickyCodec : Codec :=
  { marshal := fun r => if r.Typ = 1 then Except.error (Error.encoding 2) else sampleMarshal r,
    unmarshal := sampleUnmarshal }

/-! ## Vocabulary for `DeleteRange` -/

/-- The index a key stands for, when the key is the prefix followed by eight bytes. -/
def logStore.indexOf (t : logStore) (key : Bytes) : Option Nat :=
  if hasPfx key t.pfx && decide (key.length = t.pfxLen + 8) then uint64 (key.drop t.pfxLen)
  else none

/-- The store without the entries whose index lies in `lo ≤ i < hi`. -/
def logStore.without (t : logStore) (lo hi : Nat) (db : DB) : DB :=
  db.filter (fun kv =>
    match t.indexOf kv.1 with
    | some i => !(decide (lo ≤ i) && decide (i < hi))
    | none => true)

/-- The writes buffered by the open transaction, if any. -/
def pendingOf : Option Txn → List Op
  | some x => x.pending
  | none => []

/-- Loop invariant of `DeleteRange` at the head of the loop on a store without foreign
keys, `db0` being the store at the call: with the buffered deletions applied, the store is
`db0` without the indices from `min` up to the loop variable, and the iterator, when open,
holds the items of `db0` from the key of the loop variable on. -/
structure DeleteRangeInv (pfx : Bytes) (min max : Nat) (db0 : DB) (i : Nat)
    (txn : Option Txn) (it : Option Iterator) (e : Engine) : Prop where
  lo : min ≤ i
  hi : i = min ∨ i ≤ max + 1
  lt : i < 2 ^ 64
  view : e.db.apply (pendingOf txn) = (NewLogStore pfx).without min i db0
  items : ∀ j, it = some j → j.items =
    db0.filter (fun kv => !decide (compareBytes kv.1 (pfx ++ putUint64 i) = Ordering.lt))
  both : txn = none ↔ it = none

/-- Number of items the iterator of `DeleteRange` may still visit. -/
def remaining (db0 : DB) : Option Iterator → Nat
  | some j => j.items.length
  | none => db0.length

/-- No entry of `db` has an index in `lo ≤ i < hi`. -/
def logStore.noneIn (t : logStore) (lo hi : Nat) (db : DB) : Prop :=
  ∀ kv ∈ db, ∀ i, t.indexOf kv.1 = some i → lo ≤ i → hi ≤ i

/-! ## Vocabulary for foreign keys -/

/-- The item `kv` holds the smallest key under the prefix. -/
def isFirstUnder (pfx : Bytes) (db : DB) (kv : Bytes × Bytes) : Prop :=
  kv ∈ db ∧ hasPfx kv.1 pfx = true ∧
    ∀ kv2 ∈ db, hasPfx kv2.1 pfx = true → kv2 = kv ∨ compareBytes kv.1 kv2.1 = Ordering.lt

/-- The item `kv` holds the greatest key under the prefix. -/
def isLastUnder (pfx : Bytes) (db : DB) (kv : Bytes × Bytes) : Prop :=
  kv ∈ db ∧ hasPfx kv.1 pfx = true ∧
    ∀ kv2 ∈ db, hasPfx kv2.1 pfx = true → kv2 = kv ∨ compareBytes kv2.1 kv.1 = Ordering.lt

/-- The store with the foreign keys removed: the keys under the prefix whose suffix is not
exactly eight bytes. -/
def dropForeign (pfx : Bytes) (db : DB) : DB :=
  db.filter (fun kv => !hasPfx kv.1 pfx || decide (kv.1.length = pfx.length + 8))

/-- Every buffered write is the deletion of a key with an eight-byte suffix. -/
def deletesLogKeys (t : logStore) (ops : List Op) : Prop :=
  ∀ op ∈ ops, ∃ k, op = Op.delete k ∧ k.length = t.pfxLen + 8

/-! ## Byte strings: encoding and order -/

theorem compareBytes_cons (a b : Byte) (as bs : Bytes) :
    compareBytes (a :: as) (b :: bs) =
      if a.val < b.val then Ordering.lt else if b.val < a.val then Ordering.gt
      else compareBytes as bs := by
  rw [compareBytes]
  simp only [Fin.lt_def]

theorem beVal_lt (b : Bytes) : beVal b < 256 ^ b.length := by
  induction b with
  | nil => simp [beVal]
  | cons x r ih =>
    have hx := x.isLt
    simp only [beVal, List.length_cons, pow_succ]
    nlinarith

theorem compareBytes_beVal (a b : Bytes) (h : a.length = b.length) :
    compareBytes a b =
      if beVal a < beVal b then Ordering.lt
      else if beVal b < beVal a then Ordering.gt else Ordering.eq := by
  induction a generalizing b with
  | nil =>
    cases b with
    | nil => simp [compareBytes, beVal]
    | cons y s => simp at h
  | cons x r ih =>
    cases b with
    | nil => simp at h
    | cons y s =>
      have hl : r.length = s.length := by simpa using h
      have h1 := beVal_lt r
      have h2 := beVal_lt s
      rw [compareBytes_cons, ih s hl]
      simp only [beVal, hl] at h1 ⊢
      rcases Nat.lt_trichotomy x.val y.val with hxy | hxy | hxy
      · have : x.val * 256 ^ s.length + beVal r < y.val * 256 ^ s.length + beVal s := by
          nlinarith
        rw [if_pos hxy, if_pos this]
      · rw [if_neg (by omega), if_neg (by omega), hxy]
        simp only [Nat.add_lt_add_iff_left]
      · have : y.val * 256 ^ s.length + beVal s < x.val * 256 ^ s.length + beVal r := by
          nlinarith
        rw [if_neg (by omega), if_pos hxy, if_neg (by omega), if_pos this]

theorem uint64_eq_beVal (b : Bytes) (hl : b.length = 8) : uint64 b = some (beVal b) := by
  match b, hl with
  | [b0, b1, b2, b3, b4, b5, b6, b7], _ =>
    simp only [uint64, beVal, List.length_cons, List.length_nil, Option.some.injEq]
    norm_num
    omega

theorem putUint64_length (v : Nat) : (putUint64 v).length = 8 := rfl

theorem uint64_putUint64 (v : Nat) (h : v < 2 ^ 64) : uint64 (putUint64 v) = some v := by
  simp only [putUint64, uint64, byte]
  congr 1
  omega

theorem uint64_lt (b : Bytes) (v : Nat) (h : uint64 b = some v) : v < 2 ^ 64 := by
  match b, h with
  | b0 :: b1 :: b2 :: b3 :: b4 :: b5 :: b6 :: b7 :: _, h =>
    simp only [uint64, Option.some.injEq] at h
    have := b0.isLt; have := b1.isLt; have := b2.isLt; have := b3.isLt
    have := b4.isLt; have := b5.isLt; have := b6.isLt; have := b7.isLt
    omega

theorem putUint64_uint64 (b : Bytes) (v : Nat) (hl : b.length = 8) (h : uint64 b = some v) :
    putUint64 v = b := by
  match b, hl, h with
  | [b0, b1, b2, b3, b4, b5, b6, b7], _, h =>
    simp only [uint64, Option.some.injEq] at h
    have := b0.isLt; have := b1.isLt; have := b2.isLt; have := b3.isLt
    have := b4.isLt; have := b5.isLt; have := b6.isLt; have := b7.isLt
    simp only [putUint64, byte, List.cons.injEq, and_true, Fin.ext_iff]
    omega

theorem beVal_putUint64 (v : Nat) (h : v < 2 ^ 64) : beVal (putUint64 v) = v := by
  have h1 := uint64_eq_beVal (putUint64 v) (putUint64_length v)
  rw [uint64_putUint64 v h] at h1
  exact (Option.some.inj h1).symm

theorem compareBytes_putUint64 (i j : Nat) (hi : i < 2 ^ 64) (hj : j < 2 ^ 64) :
    compareBytes (putUint64 i) (putUint64 j) =
      if i < j then Ordering.lt else if j < i then Ordering.gt else Ordering.eq := by
  rw [compareBytes_beVal (putUint64 i) (putUint64 j) rfl, beVal_putUint64 i hi,
    beVal_putUint64 j hj]

theorem putUint64_injective (i j : Nat) (hi : i < 2 ^ 64) (hj : j < 2 ^ 64)
    (h : putUint64 i = putUint64 j) : i = j := by
  have h1 := uint64_putUint64 i hi
  rw [h, uint64_putUint64 j hj] at h1
  exact (Option.some.inj h1).symm

theorem compareBytes_append_left (p a b : Bytes) :
    compareBytes (p ++ a) (p ++ b) = compareBytes a b := by
  induction p with
  | nil => rfl
  | cons x r ih =>
    rw [List.cons_append, List.cons_append, compareBytes_cons, if_neg (lt_irrefl _),
      if_neg (lt_irrefl _), ih]

theorem compareBytes_eq_iff (a b : Bytes) : compareBytes a b = Ordering.eq ↔ a = b := by
  induction a generalizing b with
  | nil => cases b <;> simp [compareBytes]
  | cons x r ih =>
    cases b with
    | nil => simp [compareBytes]
    | cons y s =>
      rw [compareBytes_cons]
      split_ifs with h1 h2
      · simp only [List.cons.injEq, false_iff, not_and, reduceCtorEq]
        intro h; rw [h] at h1; exact absurd h1 (lt_irrefl _)
      · simp only [List.cons.injEq, false_iff, not_and, reduceCtorEq]
        intro h; rw [h] at h2; exact absurd h2 (lt_irrefl _)
      · have hxy : x = y := Fin.ext (by omega)
        rw [ih s, hxy]
        simp

theorem compareBytes_self (a : Bytes) : compareBytes a a = Ordering.eq :=
  (compareBytes_eq_iff a a).2 rfl

theorem compareBytes_gt_iff (a b : Bytes) :
    compareBytes a b = Ordering.gt ↔ compareBytes b a = Ordering.lt := by
  induction a generalizing b with
  | nil => cases b <;> simp [compareBytes]
  | cons x r ih =>
    cases b with
    | nil => simp [compareBytes]
    | cons y s =>
      rw [compareBytes_cons, compareBytes_cons]
      split_ifs with h1 h2 h3 <;> first | omega | simp | exact ih s

theorem compareBytes_lt_trans (a b c : Bytes) (h1 : compareBytes a b = Ordering.lt)
    (h2 : compareBytes b c = Ordering.lt) : compareBytes a c = Ordering.lt := by
  induction a generalizing b c with
  | nil =>
    cases c with
    | nil => cases b <;> simp [compareBytes] at h1 h2
    | cons z u => rfl
  | cons x r ih =>
    cases b with
    | nil => simp [compareBytes] at h1
    | cons y s =>
      cases c with
      | nil => simp [compareBytes] at h2
      | cons z u =>
        rw [compareBytes_cons] at h1 h2 ⊢
        split_ifs at h1 h2 ⊢ <;> first | rfl | omega | simp at h1 | simp at h2 | exact ih s u h1 h2

theorem hasPfx_append (p x : Bytes) : hasPfx (p ++ x) p = true := by
  induction p with
  | nil => cases x <;> rfl
  | cons a r ih => simp [hasPfx, ih]

theorem hasPfx_eq_append (s p : Bytes) (h : hasPfx s p = true) : s = p ++ s.drop p.length := by
  induction p generalizing s with
  | nil => simp
  | cons a r ih =>
    cases s with
    | nil => simp [hasPfx] at h
    | cons b u =>
      simp only [hasPfx, Bool.and_eq_true, decide_eq_true_eq] at h
      rw [h.1, List.length_cons, List.drop_succ_cons, List.cons_append, ← ih u h.2]

theorem compareBytes_append_self (p x : Bytes) : compareBytes (p ++ x) p ≠ Ordering.lt := by
  induction p with
  | nil => cases x <;> simp [compareBytes]
  | cons a r ih =>
    rw [List.cons_append, compareBytes_cons, if_neg (lt_irrefl _), if_neg (lt_irrefl _)]
    exact ih

/-- A key between `p` and an extension of `p` in the key order is itself an extension of `p`. -/
theorem hasPfx_of_between (p h x : Bytes) (h1 : compareBytes h p ≠ Ordering.lt)
    (h2 : compareBytes h (p ++ x) ≠ Ordering.gt) : hasPfx h p = true := by
  induction p generalizing h with
  | nil => cases h <;> rfl
  | cons a r ih =>
    cases h with
    | nil => simp [compareBytes] at h1
    | cons b u =>
      rw [compareBytes_cons] at h1
      rw [List.cons_append, compareBytes_cons] at h2
      have hab : b = a := by
        apply Fin.ext
        by_contra hne
        rcases Nat.lt_or_gt_of_ne hne with hlt | hgt
        · rw [if_pos hlt] at h1; exact h1 rfl
        · rw [if_neg (by omega), if_pos hgt] at h2; exact h2 rfl
      subst hab
      rw [if_neg (lt_irrefl _), if_neg (lt_irrefl _)] at h1 h2
      simp [hasPfx, ih u h1 h2]

/-! ## The engine: lookups and order -/

theorem getRawKey_new (pfx : Bytes) (i : Nat) :
    (NewLogStore pfx).getRawKey i = pfx ++ putUint64 i := by
  simp [logStore.getRawKey, NewLogStore]

theorem DB.get_set (db : DB) (k v k2 : Bytes) :
    (db.set k v).get k2 = if k = k2 then some v else db.get k2 := by
  induction db with
  | nil => simp [DB.set, DB.get]
  | cons kv rest ih =>
    obtain ⟨k1, v1⟩ := kv
    simp only [DB.set]
    split
    · simp [DB.get]
    · next heq =>
      have hk : k = k1 := (compareBytes_eq_iff k k1).1 heq
      subst hk
      by_cases h : k = k2 <;> simp [DB.get, h]
    · next hgt =>
      have hk : k ≠ k1 := by
        intro h
        rw [h, compareBytes_self] at hgt
        exact absurd hgt (by decide)
      simp only [DB.get, ih]
      by_cases h : k = k2
      · subst h
        simp [Ne.symm hk]
      · simp [h]

theorem DB.get_mem (db : DB) (k v : Bytes) (h : db.get k = some v) : (k, v) ∈ db := by
  induction db with
  | nil => simp [DB.get] at h
  | cons kv rest ih =>
    obtain ⟨k1, v1⟩ := kv
    simp only [DB.get] at h
    split_ifs at h with hk
    · simp only [Option.some.injEq] at h
      simp [hk, h]
    · exact List.mem_cons_of_mem _ (ih h)

theorem DB.get_isSome_of_mem (db : DB) (kv : Bytes × Bytes) (h : kv ∈ db) :
    (db.get kv.1).isSome = true := by
  induction db with
  | nil => simp at h
  | cons a rest ih =>
    obtain ⟨k1, v1⟩ := a
    simp only [DB.get]
    split_ifs with hk
    · rfl
    · rcases List.mem_cons.1 h with h1 | h1
      · exact absurd (by rw [h1]) hk
      · exact ih h1

theorem DB.sorted_cons (a : Bytes × Bytes) (rest : DB) (h : DB.sorted (a :: rest) = true) :
    DB.sorted rest = true ∧ ∀ kv ∈ rest, compareBytes a.1 kv.1 = Ordering.lt := by
  induction rest generalizing a with
  | nil => simp [DB.sorted]
  | cons b rest ih =>
    simp only [DB.sorted, Bool.and_eq_true, decide_eq_true_eq] at h
    refine ⟨h.2, ?_⟩
    intro kv hkv
    rcases List.mem_cons.1 hkv with h1 | h1
    · rw [h1]; exact h.1
    · exact compareBytes_lt_trans _ _ _ h.1 ((ih b h.2).2 kv h1)

/-- In an ascending list, the first item that passes a filter precedes every other item
that passes it. -/
theorem DB.filter_head_le (db : DB) (q : Bytes × Bytes → Bool) (h : Bytes × Bytes) (tl : DB)
    (hs : DB.sorted db = true) (hf : db.filter q = h :: tl) :
    ∀ kv ∈ db, q kv = true → kv = h ∨ compareBytes h.1 kv.1 = Ordering.lt := by
  induction db with
  | nil => simp at hf
  | cons a rest ih =>
    have hsr := DB.sorted_cons a rest hs
    intro kv hkv hq
    by_cases hqa : q a = true
    · rw [List.filter_cons_of_pos hqa] at hf
      have hah : a = h := (List.cons.inj hf).1
      subst hah
      rcases List.mem_cons.1 hkv with h1 | h1
      · exact Or.inl h1
      · exact Or.inr (hsr.2 kv h1)
    · rw [List.filter_cons_of_neg hqa] at hf
      rcases List.mem_cons.1 hkv with h1 | h1
      · rw [h1] at hq; exact absurd hq hqa
      · exact ih hsr.1 hf kv h1 hq

/-! ## Boundary discovery -/

/-- The value of `boundaryIndex` on an iterator positioned on a key written by the log store. -/
theorem boundaryIndex_logKey (pfx : Bytes) (h : Bytes × Bytes) (tl : DB) (d : Nat)
    (hp : hasPfx h.1 pfx = true) (hl : h.1.length = pfx.length + 8) :
    (NewLogStore pfx).boundaryIndex ⟨h :: tl⟩ d = (beVal (h.1.drop pfx.length), none) ∧
      h.1 = pfx ++ putUint64 (beVal (h.1.drop pfx.length)) ∧
      beVal (h.1.drop pfx.length) < 2 ^ 64 := by
  have hk : (h.1.drop pfx.length).length = 8 := by simp [hl]
  have hu := uint64_eq_beVal _ hk
  refine ⟨?_, ?_, uint64_lt _ _ hu⟩
  · simp [logStore.boundaryIndex, Iterator.validForPfx, NewLogStore, hp, hl, hu]
  · rw [putUint64_uint64 _ _ hk hu]
    exact hasPfx_eq_append _ _ hp

theorem boundaryIndex_other (pfx : Bytes) (h : Bytes × Bytes) (tl : DB) (d : Nat)
    (hp : hasPfx h.1 pfx = false) :
    (NewLogStore pfx).boundaryIndex ⟨h :: tl⟩ d = (d, none) := by
  simp [logStore.boundaryIndex, Iterator.validForPfx, NewLogStore, hp]

theorem boundaryIndex_nil (t : logStore) (d : Nat) :
    t.boundaryIndex ⟨[]⟩ d = (d, none) := by
  simp [logStore.boundaryIndex, Iterator.validForPfx]

/-! ## `StoreLog` and `GetLog` -/

theorem logTypeOfInt_ofNat (n : Nat) (h : n < 256) : logTypeOfInt (Int.ofNat n) = n := by
  unfold logTypeOfInt
  simp only [Int.ofNat_eq_coe]
  omega

/-- A successful `StoreLog` leaves the store with the entry's key set to its serialization. -/
theorem StoreLog_ok (t : logStore) (c : Codec) (f : Faults) (log : Log) (e e2 : Engine)
    (hok : t.StoreLog c f log e = (none, e2)) :
    ∃ data, c.marshal (toRaftLog log) = Except.ok data ∧
      e2.db = e.db.set (t.getRawKey log.Index) data := by
  unfold logStore.StoreLog newTransaction at hok
  cases hm : c.marshal (toRaftLog log) with
  | error err => simp [hm] at hok
  | ok data =>
    refine ⟨data, rfl, ?_⟩
    simp only [hm, txnSet] at hok
    cases hf1 : f e.calls with
    | some err => simp [hf1] at hok
    | none =>
      simp only [hf1, txnCommit] at hok
      cases hf2 : f (e.calls + 1) with
      | some err => simp [hf2] at hok
      | none =>
        simp only [hf2, Prod.mk.injEq, true_and] at hok
        rw [← hok]
        simp [DB.apply, DB.applyOp]

/-- `GetLog` on a key holding the serialization of an entry. -/
theorem GetLog_of_get (t : logStore) (c : Codec) (db : DB) (log dst : Log) (data : Bytes)
    (hv : log.valid)
    (hg : db.get (t.getRawKey log.Index) = some data)
    (hu : c.unmarshal data = Except.ok (toRaftLog log)) :
    t.GetLog c db log.Index dst = (none, log) := by
  unfold logStore.GetLog txnGet
  simp only [hg, hu, toRaftLog, logTypeOfInt_ofNat log.Typ hv.2.2]

/-! ## `StoreLogs` -/

theorem boundary_iff (m k r : Nat) (h1 : 1 ≤ r) (h2 : r ≤ m) :
    (k * m + r) % m = 0 ↔ r = m := by
  rw [Nat.mul_comm, Nat.mul_add_mod]
  constructor
  · intro h
    by_contra hne
    rw [Nat.mod_eq_of_lt (by omega)] at h
    omega
  · intro h
    rw [h, Nat.mod_self]

theorem batchCount_eq (m k r : Nat) (h1 : 1 ≤ r) (h2 : r ≤ m) :
    batchCount m (k * m + r) = k + 1 := by
  unfold batchCount
  apply Nat.div_eq_of_lt_le
  · rw [Nat.add_mul]; omega
  · rw [Nat.add_mul, Nat.add_mul]; omega

theorem batchCount_zero (m : Nat) (hm : 0 < m) : batchCount m 0 = 0 := by
  unfold batchCount
  apply Nat.div_eq_of_lt
  omega

theorem DB.apply_append (db : DB) (a b : List Op) :
    db.apply (a ++ b) = (db.apply a).apply b := by
  simp [DB.apply, List.foldl_append]

theorem writeOf_of_marshal (t : logStore) (c : Codec) (log : Log) (data : Bytes)
    (h : c.marshal (toRaftLog log) = Except.ok data) :
    t.writeOf c log = Op.set (t.getRawKey log.Index) data := by
  simp [logStore.writeOf, h]

/-- The sub-batch `k` of the writes of `pre ++ rest` when `pre` ends inside it and either
fills it or is the whole list. -/
theorem batch_of_pre (w : Log → Op) (m k r : Nat) (pre rest : List Log)
    (hlen : pre.length = k * m + r) (hr : r ≤ m) (h : r = m ∨ rest = []) :
    batch m ((pre ++ rest).map w) k = (pre.drop (k * m)).map w := by
  unfold batch
  rw [← List.map_drop, ← List.map_take]
  congr 1
  rcases h with h | h
  · rw [List.drop_append_of_le_length (by omega), List.take_append_of_le_length (by simp; omega)]
    apply List.take_of_length_le
    simp; omega
  · subst h
    rw [List.append_nil]
    apply List.take_of_length_le
    simp; omega

/-- A failure with `k` sub-batches committed, `k * m` being inside `pre`, meets the
postcondition. -/
theorem StoreLogsPost_fail (t : logStore) (c : Codec) (m : Nat) (logs : List Log) (e0 : Engine)
    (pre rest : List Log) (k : Nat) (err : Error) (e : Engine)
    (hlogs : logs = pre ++ rest) (hk : k * m ≤ pre.length) (hlt : k * m < logs.length)
    (hmar : ∀ l ∈ pre, c.marshals l)
    (hdb : e.db = e0.db.apply ((pre.take (k * m)).map (t.writeOf c)))
    (hcom : e.committed = e0.committed ++
      (List.range k).map (batch m (logs.map (t.writeOf c)))) :
    StoreLogsPost t c m logs e0 (some err, e) := by
  have htake : logs.take (k * m) = pre.take (k * m) := by
    rw [hlogs, List.take_append_of_le_length hk]
  refine ⟨k, hlt, ?_, ?_, hcom⟩
  · intro l hl
    rw [htake] at hl
    exact hmar l (List.mem_of_mem_take hl)
  · show e.db = _
    rw [htake, hdb]

/-- The part of an iteration of `StoreLogs` after the transaction is open: serialize, `Set`,
continue. -/
theorem StoreLogs_body (t : logStore) (c : Codec) (f : Faults) (m : Nat) (logs : List Log)
    (e0 : Engine) (log : Log) (rest pre : List Log) (hlogs : logs = pre ++ log :: rest)
    (ih : ∀ (k r : Nat) (tnx : Option Txn) (e : Engine),
      StoreLogsInv t c m logs e0 (pre ++ [log]) k r tnx e →
      StoreLogsPost t c m logs e0 (t.StoreLogsLoop c f m (k * m + r) rest tnx e))
    (k r : Nat) (x0 : Txn) (e1 : Engine)
    (hlen : pre.length = k * m + r) (hr : r < m) (hmar : ∀ l ∈ pre, c.marshals l)
    (hdb : e1.db = e0.db.apply ((pre.take (k * m)).map (t.writeOf c)))
    (hcom : e1.committed = e0.committed ++
      (List.range k).map (batch m (logs.map (t.writeOf c))))
    (hpend : x0.pending = (pre.drop (k * m)).map (t.writeOf c))
    (hop : e1.opened = e0.opened + k + 1) :
    StoreLogsPost t c m logs e0
      (match c.marshal (toRaftLog log) with
       | Except.error err => (some err, e1)
       | Except.ok data =>
         match txnSet f x0 (t.getRawKey log.Index) data e1 with
         | (some err, _, e3) => (some err, e3)
         | (none, tnx3, e3) => t.StoreLogsLoop c f m (k * m + r + 1) rest (some tnx3) e3) := by
  have hk : k * m ≤ pre.length := by omega
  have hlt : k * m < logs.length := by rw [hlogs]; simp; omega
  cases hm : c.marshal (toRaftLog log) with
  | error err =>
    exact StoreLogsPost_fail t c m logs e0 pre (log :: rest) k err e1 hlogs hk hlt hmar hdb hcom
  | ok data =>
    simp only [txnSet]
    cases hf : f e1.calls with
    | some err =>
      exact StoreLogsPost_fail t c m logs e0 pre (log :: rest) k err _ hlogs hk hlt hmar hdb hcom
    | none =>
      simp only []
      apply ih k (r + 1)
      refine ⟨by simp; omega, by omega, ?_, ?_, hcom, ?_⟩
      · intro l hl
        rcases List.mem_append.1 hl with h1 | h1
        · exact hmar l h1
        · rw [List.mem_singleton.1 h1]; exact ⟨data, hm⟩
      · show e1.db = _
        rw [List.take_append_of_le_length hk, hdb]
      · refine ⟨by omega, ?_, hop⟩
        show x0.pending ++ [Op.set (t.getRawKey log.Index) data] = _
        rw [List.drop_append_of_le_length hk, List.map_append, hpend, List.map_singleton,
          writeOf_of_marshal t c log data hm]

theorem DB.apply_take_drop (db : DB) (w : Log → Op) (pre : List Log) (n : Nat) :
    (db.apply ((pre.take n).map w)).apply ((pre.drop n).map w) = db.apply (pre.map w) := by
  rw [← DB.apply_append, ← List.map_append, List.take_append_drop]

/-- The loop of `StoreLogs` establishes the postcondition from any state that satisfies the
loop invariant. -/
theorem StoreLogsLoop_post (t : logStore) (c : Codec) (f : Faults) (m : Nat) (logs : List Log)
    (e0 : Engine) (hm : 0 < m) :
    ∀ (rest pre : List Log) (k r : Nat) (tnx : Option Txn) (e : Engine),
      logs = pre ++ rest → StoreLogsInv t c m logs e0 pre k r tnx e →
      StoreLogsPost t c m logs e0 (t.StoreLogsLoop c f m (k * m + r) rest tnx e) := by
  intro rest
  induction rest with
  | nil =>
    intro pre k r tnx e hlogs inv
    rw [List.append_nil] at hlogs
    subst hlogs
    cases tnx with
    | none =>
      obtain ⟨hk, hr, hop⟩ := inv.txn
      have hlen := inv.len
      have hdb := inv.db
      have hcom := inv.com
      subst hk hr
      simp only [Nat.zero_mul, Nat.add_zero, List.length_eq_zero] at hlen
      subst hlen
      simp only [logStore.StoreLogsLoop]
      refine ⟨by simp, ?_, ?_, ?_⟩
      · simpa [DB.apply] using hdb
      · simpa [batchCount_zero m hm] using hcom
      · simpa [batchCount_zero m hm] using hop
    | some x =>
      obtain ⟨hr1, hpend, hop⟩ := inv.txn
      simp only [logStore.StoreLogsLoop, txnCommit]
      cases hf : f e.calls with
      | some err =>
        exact StoreLogsPost_fail t c m logs e0 logs [] k err _ (by simp)
          (by rw [inv.len]; omega) (by rw [inv.len]; omega) inv.mar inv.db inv.com
      | none =>
        have hb := batch_of_pre (t.writeOf c) m k r logs [] inv.len inv.rle (Or.inr rfl)
        rw [List.append_nil] at hb
        refine ⟨inv.mar, ?_, ?_, ?_⟩
        · show e.db.apply x.pending = _
          rw [inv.db, hpend, DB.apply_take_drop]
        · show e.committed ++ [x.pending] = _
          rw [inv.len, batchCount_eq m k r hr1 inv.rle, List.range_succ, List.map_append,
            ← List.append_assoc, ← inv.com, List.map_singleton, hb, hpend]
        · show e.opened = _
          rw [inv.len, batchCount_eq m k r hr1 inv.rle, hop, Nat.add_assoc]
  | cons log rest ih =>
    intro pre k r tnx e hlogs inv
    have hlogs2 : logs = (pre ++ [log]) ++ rest := by rw [hlogs]; simp
    have ih2 := fun k r tnx e => ih (pre ++ [log]) k r tnx e hlogs2
    have hm0 : m ≠ 0 := by omega
    simp only [logStore.StoreLogsLoop, hm0, if_false]
    cases tnx with
    | none =>
      obtain ⟨hk, hr, hop⟩ := inv.txn
      subst hk hr
      simp only [Nat.zero_mul, Nat.add_zero, Nat.zero_mod, if_true, newTransaction]
      have := StoreLogs_body t c f m logs e0 log rest pre hlogs ih2 0 0
        { snapshot := e.db, pending := [] } { e with opened := e.opened + 1 }
        inv.len hm inv.mar inv.db inv.com (by
          have := inv.len
          simp only [Nat.zero_mul, Nat.add_zero, List.length_eq_zero] at this
          simp [this]) (by show e.opened + 1 = _; rw [hop])
      simpa using this
    | some x =>
      obtain ⟨hr1, hpend, hop⟩ := inv.txn
      by_cases hrm : r = m
      · simp only [(boundary_iff m k r hr1 inv.rle).2 hrm, if_true, txnCommit]
        cases hf : f e.calls with
        | some err =>
          exact StoreLogsPost_fail t c m logs e0 pre (log :: rest) k err _ hlogs
            (by rw [inv.len]; omega) (by rw [hlogs]; simp; rw [inv.len]; omega)
            inv.mar inv.db inv.com
        | none =>
          simp only [newTransaction]
          have hlen2 : pre.length = (k + 1) * m + 0 := by
            rw [inv.len, Nat.add_mul, hrm]; omega
          have hidx : k * m + r = (k + 1) * m + 0 := by rw [← inv.len, hlen2]
          have hb := batch_of_pre (t.writeOf c) m k r pre (log :: rest) inv.len inv.rle
            (Or.inl hrm)
          rw [← hlogs] at hb
          rw [hidx]
          exact StoreLogs_body t c f m logs e0 log rest pre hlogs ih2 (k + 1) 0
            { snapshot := e.db.apply x.pending, pending := [] } _ hlen2 hm inv.mar
            (by
              show e.db.apply x.pending = _
              rw [List.take_of_length_le (by omega), inv.db, hpend, DB.apply_take_drop])
            (by
              show e.committed ++ [x.pending] = _
              rw [List.range_succ, List.map_append, ← List.append_assoc, ← inv.com,
                List.map_singleton, hb, hpend])
            (by
              show [] = _
              rw [List.drop_of_length_le (by omega)]; rfl)
            (by show e.opened + 1 = _; rw [hop]; omega)
      · have hlt : r < m := lt_of_le_of_ne inv.rle hrm
        have hnb : ¬ (k * m + r) % m = 0 := fun h => hrm ((boundary_iff m k r hr1 inv.rle).1 h)
        simp only [hnb, if_false]
        exact StoreLogs_body t c f m logs e0 log rest pre hlogs ih2 k r x e inv.len hlt
          inv.mar inv.db inv.com hpend hop

/-- The postcondition holds for `StoreLogs`. -/
theorem StoreLogs_post (t : logStore) (c : Codec) (f : Faults) (m : Nat) (logs : List Log)
    (e : Engine) (hm : 0 < m) :
    StoreLogsPost t c m logs e (t.StoreLogs c f m logs e) := by
  have := StoreLogsLoop_post t c f m logs e hm logs [] 0 0 none e (by simp)
    ⟨by simp, by omega, by simp, by simp [DB.apply], by simp, ⟨rfl, rfl, rfl⟩⟩
  simpa [logStore.StoreLogs] using this

/-! ## `StoreLogs` when a step fails -/

theorem div_of_inv (m k r : Nat) (hr : r < m) : (k * m + r) / m = k := by
  apply Nat.div_eq_of_lt_le
  · omega
  · rw [Nat.add_mul]; omega

theorem le_div_of_mul_le (m k i : Nat) (hm : 0 < m) (h : k * m ≤ i) : k ≤ i / m :=
  (Nat.le_div_iff_mul_le hm).2 h

theorem stepAhead_boundary (m n : Nat) (s : FailedStep) (k : Nat) (hm : 0 < m)
    (h : stepAhead m n s k m) (hn : k * m + m < n) :
    (s = FailedStep.atCommit k ∧ min ((k + 1) * m) n + k = k * m + m + k) ∨
    (k * m + m + k < s.callsBefore m n ∧ stepAhead m n s (k + 1) 0) := by
  have e1 : (k + 1) * m = k * m + m := by rw [Nat.add_mul, Nat.one_mul]
  cases s with
  | atMarshal i =>
    right
    simp only [stepAhead] at h
    have := le_div_of_mul_le m (k + 1) i hm (by omega)
    simp only [FailedStep.callsBefore, stepAhead]
    omega
  | atSet i =>
    right
    simp only [stepAhead] at h
    have := le_div_of_mul_le m (k + 1) i hm (by omega)
    simp only [FailedStep.callsBefore, stepAhead]
    omega
  | atCommit k0 =>
    simp only [stepAhead] at h
    by_cases hk : k0 = k
    · left
      subst hk
      exact ⟨rfl, by omega⟩
    · right
      have h2 : (k + 1) * m ≤ (k0 + 1) * m := Nat.mul_le_mul_right m (by omega)
      simp only [FailedStep.callsBefore, stepAhead]
      omega

theorem stepAhead_marshal (m n : Nat) (s : FailedStep) (k r : Nat)
    (h : stepAhead m n s k r) (hr : r < m) (hn : k * m + r < n) :
    s = FailedStep.atMarshal (k * m + r) ∨ k * m + r < s.marshalledBefore m n := by
  cases s with
  | atMarshal i =>
    simp only [stepAhead] at h
    by_cases hi : i = k * m + r
    · left; rw [hi]
    · right; simp only [FailedStep.marshalledBefore]; omega
  | atSet i =>
    simp only [stepAhead] at h
    right; simp only [FailedStep.marshalledBefore]; omega
  | atCommit k0 =>
    simp only [stepAhead] at h
    right
    have h2 : (k + 1) * m ≤ (k0 + 1) * m := Nat.mul_le_mul_right m (by omega)
    have e1 : (k + 1) * m = k * m + m := by rw [Nat.add_mul, Nat.one_mul]
    simp only [FailedStep.marshalledBefore]
    omega

theorem stepAhead_set (m n : Nat) (s : FailedStep) (k r : Nat) (hm : 0 < m)
    (h : stepAhead m n s k r) (hr : r < m) (hn : k * m + r < n)
    (hs : s ≠ FailedStep.atMarshal (k * m + r)) :
    s = FailedStep.atSet (k * m + r) ∨
    (k * m + r + k < s.callsBefore m n ∧ stepAhead m n s k (r + 1)) := by
  cases s with
  | atMarshal i =>
    simp only [stepAhead] at h
    right
    have hi : i ≠ k * m + r := fun hh => hs (by rw [hh])
    have := le_div_of_mul_le m k i hm (by omega)
    simp only [FailedStep.callsBefore, stepAhead]
    omega
  | atSet i =>
    simp only [stepAhead] at h
    by_cases hi : i = k * m + r
    · left; rw [hi]
    · right
      have := le_div_of_mul_le m k i hm (by omega)
      simp only [FailedStep.callsBefore, stepAhead]
      omega
  | atCommit k0 =>
    simp only [stepAhead] at h
    right
    have h2 : (k + 1) * m ≤ (k0 + 1) * m := Nat.mul_le_mul_right m (by omega)
    have e1 : (k + 1) * m = k * m + m := by rw [Nat.add_mul, Nat.one_mul]
    simp only [FailedStep.callsBefore, stepAhead]
    omega

theorem stepAhead_end (m n : Nat) (s : FailedStep) (k r : Nat)
    (h : stepAhead m n s k r) (hr : r ≤ m) (hn : n = k * m + r) :
    s = FailedStep.atCommit k ∧ min ((k + 1) * m) n = n := by
  have e1 : (k + 1) * m = k * m + m := by rw [Nat.add_mul, Nat.one_mul]
  cases s with
  | atMarshal i => simp only [stepAhead] at h; omega
  | atSet i => simp only [stepAhead] at h; omega
  | atCommit k0 =>
    simp only [stepAhead] at h
    have : k0 = k := by
      by_contra hc
      have h2 : (k + 1) * m ≤ k0 * m := Nat.mul_le_mul_right m (by omega)
      omega
    subst this
    exact ⟨rfl, by omega⟩


theorem mem_take_of_pre (logs pre rest : List Log) (log : Log) (M : Nat)
    (hlogs : logs = pre ++ log :: rest) (hM : pre.length < M) : log ∈ logs.take M := by
  rw [hlogs, List.take_append_eq_append_take]
  apply List.mem_append_right
  obtain ⟨d, hd⟩ : ∃ d, M - pre.length = d + 1 := ⟨M - pre.length - 1, by omega⟩
  rw [hd, List.take_succ_cons]
  exact List.mem_cons_self _ _

theorem getElem?_of_pre (logs pre rest : List Log) (log : Log)
    (hlogs : logs = pre ++ log :: rest) : logs[pre.length]? = some log := by
  rw [hlogs, List.getElem?_append_right (le_refl _)]
  simp

/-- The part of an iteration of `StoreLogs` after the transaction is open, when a step at or
after this position is the first to fail. -/
theorem StoreLogs_body_fails (t : logStore) (c : Codec) (f : Faults) (m : Nat)
    (logs : List Log) (e0 : Engine) (s : FailedStep) (err : Error) (hm : 0 < m)
    (hf : failsFirstAt c f m logs e0.calls s err)
    (log : Log) (rest pre : List Log) (hlogs : logs = pre ++ log :: rest)
    (ih : ∀ (k r : Nat) (tnx : Option Txn) (e : Engine),
      (pre ++ [log]).length = k * m + r → r ≤ m →
      (match tnx with
       | none => k = 0 ∧ r = 0
       | some _ => 1 ≤ r) →
      e.calls = e0.calls + (k * m + r + k) →
      e.committed.length = e0.committed.length + k →
      stepAhead m logs.length s k r →
      failedWith e0 m s err (t.StoreLogsLoop c f m (k * m + r) rest tnx e))
    (k r : Nat) (x0 : Txn) (e1 : Engine)
    (hlen : pre.length = k * m + r) (hr : r < m)
    (hcalls : e1.calls = e0.calls + (k * m + r + k))
    (hcom : e1.committed.length = e0.committed.length + k)
    (ha : stepAhead m logs.length s k r) :
    failedWith e0 m s err
      (match c.marshal (toRaftLog log) with
       | Except.error err => (some err, e1)
       | Except.ok data =>
         match txnSet f x0 (t.getRawKey log.Index) data e1 with
         | (some err, _, e3) => (some err, e3)
         | (none, tnx3, e3) => t.StoreLogsLoop c f m (k * m + r + 1) rest (some tnx3) e3) := by
  have hn : k * m + r < logs.length := by rw [hlogs]; simp; omega
  have hget := getElem?_of_pre logs pre rest log hlogs
  rw [hlen] at hget
  have hdiv := div_of_inv m k r hr
  obtain ⟨hmar, hcall, hfails⟩ := hf
  rcases stepAhead_marshal m logs.length s k r ha hr hn with h1 | h1
  · subst h1
    obtain ⟨l, hl, hle⟩ := hfails
    rw [hget] at hl
    cases hl
    rw [hle]
    exact ⟨rfl, by show e1.committed.length = _; rw [hcom]; simp only [FailedStep.subBatch, hdiv]⟩
  · have hmem := mem_take_of_pre logs pre rest log _ hlogs (by rw [hlen]; exact h1)
    obtain ⟨data, hd⟩ := hmar log hmem
    rw [hd]
    simp only [txnSet]
    have hne : s ≠ FailedStep.atMarshal (k * m + r) := by
      intro hh
      subst hh
      obtain ⟨l, hl, hle⟩ := hfails
      rw [hget] at hl
      cases hl
      rw [hd] at hle
      cases hle
    rcases stepAhead_set m logs.length s k r hm ha hr hn hne with h2 | ⟨h2, h3⟩
    · subst h2
      obtain ⟨_, hfe⟩ := hfails
      rw [hdiv] at hfe
      rw [hcalls, hfe]
      exact ⟨rfl, by show e1.committed.length = _; rw [hcom]; simp only [FailedStep.subBatch, hdiv]⟩
    · rw [hcalls, hcall _ h2]
      simp only []
      apply ih k (r + 1)
      · simp; omega
      · omega
      · show 1 ≤ r + 1; omega
      · show e0.calls + (k * m + r + k) + 1 = _; omega
      · exact hcom
      · exact h3

/-- The loop of `StoreLogs` fails with the error of the first failing step and has committed
the sub-batches before the failing one. -/
theorem StoreLogsLoop_fails (t : logStore) (c : Codec) (f : Faults) (m : Nat)
    (logs : List Log) (e0 : Engine) (s : FailedStep) (err : Error) (hm : 0 < m)
    (hf : failsFirstAt c f m logs e0.calls s err) :
    ∀ (rest pre : List Log) (k r : Nat) (tnx : Option Txn) (e : Engine),
      logs = pre ++ rest → pre.length = k * m + r → r ≤ m →
      (match tnx with
       | none => k = 0 ∧ r = 0
       | some _ => 1 ≤ r) →
      e.calls = e0.calls + (k * m + r + k) →
      e.committed.length = e0.committed.length + k →
      stepAhead m logs.length s k r →
      failedWith e0 m s err (t.StoreLogsLoop c f m (k * m + r) rest tnx e) := by
  intro rest
  induction rest with
  | nil =>
    intro pre k r tnx e hlogs hlen hr htx hcalls hcom ha
    rw [List.append_nil] at hlogs
    have hn : logs.length = k * m + r := by rw [hlogs, hlen]
    obtain ⟨hs, hmin⟩ := stepAhead_end m logs.length s k r ha hr hn
    subst hs
    obtain ⟨_, _, hlt, hfe⟩ := hf
    cases tnx with
    | none =>
      obtain ⟨hk, hr0⟩ := htx
      subst hk hr0
      omega
    | some x =>
      rw [hmin, hn] at hfe
      simp only [logStore.StoreLogsLoop, txnCommit]
      rw [hcalls, hfe]
      exact ⟨rfl, hcom⟩
  | cons log rest ih =>
    intro pre k r tnx e hlogs hlen hr htx hcalls hcom ha
    have hlogs2 : logs = (pre ++ [log]) ++ rest := by rw [hlogs]; simp
    have ih2 := fun k r tnx e => ih (pre ++ [log]) k r tnx e hlogs2
    have hm0 : m ≠ 0 := by omega
    have hn : k * m + r < logs.length := by rw [hlogs]; simp; omega
    simp only [logStore.StoreLogsLoop, hm0, if_false]
    cases tnx with
    | none =>
      obtain ⟨hk, hr0⟩ := htx
      subst hk hr0
      simp only [Nat.zero_mul, Nat.add_zero, Nat.zero_mod, if_true, newTransaction]
      have := StoreLogs_body_fails t c f m logs e0 s err hm hf log rest pre hlogs ih2 0 0
        { snapshot := e.db, pending := [] } { e with opened := e.opened + 1 }
        hlen hm hcalls hcom ha
      simpa using this
    | some x =>
      by_cases hrm : r = m
      · have ha2 : stepAhead m logs.length s k m := hrm ▸ ha
        have hn2 : k * m + m < logs.length := by omega
        have hcalls2 : e.calls = e0.calls + (k * m + m + k) := by rw [hcalls, hrm]
        simp only [(boundary_iff m k r htx hr).2 hrm, if_true, txnCommit]
        rcases stepAhead_boundary m logs.length s k hm ha2 hn2 with ⟨h1, h2⟩ | ⟨h1, h2⟩
        · subst h1
          obtain ⟨_, _, hlt, hfe⟩ := hf
          rw [h2] at hfe
          rw [hcalls2, hfe]
          exact ⟨rfl, hcom⟩
        · rw [hcalls2, hf.2.1 _ h1]
          simp only [newTransaction]
          have hidx : k * m + r = (k + 1) * m + 0 := by rw [Nat.add_mul, hrm]; omega
          rw [hidx]
          exact StoreLogs_body_fails t c f m logs e0 s err hm hf log rest pre hlogs ih2 (k + 1) 0
            { snapshot := e.db.apply x.pending, pending := [] } _
            (by rw [hlen, hidx]) hm
            (by show e0.calls + (k * m + m + k) + 1 = _; rw [Nat.add_mul]; omega)
            (by show (e.committed ++ [x.pending]).length = _; simp [hcom]; omega)
            h2
      · have hlt : r < m := lt_of_le_of_ne hr hrm
        have hnb : ¬ (k * m + r) % m = 0 := fun h => hrm ((boundary_iff m k r htx hr).1 h)
        simp only [hnb, if_false]
        exact StoreLogs_body_fails t c f m logs e0 s err hm hf log rest pre hlogs ih2 k r x e
          hlen hlt hcalls hcom ha


theorem stepAhead_start (c : Codec) (f : Faults) (m : Nat) (logs : List Log) (calls : Nat)
    (s : FailedStep) (err : Error) (h : s.fails c f m logs calls err) :
    stepAhead m logs.length s 0 0 := by
  cases s with
  | atMarshal i =>
    obtain ⟨l, hl, _⟩ := h
    have := (List.getElem?_eq_some_iff.1 hl).1
    simp only [stepAhead]
    omega
  | atSet i =>
    simp only [stepAhead]
    have := h.1
    omega
  | atCommit k =>
    simp only [stepAhead]
    exact ⟨Nat.zero_le _, h.1⟩

theorem mem_pre_of_take (logs pre rest : List Log) (M : Nat) (hlogs : logs = pre ++ rest)
    (hM : M ≤ pre.length) (l : Log) (hl : l ∈ logs.take M) : l ∈ pre := by
  rw [hlogs, List.take_append_of_le_length hM] at hl
  exact List.mem_of_mem_take hl

theorem min_boundary (m n k r : Nat) (hr : r ≤ m) (hn : k * m + r ≤ n)
    (h : r = m ∨ n = k * m + r) : min ((k + 1) * m) n = k * m + r := by
  rw [Nat.add_mul, Nat.one_mul]
  omega

/-- An error of `Commit` for sub-batch `k` is a first failing step. -/
theorem failsFirstAt_commit (c : Codec) (f : Faults) (m : Nat) (logs : List Log) (e0 : Engine)
    (pre rest : List Log) (k r : Nat) (tnx : Option Txn) (e : Engine) (err : Error)
    (hlogs : logs = pre ++ rest) (run : StoreLogsRun c f m e0 pre k r tnx e) (hr : 1 ≤ r)
    (h : r = m ∨ rest = []) (hf : f e.calls = some err) :
    failsFirstAt c f m logs e0.calls (FailedStep.atCommit k) err := by
  have hn : logs.length = k * m + r + rest.length := by rw [hlogs]; simp [run.len]
  have hmin := min_boundary m logs.length k r run.rle (by omega)
    (h.imp id (fun h2 => by rw [hn, h2]; simp))
  refine ⟨?_, ?_, ?_, ?_⟩
  · intro l hl
    simp only [FailedStep.marshalledBefore, hmin] at hl
    exact run.mar l (mem_pre_of_take logs pre rest _ hlogs (by rw [run.len]) l hl)
  · intro j hj
    simp only [FailedStep.callsBefore, hmin] at hj
    exact run.ok j hj
  · omega
  · rw [hmin, ← run.calls]; exact hf


/-- The part of an iteration of `StoreLogs` after the transaction is open: an error it
returns comes from a first failing step. -/
theorem StoreLogs_body_step (t : logStore) (c : Codec) (f : Faults) (m : Nat)
    (logs : List Log) (e0 : Engine)
    (log : Log) (rest pre : List Log) (hlogs : logs = pre ++ log :: rest)
    (ih : ∀ (k r : Nat) (tnx : Option Txn) (e : Engine),
      StoreLogsRun c f m e0 (pre ++ [log]) k r tnx e →
      ∀ err, (t.StoreLogsLoop c f m (k * m + r) rest tnx e).1 = some err →
        ∃ s, failsFirstAt c f m logs e0.calls s err)
    (k r : Nat) (x0 : Txn) (e1 : Engine)
    (hlen : pre.length = k * m + r) (hr : r < m)
    (hcalls : e1.calls = e0.calls + (k * m + r + k))
    (hmar : ∀ l ∈ pre, c.marshals l)
    (hok : ∀ j, j < k * m + r + k → f (e0.calls + j) = none) (err : Error)
    (hres : (match c.marshal (toRaftLog log) with
       | Except.error err => (some err, e1)
       | Except.ok data =>
         match txnSet f x0 (t.getRawKey log.Index) data e1 with
         | (some err, _, e3) => (some err, e3)
         | (none, tnx3, e3) =>
           t.StoreLogsLoop c f m (k * m + r + 1) rest (some tnx3) e3).1 = some err) :
    ∃ s, failsFirstAt c f m logs e0.calls s err := by
  have hn : k * m + r < logs.length := by rw [hlogs]; simp; omega
  have hget := getElem?_of_pre logs pre rest log hlogs
  rw [hlen] at hget
  have hdiv := div_of_inv m k r hr
  cases hm : c.marshal (toRaftLog log) with
  | error err2 =>
    rw [hm] at hres
    cases hres
    refine ⟨FailedStep.atMarshal (k * m + r), ?_, ?_, log, hget, hm⟩
    · intro l hl
      exact hmar l (mem_pre_of_take logs pre _ _ hlogs (by rw [hlen]; exact le_refl _) l hl)
    · intro j hj
      simp only [FailedStep.callsBefore, hdiv] at hj
      exact hok j hj
  | ok data =>
    rw [hm] at hres
    simp only [txnSet] at hres
    have hmar2 : ∀ l ∈ pre ++ [log], c.marshals l := by
      intro l hl
      rcases List.mem_append.1 hl with h1 | h1
      · exact hmar l h1
      · rw [List.mem_singleton.1 h1]; exact ⟨data, hm⟩
    cases hf : f e1.calls with
    | some err2 =>
      rw [hf] at hres
      cases hres
      refine ⟨FailedStep.atSet (k * m + r), ?_, ?_, hn, ?_⟩
      · intro l hl
        have hlogs2 : logs = (pre ++ [log]) ++ rest := by rw [hlogs]; simp
        exact hmar2 l (mem_pre_of_take logs (pre ++ [log]) rest _ hlogs2
          (by simp [FailedStep.marshalledBefore, hlen]) l hl)
      · intro j hj
        simp only [FailedStep.callsBefore, hdiv] at hj
        exact hok j hj
      · rw [hdiv, ← hcalls]; exact hf
    | none =>
      rw [hf] at hres
      refine ih k (r + 1) _ _ ⟨by simp; omega, by omega, by show 1 ≤ r + 1; omega, ?_, hmar2, ?_⟩
        err hres
      · show e1.calls + 1 = _; rw [hcalls]; omega
      · intro j hj
        by_cases hj2 : j < k * m + r + k
        · exact hok j hj2
        · have : j = k * m + r + k := by omega
          rw [this, ← hcalls]; exact hf

/-- An error returned by the loop of `StoreLogs` comes from a first failing step. -/
theorem StoreLogsLoop_step (t : logStore) (c : Codec) (f : Faults) (m : Nat)
    (logs : List Log) (e0 : Engine) (hm : 0 < m) :
    ∀ (rest pre : List Log) (k r : Nat) (tnx : Option Txn) (e : Engine),
      logs = pre ++ rest → StoreLogsRun c f m e0 pre k r tnx e →
      ∀ err, (t.StoreLogsLoop c f m (k * m + r) rest tnx e).1 = some err →
        ∃ s, failsFirstAt c f m logs e0.calls s err := by
  intro rest
  induction rest with
  | nil =>
    intro pre k r tnx e hlogs run err hres
    cases tnx with
    | none =>
      simp only [logStore.StoreLogsLoop] at hres
      cases hres
    | some x =>
      simp only [logStore.StoreLogsLoop, txnCommit] at hres
      cases hf : f e.calls with
      | none => rw [hf] at hres; cases hres
      | some err2 =>
        rw [hf] at hres
        cases hres
        exact ⟨FailedStep.atCommit k,
          failsFirstAt_commit c f m logs e0 pre [] k r (some x) e err hlogs run run.txn
            (Or.inr rfl) hf⟩
  | cons log rest ih =>
    intro pre k r tnx e hlogs run err hres
    have hlogs2 : logs = (pre ++ [log]) ++ rest := by rw [hlogs]; simp
    have ih2 := fun k r tnx e => ih (pre ++ [log]) k r tnx e hlogs2
    have hm0 : m ≠ 0 := by omega
    simp only [logStore.StoreLogsLoop, hm0, if_false] at hres
    cases tnx with
    | none =>
      obtain ⟨hk, hr0⟩ := run.txn
      subst hk hr0
      simp only [Nat.zero_mul, Nat.add_zero, Nat.zero_mod, if_true, newTransaction] at hres
      exact StoreLogs_body_step t c f m logs e0 log rest pre hlogs ih2 0 0
        { snapshot := e.db, pending := [] } { e with opened := e.opened + 1 }
        run.len hm run.calls run.mar run.ok err (by simpa using hres)
    | some x =>
      have hr1 : 1 ≤ r := run.txn
      by_cases hrm : r = m
      · simp only [(boundary_iff m k r hr1 run.rle).2 hrm, if_true, txnCommit] at hres
        cases hf : f e.calls with
        | some err2 =>
          rw [hf] at hres
          cases hres
          exact ⟨FailedStep.atCommit k,
            failsFirstAt_commit c f m logs e0 pre (log :: rest) k r (some x) e err hlogs run
              hr1 (Or.inl hrm) hf⟩
        | none =>
          rw [hf] at hres
          simp only [newTransaction] at hres
          have hidx : k * m + r = (k + 1) * m + 0 := by rw [Nat.add_mul, hrm]; omega
          rw [hidx] at hres
          exact StoreLogs_body_step t c f m logs e0 log rest pre hlogs ih2 (k + 1) 0
            { snapshot := e.db.apply x.pending, pending := [] } _
            (by rw [run.len, hidx]) hm
            (by show e.calls + 1 = _; rw [run.calls, Nat.add_mul]; omega)
            run.mar
            (by
              intro j hj
              by_cases hj2 : j < k * m + r + k
              · exact run.ok j hj2
              · have : j = k * m + r + k := by rw [Nat.add_mul] at hj; omega
                rw [this, ← run.calls]; exact hf)
            err hres
      · have hlt : r < m := lt_of_le_of_ne run.rle hrm
        have hnb : ¬ (k * m + r) % m = 0 := fun h => hrm ((boundary_iff m k r hr1 run.rle).1 h)
        simp only [hnb, if_false] at hres
        exact StoreLogs_body_step t c f m logs e0 log rest pre hlogs ih2 k r x e
          run.len hlt run.calls run.mar run.ok err hres

/-- Every error of `StoreLogs` is the error of a first failing step: a serialization, a
`Set` or a `Commit` before which every serialization and every engine call succeeded. -/
theorem StoreLogs_error_has_step (t : logStore) (c : Codec) (f : Faults) (m : Nat)
    (logs : List Log) (e : Engine) (hm : 0 < m) (err : Error)
    (hres : (t.StoreLogs c f m logs e).1 = some err) :
    ∃ s, failsFirstAt c f m logs e.calls s err :=
  StoreLogsLoop_step t c f m logs e hm logs [] 0 0 none e (by simp)
    ⟨by simp, by omega, ⟨rfl, rfl⟩, by omega, by simp, by intro j hj; omega⟩ err
    (by simpa [logStore.StoreLogs] using hres)

/-! ## Reading back what `StoreLogs` wrote -/

theorem getRawKey_injective (t : logStore) (i j : Nat) (hi : i < 2 ^ 64) (hj : j < 2 ^ 64)
    (h : t.getRawKey i = t.getRawKey j) : i = j :=
  putUint64_injective i j hi hj (List.append_cancel_left h)

theorem get_apply_writes_other (t : logStore) (c : Codec) (logs : List Log) (db : DB)
    (k : Bytes) (h : ∀ l ∈ logs, t.getRawKey l.Index ≠ k) :
    (db.apply (logs.map (t.writeOf c))).get k = db.get k := by
  induction logs generalizing db with
  | nil => rfl
  | cons l rest ih =>
    have h1 : (db.apply ((l :: rest).map (t.writeOf c))) =
        (db.applyOp (t.writeOf c l)).apply (rest.map (t.writeOf c)) := rfl
    rw [h1, ih _ (fun l2 hl2 => h l2 (List.mem_cons_of_mem _ hl2))]
    simp only [logStore.writeOf, DB.applyOp, DB.get_set]
    rw [if_neg (h l (List.mem_cons_self _ _))]

/-- After the writes of entries with pairwise distinct indices, each key holds the
serialization of its entry. -/
theorem get_apply_writes (t : logStore) (c : Codec) (logs : List Log) (db : DB)
    (hv : ∀ l ∈ logs, l.valid) (hnd : (logs.map Log.Index).Nodup)
    (l : Log) (hl : l ∈ logs) (data : Bytes) (hm : c.marshal (toRaftLog l) = Except.ok data) :
    (db.apply (logs.map (t.writeOf c))).get (t.getRawKey l.Index) = some data := by
  induction logs generalizing db with
  | nil => simp at hl
  | cons l0 rest ih =>
    have h1 : (db.apply ((l0 :: rest).map (t.writeOf c))) =
        (db.applyOp (t.writeOf c l0)).apply (rest.map (t.writeOf c)) := rfl
    rw [List.map_cons, List.nodup_cons] at hnd
    rw [h1]
    by_cases hin : l ∈ rest
    · exact ih _ (fun l2 hl2 => hv l2 (List.mem_cons_of_mem _ hl2)) hnd.2 hin
    · have hl0 : l = l0 := by
        rcases List.mem_cons.1 hl with h | h
        · exact h
        · exact absurd h hin
      subst hl0
      rw [get_apply_writes_other, writeOf_of_marshal t c l data hm]
      · simp [DB.applyOp, DB.get_set]
      · intro l2 hl2 heq
        apply hnd.1
        have := getRawKey_injective t _ _ (hv l2 (List.mem_cons_of_mem _ hl2)).1
          (hv l (List.mem_cons_self _ _)).1 heq
        rw [← this]
        exact List.mem_map_of_mem _ hl2

/-! ## More on the key order -/

theorem compareBytes_trichotomy (a b : Bytes) :
    compareBytes a b = Ordering.lt ∨ a = b ∨ compareBytes b a = Ordering.lt := by
  cases h : compareBytes a b with
  | lt => exact Or.inl rfl
  | eq => exact Or.inr (Or.inl ((compareBytes_eq_iff a b).1 h))
  | gt => exact Or.inr (Or.inr ((compareBytes_gt_iff a b).1 h))

theorem compareBytes_lt_irrefl (a : Bytes) : compareBytes a a ≠ Ordering.lt := by
  rw [compareBytes_self]; decide

theorem compareBytes_lt_asymm (a b : Bytes) (h : compareBytes a b = Ordering.lt) :
    compareBytes b a ≠ Ordering.lt := by
  intro h2
  exact compareBytes_lt_irrefl a (compareBytes_lt_trans a b a h h2)

/-- From `a < b` and `b ≤ c` follows `a < c`. -/
theorem compareBytes_lt_of_lt_of_le (a b c : Bytes) (h1 : compareBytes a b = Ordering.lt)
    (h2 : compareBytes c b ≠ Ordering.lt) : compareBytes a c = Ordering.lt := by
  rcases compareBytes_trichotomy a c with h | h | h
  · exact h
  · subst h; exact absurd h1 h2
  · exact absurd (compareBytes_lt_trans c a b h h1) h2

/-- From `a ≤ b` and `b < c` follows `a < c`. -/
theorem compareBytes_lt_of_le_of_lt (a b c : Bytes) (h1 : compareBytes b a ≠ Ordering.lt)
    (h2 : compareBytes b c = Ordering.lt) : compareBytes a c = Ordering.lt := by
  rcases compareBytes_trichotomy a c with h | h | h
  · exact h
  · subst h; exact absurd h2 h1
  · exact absurd (compareBytes_lt_trans b c a h2 h) h1

/-- From `a ≥ b` and `b ≥ c` follows `a ≥ c`. -/
theorem compareBytes_ge_trans (a b c : Bytes) (h1 : compareBytes a b ≠ Ordering.lt)
    (h2 : compareBytes b c ≠ Ordering.lt) : compareBytes a c ≠ Ordering.lt := by
  intro h
  exact h1 (compareBytes_lt_of_lt_of_le a c b h h2)

/-- A key that does not extend `p` compares alike with all extensions of `p`. -/
theorem compareBytes_of_not_hasPfx (k p a b : Bytes) (h : hasPfx k p = false) :
    compareBytes k (p ++ a) = compareBytes k (p ++ b) := by
  induction p generalizing k with
  | nil => cases k <;> simp [hasPfx] at h
  | cons x r ih =>
    cases k with
    | nil => rfl
    | cons y u =>
      rw [List.cons_append, List.cons_append, compareBytes_cons, compareBytes_cons]
      by_cases hxy : y = x
      · subst hxy
        simp only [hasPfx, decide_True, Bool.true_and] at h
        rw [if_neg (lt_irrefl _), if_neg (lt_irrefl _), if_neg (lt_irrefl _),
          if_neg (lt_irrefl _)]
        exact ih u h
      · have : y.val ≠ x.val := fun hv => hxy (Fin.ext hv)
        rcases Nat.lt_or_gt_of_ne this with hlt | hgt
        · rw [if_pos hlt, if_pos hlt]
        · rw [if_neg (by omega), if_pos hgt, if_neg (by omega), if_pos hgt]

/-! ## Indices of stored keys -/

theorem indexOf_key (pfx : Bytes) (i : Nat) (hi : i < 2 ^ 64) :
    (NewLogStore pfx).indexOf (pfx ++ putUint64 i) = some i := by
  simp [logStore.indexOf, NewLogStore, hasPfx_append, putUint64_length, uint64_putUint64 i hi]

theorem indexOf_some (pfx k : Bytes) (i : Nat) (h : (NewLogStore pfx).indexOf k = some i) :
    k = pfx ++ putUint64 i ∧ i < 2 ^ 64 := by
  unfold logStore.indexOf at h
  split_ifs at h with hc
  simp only [NewLogStore, Bool.and_eq_true, decide_eq_true_eq] at hc h
  have hk : (k.drop pfx.length).length = 8 := by simp [hc.2]
  refine ⟨?_, uint64_lt _ _ h⟩
  rw [putUint64_uint64 _ _ hk h]
  exact hasPfx_eq_append _ _ hc.1

theorem indexOf_none (pfx k : Bytes) (h : hasPfx k pfx = false) :
    (NewLogStore pfx).indexOf k = none := by
  simp [logStore.indexOf, NewLogStore, h]

theorem indexOf_of_logKey (pfx k : Bytes) (hp : hasPfx k pfx = true)
    (hl : k.length = pfx.length + 8) :
    ∃ i, (NewLogStore pfx).indexOf k = some i := by
  have hk : (k.drop pfx.length).length = 8 := by simp [hl]
  exact ⟨beVal (k.drop pfx.length), by
    simp [logStore.indexOf, NewLogStore, hp, hl, uint64_eq_beVal _ hk]⟩

theorem key_lt_iff (pfx : Bytes) (i j : Nat) (hi : i < 2 ^ 64) (hj : j < 2 ^ 64) :
    compareBytes (pfx ++ putUint64 i) (pfx ++ putUint64 j) = Ordering.lt ↔ i < j := by
  rw [compareBytes_append_left, compareBytes_putUint64 i j hi hj]
  split_ifs with h1 h2 <;> simp [h1]

theorem without_empty (t : logStore) (lo hi : Nat) (db : DB) (h : hi ≤ lo) :
    t.without lo hi db = db := by
  unfold logStore.without
  apply List.filter_eq_self.2
  intro kv _
  split
  · simp; omega
  · rfl

theorem without_extend (t : logStore) (lo i hi : Nat) (db : DB) (_h1 : lo ≤ i) (h2 : i ≤ hi)
    (hn : t.noneIn i hi db) : t.without lo i db = t.without lo hi db := by
  unfold logStore.without
  apply List.filter_congr
  intro kv hkv
  cases hx : t.indexOf kv.1 with
  | none => rfl
  | some ix =>
    have := hn kv hkv ix hx
    rw [Bool.eq_iff_iff]
    simp only [Bool.not_eq_true', Bool.and_eq_false_iff, decide_eq_false_iff_not]
    omega

theorem without_delete (pfx : Bytes) (lo i idx : Nat) (db : DB) (h1 : lo ≤ i) (h2 : i ≤ idx)
    (hidx : idx < 2 ^ 64) (hn : (NewLogStore pfx).noneIn i idx db) :
    ((NewLogStore pfx).without lo i db).delete (pfx ++ putUint64 idx) =
      (NewLogStore pfx).without lo (idx + 1) db := by
  unfold logStore.without DB.delete
  rw [List.filter_filter]
  apply List.filter_congr
  intro kv hkv
  cases hx : (NewLogStore pfx).indexOf kv.1 with
  | none =>
    have : kv.1 ≠ pfx ++ putUint64 idx := by
      intro h
      rw [h, indexOf_key pfx idx hidx] at hx
      exact absurd hx (by simp)
    simp [this]
  | some ix =>
    have hk := indexOf_some pfx kv.1 ix hx
    have := hn kv hkv ix hx
    have hne : kv.1 = pfx ++ putUint64 idx ↔ ix = idx := by
      constructor
      · intro h
        rw [hk.1] at h
        exact putUint64_injective _ _ hk.2 hidx (List.append_cancel_left h)
      · intro h; rw [hk.1, h]
    rw [Bool.eq_iff_iff]
    simp only [Bool.and_eq_true, Bool.not_eq_true', Bool.and_eq_false_iff,
      decide_eq_false_iff_not, hne]
    omega

theorem without_filter_ge (pfx : Bytes) (lo i : Nat) (db : DB) (hi : i < 2 ^ 64) :
    ((NewLogStore pfx).without lo i db).filter
        (fun kv => !decide (compareBytes kv.1 (pfx ++ putUint64 i) = Ordering.lt)) =
      db.filter (fun kv => !decide (compareBytes kv.1 (pfx ++ putUint64 i) = Ordering.lt)) := by
  unfold logStore.without
  rw [List.filter_filter]
  apply List.filter_congr
  intro kv _
  cases hx : (NewLogStore pfx).indexOf kv.1 with
  | none => simp
  | some ix =>
    have hk := indexOf_some pfx kv.1 ix hx
    by_cases h : compareBytes kv.1 (pfx ++ putUint64 i) = Ordering.lt
    · simp [h]
    · have : ¬ ix < i := by
        intro h2
        apply h
        rw [hk.1]
        exact (key_lt_iff pfx ix i hk.2 hi).2 h2
      simp [h, this]

/-! ## Forward iteration over an ascending store -/

/-- After the first item at or after `a`, a forward iterator holds the items after that
item. -/
theorem DB.filter_ge_tail (db : DB) (a : Bytes) (h : Bytes × Bytes) (tl : DB)
    (hs : DB.sorted db = true)
    (hf : db.filter (fun kv => !decide (compareBytes kv.1 a = Ordering.lt)) = h :: tl) :
    tl = db.filter (fun kv => decide (compareBytes h.1 kv.1 = Ordering.lt)) := by
  induction db with
  | nil => simp at hf
  | cons x rest ih =>
    have hsr := DB.sorted_cons x rest hs
    by_cases hx : compareBytes x.1 a = Ordering.lt
    · rw [List.filter_cons_of_neg (by simp [hx])] at hf
      have hmem : h ∈ rest.filter (fun kv => !decide (compareBytes kv.1 a = Ordering.lt)) := by
        rw [hf]; exact List.mem_cons_self _ _
      have hha : compareBytes h.1 a ≠ Ordering.lt := by
        simpa using (List.mem_filter.1 hmem).2
      have hxh : compareBytes x.1 h.1 = Ordering.lt :=
        compareBytes_lt_of_lt_of_le x.1 a h.1 hx hha
      rw [List.filter_cons_of_neg (by simpa using compareBytes_lt_asymm _ _ hxh)]
      exact ih hsr.1 hf
    · rw [List.filter_cons_of_pos (by simp [hx])] at hf
      obtain ⟨hxe, htl⟩ := List.cons.inj hf
      subst hxe
      rw [List.filter_cons_of_neg (by simpa using compareBytes_lt_irrefl x.1), ← htl]
      apply List.filter_congr
      intro kv hkv
      have h1 := hsr.2 kv hkv
      have h2 : compareBytes kv.1 a ≠ Ordering.lt := by
        intro h3
        exact hx (compareBytes_lt_trans _ _ _ h1 h3)
      simp [h1, h2]

/-- Stepping past the key of index `idx` is the same as seeking the key of `idx + 1`, when
all keys under the prefix are keys of indices. -/
theorem filter_gt_key (pfx : Bytes) (db : DB) (idx : Nat) (hidx : idx + 1 < 2 ^ 64)
    (hw : (NewLogStore pfx).onlyLogKeys db) :
    db.filter (fun kv => decide (compareBytes (pfx ++ putUint64 idx) kv.1 = Ordering.lt)) =
      db.filter (fun kv =>
        !decide (compareBytes kv.1 (pfx ++ putUint64 (idx + 1)) = Ordering.lt)) := by
  apply List.filter_congr
  intro kv hkv
  rw [Bool.eq_iff_iff]
  simp only [decide_eq_true_eq, Bool.not_eq_true', decide_eq_false_iff_not]
  cases hp : hasPfx kv.1 pfx with
  | true =>
    obtain ⟨ix, hix⟩ := indexOf_of_logKey pfx kv.1 hp (hw kv hkv hp)
    obtain ⟨hk, hlt⟩ := indexOf_some pfx kv.1 ix hix
    rw [hk, key_lt_iff pfx idx ix (by omega) hlt, key_lt_iff pfx ix (idx + 1) hlt hidx]
    omega
  | false =>
    have heq := compareBytes_of_not_hasPfx kv.1 pfx (putUint64 idx) (putUint64 (idx + 1)) hp
    rw [← compareBytes_gt_iff, heq]
    constructor
    · intro h; rw [h]; decide
    · intro h
      cases hc : compareBytes kv.1 (pfx ++ putUint64 (idx + 1)) with
      | lt => exact absurd hc h
      | gt => rfl
      | eq =>
        rw [(compareBytes_eq_iff _ _).1 hc, hasPfx_append] at hp
        exact absurd hp (by decide)

/-- What the first item at or after the key of `i` tells about the stored indices from
`i` on: either it is the key of the least such index, or there is none. -/
theorem head_of_seek (pfx : Bytes) (db : DB) (i : Nat) (hi : i < 2 ^ 64)
    (h : Bytes × Bytes) (tl : DB) (hs : DB.sorted db = true)
    (hf : db.filter (fun kv => !decide (compareBytes kv.1 (pfx ++ putUint64 i) = Ordering.lt))
      = h :: tl) :
    (hasPfx h.1 pfx = false → (NewLogStore pfx).noneIn i (2 ^ 64) db) ∧
    (∀ idx, h.1 = pfx ++ putUint64 idx → idx < 2 ^ 64 →
      i ≤ idx ∧ (NewLogStore pfx).noneIn i idx db) := by
  have hle := DB.filter_head_le db _ h tl hs hf
  have hmem : h ∈ db.filter
      (fun kv => !decide (compareBytes kv.1 (pfx ++ putUint64 i) = Ordering.lt)) := by
    rw [hf]; exact List.mem_cons_self _ _
  have hh : compareBytes h.1 (pfx ++ putUint64 i) ≠ Ordering.lt := by
    simpa using (List.mem_filter.1 hmem).2
  have hge : ∀ kv ∈ db, ∀ ix, (NewLogStore pfx).indexOf kv.1 = some ix → i ≤ ix →
      kv = h ∨ compareBytes h.1 kv.1 = Ordering.lt := by
    intro kv hkv ix hix hiix
    obtain ⟨hk, hlt⟩ := indexOf_some pfx kv.1 ix hix
    apply hle kv hkv
    have : ¬ compareBytes kv.1 (pfx ++ putUint64 i) = Ordering.lt := by
      rw [hk, key_lt_iff pfx ix i hlt hi]; omega
    simpa using this
  constructor
  · intro hp kv hkv ix hix hiix
    exfalso
    obtain ⟨hk, hlt⟩ := indexOf_some pfx kv.1 ix hix
    rcases hge kv hkv ix hix hiix with h1 | h1
    · rw [← h1, hk, hasPfx_append] at hp
      exact absurd hp (by decide)
    · have hb := hasPfx_of_between pfx h.1 (putUint64 ix)
        (compareBytes_ge_trans _ _ _ hh (compareBytes_append_self pfx _))
        (by rw [← hk, h1]; decide)
      rw [hp] at hb
      exact absurd hb (by decide)
  · intro idx hidx hlt
    constructor
    · by_contra hcon
      apply hh
      rw [hidx, key_lt_iff pfx idx i hlt hi]
      omega
    · intro kv hkv ix hix hiix
      obtain ⟨hk, hlt2⟩ := indexOf_some pfx kv.1 ix hix
      rcases hge kv hkv ix hix hiix with h1 | h1
      · rw [h1, hidx] at hk
        have := putUint64_injective _ _ hlt hlt2 (List.append_cancel_left hk)
        omega
      · rw [hidx, hk, key_lt_iff pfx idx ix hlt hlt2] at h1
        omega

theorem noneIn_of_seek_nil (pfx : Bytes) (db : DB) (i : Nat) (hi : i < 2 ^ 64)
    (hf : db.filter (fun kv => !decide (compareBytes kv.1 (pfx ++ putUint64 i) = Ordering.lt))
      = []) :
    (NewLogStore pfx).noneIn i (2 ^ 64) db := by
  intro kv hkv ix hix hiix
  exfalso
  obtain ⟨hk, hlt⟩ := indexOf_some pfx kv.1 ix hix
  have : kv ∈ db.filter
      (fun kv => !decide (compareBytes kv.1 (pfx ++ putUint64 i) = Ordering.lt)) := by
    apply List.mem_filter.2
    refine ⟨hkv, ?_⟩
    have : ¬ compareBytes kv.1 (pfx ++ putUint64 i) = Ordering.lt := by
      rw [hk, key_lt_iff pfx ix i hlt hi]; omega
    simpa using this
  rw [hf] at this
  simp at this

theorem noneIn_mono (t : logStore) (lo hi hi2 : Nat) (db : DB) (h : hi2 ≤ hi)
    (hn : t.noneIn lo hi db) : t.noneIn lo hi2 db := by
  intro kv hkv ix hix hl
  have := hn kv hkv ix hix hl
  omega

/-! ## `DeleteRange` on a store without foreign keys -/

theorem DB.apply_nil (db : DB) : db.apply [] = db := rfl

/-- The flush and the lazy opening at the top of the loop body keep the invariant and
leave a transaction and an iterator open. -/
theorem DeleteRangeIter_open (pfx : Bytes) (f : Faults) (m min max : Nat) (db0 : DB)
    (i : Nat) (txn : Option Txn) (it : Option Iterator) (e : Engine) (hm : 0 < m)
    (inv : DeleteRangeInv pfx min max db0 i txn it e) :
    (∃ err e1, (NewLogStore pfx).DeleteRangeIter f m max i txn it e = LoopStep.fail err e1) ∨
    (∃ x j e1, (NewLogStore pfx).DeleteRangeIter f m max i txn it e =
        (NewLogStore pfx).DeleteRangeItem f max i x j e1 ∧
      DeleteRangeInv pfx min max db0 i (some x) (some j) e1 ∧
      j.items.length ≤ remaining db0 it) := by
  have hm0 : m ≠ 0 := by omega
  have fresh : ∀ e1 : Engine, e1.db = (NewLogStore pfx).without min i db0 →
      DeleteRangeInv pfx min max db0 i (some { snapshot := e1.db, pending := [] })
        (some (seekForward (Txn.view { snapshot := e1.db, pending := [] })
          ((NewLogStore pfx).getRawKey i))) { e1 with opened := e1.opened + 1 } ∧
      (seekForward (Txn.view { snapshot := e1.db, pending := [] })
          ((NewLogStore pfx).getRawKey i)).items =
        db0.filter (fun kv =>
          !decide (compareBytes kv.1 (pfx ++ putUint64 i) = Ordering.lt)) := by
    intro e1 he1
    have hit : (seekForward (Txn.view { snapshot := e1.db, pending := [] })
          ((NewLogStore pfx).getRawKey i)).items =
        db0.filter (fun kv =>
          !decide (compareBytes kv.1 (pfx ++ putUint64 i) = Ordering.lt)) := by
      simp only [seekForward, Txn.view, DB.apply_nil, getRawKey_new, he1]
      exact without_filter_ge pfx min i db0 inv.lt
    refine ⟨⟨inv.lo, inv.hi, inv.lt, ?_, ?_, by simp⟩, hit⟩
    · simpa [pendingOf, DB.apply_nil] using he1
    · intro j hj
      rw [← Option.some.inj hj]
      exact hit
  have flen : (db0.filter (fun kv =>
      !decide (compareBytes kv.1 (pfx ++ putUint64 i) = Ordering.lt))).length ≤
      remaining db0 it := by
    cases it with
    | none => exact List.length_filter_le _ _
    | some j0 =>
      show _ ≤ j0.items.length
      rw [inv.items j0 rfl]
  unfold logStore.DeleteRangeIter DeleteRangeFlush
  simp only [hm0, if_false]
  by_cases hb : i % m = 0
  · simp only [hb, if_true]
    cases txn with
    | none =>
      have hv : e.db = (NewLogStore pfx).without min i db0 := by
        simpa [pendingOf, DB.apply_nil] using inv.view
      obtain ⟨hinv, hit⟩ := fresh e hv
      exact Or.inr ⟨_, _, _, rfl, hinv, le_of_eq_of_le (congrArg List.length hit) flen⟩
    | some x =>
      simp only [txnCommit]
      cases hf : f e.calls with
      | some err => exact Or.inl ⟨err, _, rfl⟩
      | none =>
        have hv : e.db.apply x.pending = (NewLogStore pfx).without min i db0 := inv.view
        obtain ⟨hinv, hit⟩ := fresh
          { e with db := e.db.apply x.pending, calls := e.calls + 1,
                   committed := e.committed ++ [x.pending] } hv
        exact Or.inr ⟨_, _, _, rfl, hinv, le_of_eq_of_le (congrArg List.length hit) flen⟩
  · simp only [hb, if_false]
    cases txn with
    | none =>
      have hitn : it = none := inv.both.1 rfl
      subst hitn
      have hv : e.db = (NewLogStore pfx).without min i db0 := by
        simpa [pendingOf, DB.apply_nil] using inv.view
      obtain ⟨hinv, hit⟩ := fresh e hv
      exact Or.inr ⟨_, _, _, rfl, hinv, le_of_eq_of_le (congrArg List.length hit) flen⟩
    | some x =>
      cases it with
      | none => exact absurd (inv.both.2 rfl) (by simp)
      | some j => exact Or.inr ⟨x, j, e, rfl, inv, le_refl _⟩

/-- The item part of the loop body on a store without foreign keys: it leaves the loop
when no stored index is left in the range, or deletes the least stored index at or after
the loop variable and moves the loop variable past it; past `2 ^ 64 - 1` the loop variable
is 0 again. -/
theorem DeleteRangeItem_cases (pfx : Bytes) (f : Faults) (min max : Nat) (db0 : DB) (i : Nat)
    (x : Txn) (j : Iterator) (e : Engine) (hs : DB.sorted db0 = true)
    (hw : (NewLogStore pfx).onlyLogKeys db0) (hmax : max < 2 ^ 64)
    (inv : DeleteRangeInv pfx min max db0 i (some x) (some j) e) :
    ((NewLogStore pfx).DeleteRangeItem f max i x j e = LoopStep.exit (some x) e ∧
      (NewLogStore pfx).noneIn i (max + 1) db0) ∨
    (∃ err e1, (NewLogStore pfx).DeleteRangeItem f max i x j e = LoopStep.fail err e1) ∨
    (∃ i2 x2 j2 e2,
      (NewLogStore pfx).DeleteRangeItem f max i x j e = LoopStep.next i2 x2 j2 e2 ∧
      DeleteRangeInv pfx min max db0 i2 (some x2) (some j2) e2 ∧
      j2.items.length < j.items.length) ∨
    (∃ x2 j2 e2,
      (NewLogStore pfx).DeleteRangeItem f max i x j e = LoopStep.next 0 x2 j2 e2 ∧
      max + 1 = 2 ^ 64 ∧ db0.get (pfx ++ putUint64 (2 ^ 64 - 1)) ≠ none ∧
      e2.db.apply x2.pending = (NewLogStore pfx).without min (2 ^ 64) db0) := by
  have hitems := inv.items j rfl
  unfold logStore.DeleteRangeItem Iterator.validForPfx
  cases hj : j.items with
  | nil =>
    rw [hj] at hitems
    refine Or.inl ⟨by simp, ?_⟩
    exact noneIn_mono _ i (2 ^ 64) (max + 1) db0 (by omega)
      (noneIn_of_seek_nil pfx db0 i inv.lt hitems.symm)
  | cons h tl =>
    rw [hj] at hitems
    have hf := hitems.symm
    obtain ⟨hA, hB⟩ := head_of_seek pfx db0 i inv.lt h tl hs hf
    have hmem : h ∈ db0 := by
      have : h ∈ db0.filter
          (fun kv => !decide (compareBytes kv.1 (pfx ++ putUint64 i) = Ordering.lt)) := by
        rw [hf]; exact List.mem_cons_self _ _
      exact (List.mem_filter.1 this).1
    cases hp : hasPfx h.1 pfx with
    | false =>
      exact Or.inl ⟨by simp [NewLogStore, hp],
        noneIn_mono _ i (2 ^ 64) (max + 1) db0 (by omega) (hA hp)⟩
    | true =>
      have hl : h.1.length = pfx.length + 8 := hw h hmem hp
      have hk : (h.1.drop pfx.length).length = 8 := by simp [hl]
      have hu := uint64_eq_beVal _ hk
      have hlt := uint64_lt _ _ hu
      have hkey : h.1 = pfx ++ putUint64 (beVal (h.1.drop pfx.length)) := by
        rw [putUint64_uint64 _ _ hk hu]
        exact hasPfx_eq_append _ _ hp
      obtain ⟨hiidx, hnone⟩ := hB _ hkey hlt
      have hnl : ¬ h.1.length < pfx.length := by omega
      simp only [NewLogStore, hp, if_true, hnl, if_false, hk, hu]
      by_cases hgt : beVal (h.1.drop pfx.length) > max
      · exact Or.inl ⟨by simp [hgt],
          noneIn_mono _ i _ (max + 1) db0 (by omega) hnone⟩
      · simp only [hgt, if_false, txnDelete]
        cases hfl : f e.calls with
        | some err => exact Or.inr (Or.inl ⟨err, _, rfl⟩)
        | none =>
          have hview : e.db.apply (x.pending ++ [Op.delete h.1]) =
              (NewLogStore pfx).without min (beVal (h.1.drop pfx.length) + 1) db0 := by
            rw [DB.apply_append]
            show (e.db.apply x.pending).delete h.1 = _
            have hv : e.db.apply x.pending = (NewLogStore pfx).without min i db0 := inv.view
            rw [hv]
            conv_lhs => rw [hkey]
            exact without_delete pfx min i _ db0 inv.lo hiidx hlt hnone
          by_cases hnext : beVal (h.1.drop pfx.length) + 1 < 2 ^ 64
          · refine Or.inr (Or.inr (Or.inl ⟨_, _, _, _, rfl, ?_, ?_⟩))
            · rw [Nat.mod_eq_of_lt hnext]
              refine ⟨by have := inv.lo; omega, Or.inr (by omega), hnext, hview, ?_, by simp⟩
              intro j2 hj2
              rw [← Option.some.inj hj2]
              show j.items.tail = _
              rw [hj, List.tail_cons, DB.filter_ge_tail db0 _ h tl hs hf]
              conv_lhs => rw [hkey]
              exact filter_gt_key pfx db0 _ hnext hw
            · show j.items.tail.length < _
              rw [hj]
              simp
          · have h2 : beVal (h.1.drop pfx.length) = 2 ^ 64 - 1 := by omega
            have h3 : (beVal (h.1.drop pfx.length) + 1) % 2 ^ 64 = 0 := by
              rw [h2]; norm_num
            rw [h3]
            refine Or.inr (Or.inr (Or.inr ⟨_, _, _, rfl, by omega, ?_, ?_⟩))
            · have h4 := DB.get_isSome_of_mem db0 h hmem
              rw [hkey, h2] at h4
              intro h5
              rw [h5] at h4
              exact absurd h4 (by decide)
            · have : beVal (h.1.drop pfx.length) + 1 = 2 ^ 64 := by omega
              rw [← this]
              exact hview

/-- The item part of the loop body when the loop variable cannot wrap. -/
theorem DeleteRangeItem_step (pfx : Bytes) (f : Faults) (min max : Nat) (db0 : DB) (i : Nat)
    (x : Txn) (j : Iterator) (e : Engine) (hs : DB.sorted db0 = true)
    (hw : (NewLogStore pfx).onlyLogKeys db0) (hmax : max < 2 ^ 64)
    (hnw : max + 1 < 2 ^ 64 ∨ db0.get (pfx ++ putUint64 (2 ^ 64 - 1)) = none)
    (inv : DeleteRangeInv pfx min max db0 i (some x) (some j) e) :
    ((NewLogStore pfx).DeleteRangeItem f max i x j e = LoopStep.exit (some x) e ∧
      (NewLogStore pfx).noneIn i (max + 1) db0) ∨
    (∃ err e1, (NewLogStore pfx).DeleteRangeItem f max i x j e = LoopStep.fail err e1) ∨
    (∃ i2 x2 j2 e2,
      (NewLogStore pfx).DeleteRangeItem f max i x j e = LoopStep.next i2 x2 j2 e2 ∧
      DeleteRangeInv pfx min max db0 i2 (some x2) (some j2) e2 ∧
      j2.items.length < j.items.length) := by
  rcases DeleteRangeItem_cases pfx f min max db0 i x j e hs hw hmax inv with
    h | h | h | ⟨x2, j2, e2, _, h1, h2, _⟩
  · exact Or.inl h
  · exact Or.inr (Or.inl h)
  · exact Or.inr (Or.inr h)
  · exfalso
    rcases hnw with h3 | h3
    · omega
    · exact h2 h3

/-- The store left by the code after the loop, when the invariant holds and no stored index
is left in the range. -/
theorem DeleteRangeFinish_exact (pfx : Bytes) (f : Faults) (min max : Nat) (db0 : DB)
    (i : Nat) (txn : Option Txn) (it : Option Iterator) (e : Engine)
    (inv : DeleteRangeInv pfx min max db0 i txn it e)
    (hn : (NewLogStore pfx).noneIn i (max + 1) db0 ∨ max < i)
    (hok : (DeleteRangeFinish f txn e).1 = none) :
    (DeleteRangeFinish f txn e).2.db = (NewLogStore pfx).without min (max + 1) db0 := by
  have hw : (NewLogStore pfx).without min i db0 = (NewLogStore pfx).without min (max + 1) db0 := by
    rcases hn with h | h
    · by_cases hle : i ≤ max + 1
      · exact without_extend _ min i (max + 1) db0 inv.lo hle h
      · rcases inv.hi with h2 | h2
        · rw [h2, without_empty _ min min db0 (le_refl _),
            without_empty _ min (max + 1) db0 (by omega)]
        · omega
    · rcases inv.hi with h2 | h2
      · rw [h2, without_empty _ min min db0 (le_refl _),
          without_empty _ min (max + 1) db0 (by omega)]
      · have : i = max + 1 := by omega
        rw [this]
  cases txn with
  | none =>
    have hv : e.db = (NewLogStore pfx).without min i db0 := by
      simpa [pendingOf, DB.apply_nil] using inv.view
    show e.db = _
    rw [hv, hw]
  | some x =>
    have hv : e.db.apply x.pending = (NewLogStore pfx).without min i db0 := inv.view
    unfold DeleteRangeFinish txnCommit at hok ⊢
    cases hf : f e.calls with
    | some err => simp [hf] at hok
    | none =>
      show e.db.apply x.pending = _
      rw [hv, hw]

/-- On a store without foreign keys, and unless the loop variable would wrap, the loop of
`DeleteRange` ends within one iteration more than the number of items left to the iterator,
and when it returns no error the store is the initial one without the indices in
`min ≤ i ≤ max`. -/
theorem DeleteRangeLoop_exact (pfx : Bytes) (f : Faults) (m min max : Nat) (db0 : DB)
    (hm : 0 < m) (hs : DB.sorted db0 = true) (hw : (NewLogStore pfx).onlyLogKeys db0)
    (hmax : max < 2 ^ 64)
    (hnw : max + 1 < 2 ^ 64 ∨ db0.get (pfx ++ putUint64 (2 ^ 64 - 1)) = none) :
    ∀ (fuel i : Nat) (txn : Option Txn) (it : Option Iterator) (e : Engine),
      DeleteRangeInv pfx min max db0 i txn it e → remaining db0 it < fuel →
      ∃ res, (NewLogStore pfx).DeleteRangeLoop f m max fuel i txn it e = some res ∧
        (res.1 = none → res.2.db = (NewLogStore pfx).without min (max + 1) db0) := by
  intro fuel
  induction fuel with
  | zero => intro i txn it e _ h; omega
  | succ fuel ih =>
    intro i txn it e inv hfuel
    rw [logStore.DeleteRangeLoop]
    by_cases hi : i ≤ max
    · rw [if_pos hi]
      rcases DeleteRangeIter_open pfx f m min max db0 i txn it e hm inv with
        ⟨err, e1, h1⟩ | ⟨x, j, e1, h1, inv1, hlen⟩
      · rw [h1]
        exact ⟨_, rfl, fun h => absurd h (by simp)⟩
      · rw [h1]
        rcases DeleteRangeItem_step pfx f min max db0 i x j e1 hs hw hmax hnw inv1 with
          ⟨h2, hn⟩ | ⟨err, e2, h2⟩ | ⟨i2, x2, j2, e2, h2, inv2, hlt⟩
        · rw [h2]
          exact ⟨_, rfl, DeleteRangeFinish_exact pfx f min max db0 i (some x) (some j) e1 inv1
            (Or.inl hn)⟩
        · rw [h2]
          exact ⟨_, rfl, fun h => absurd h (by simp)⟩
        · rw [h2]
          exact ih i2 (some x2) (some j2) e2 inv2 (by
            show j2.items.length < fuel
            omega)
    · rw [if_neg hi]
      exact ⟨_, rfl, DeleteRangeFinish_exact pfx f min max db0 i txn it e inv
        (Or.inr (by omega))⟩

/-- The store without the indices of a range, stated on `DeleteRange`. -/
theorem DeleteRange_exact (pfx : Bytes) (f : Faults) (m fuel min max : Nat) (e : Engine)
    (hm : 0 < m) (hs : DB.sorted e.db = true) (hw : (NewLogStore pfx).onlyLogKeys e.db)
    (hmin : min < 2 ^ 64) (hmax : max < 2 ^ 64)
    (hnw : max + 1 < 2 ^ 64 ∨ e.db.get (pfx ++ putUint64 (2 ^ 64 - 1)) = none)
    (hfuel : e.db.length < fuel) :
    ∃ res, (NewLogStore pfx).DeleteRange f m fuel min max e = some res ∧
      (res.1 = none → res.2.db = (NewLogStore pfx).without min (max + 1) e.db) := by
  unfold logStore.DeleteRange
  apply DeleteRangeLoop_exact pfx f m min max e.db hm hs hw hmax hnw fuel min none none e
  · refine ⟨le_refl _, Or.inl rfl, hmin, ?_, by simp, by simp⟩
    rw [without_empty _ min min e.db (le_refl _)]
    rfl
  · exact hfuel

theorem DB.get_filter (db : DB) (q : Bytes → Bool) (k : Bytes) :
    DB.get (db.filter (fun kv => q kv.1)) k = if q k = true then db.get k else none := by
  induction db with
  | nil => simp [DB.get]
  | cons a rest ih =>
    obtain ⟨k1, v1⟩ := a
    by_cases hq : q k1 = true
    · rw [List.filter_cons_of_pos (by simpa using hq)]
      simp only [DB.get, ih]
      by_cases hk : k1 = k
      · subst hk; simp [hq]
      · simp [hk]
    · rw [List.filter_cons_of_neg (by simpa using hq)]
      simp only [DB.get, ih]
      by_cases hk : k1 = k
      · subst hk; simp [hq]
      · simp [hk]

/-- The indices stored in a store without a range: those stored before, outside the
range. -/
theorem stored_without (pfx : Bytes) (lo hi : Nat) (db : DB) (i : Nat) (hi2 : i < 2 ^ 64) :
    (NewLogStore pfx).stored ((NewLogStore pfx).without lo hi db) i ↔
      (NewLogStore pfx).stored db i ∧ (i < lo ∨ hi ≤ i) := by
  unfold logStore.stored logStore.without
  rw [getRawKey_new, DB.get_filter db (fun k =>
    match (NewLogStore pfx).indexOf k with
    | some i => !(decide (lo ≤ i) && decide (i < hi))
    | none => true), indexOf_key pfx i hi2]
  by_cases h : lo ≤ i ∧ i < hi
  · simp [h]
  · have h2 : i < lo ∨ hi ≤ i := by omega
    have h3 : (!(decide (lo ≤ i) && decide (i < hi))) = true := by
      rw [Bool.not_eq_true', Bool.and_eq_false_iff]
      simp only [decide_eq_false_iff_not]
      omega
    simp [h3, h2]

/-- On a store without foreign keys, and unless the loop variable would wrap, a
`DeleteRange` that returns no error leaves stored exactly the indices stored before that
lie outside `min ≤ i ≤ max`. -/
theorem DeleteRange_stored (pfx : Bytes) (f : Faults) (m fuel min max : Nat) (e : Engine)
    (hm : 0 < m) (hs : DB.sorted e.db = true) (hw : (NewLogStore pfx).onlyLogKeys e.db)
    (hmin : min < 2 ^ 64) (hmax : max < 2 ^ 64)
    (hnw : max + 1 < 2 ^ 64 ∨ e.db.get (pfx ++ putUint64 (2 ^ 64 - 1)) = none)
    (hfuel : e.db.length < fuel) :
    ∃ res, (NewLogStore pfx).DeleteRange f m fuel min max e = some res ∧
      (res.1 = none → ∀ i, i < 2 ^ 64 →
        ((NewLogStore pfx).stored res.2.db i ↔
          (NewLogStore pfx).stored e.db i ∧ (i < min ∨ max < i))) := by
  obtain ⟨res, h1, h2⟩ := DeleteRange_exact pfx f m fuel min max e hm hs hw hmin hmax hnw hfuel
  refine ⟨res, h1, fun hok i hi => ?_⟩
  rw [h2 hok, stored_without pfx min (max + 1) e.db i hi]
  constructor
  · rintro ⟨h3, h4⟩; exact ⟨h3, by omega⟩
  · rintro ⟨h3, h4⟩; exact ⟨h3, by omega⟩

theorem DB.sorted_filter (db : DB) (q : Bytes × Bytes → Bool) (hs : DB.sorted db = true) :
    DB.sorted (db.filter q) = true := by
  induction db with
  | nil => rfl
  | cons a rest ih =>
    have hsr := DB.sorted_cons a rest hs
    by_cases hq : q a = true
    · rw [List.filter_cons_of_pos hq]
      cases hf : rest.filter q with
      | nil => rfl
      | cons b tl =>
        have hb : b ∈ rest.filter q := by rw [hf]; exact List.mem_cons_self _ _
        have h1 := hsr.2 b (List.mem_filter.1 hb).1
        have h2 := ih hsr.1
        rw [hf] at h2
        simp [DB.sorted, h1, h2]
    · rw [List.filter_cons_of_neg hq]
      exact ih hsr.1

theorem without_idem (t : logStore) (lo hi : Nat) (db : DB) :
    t.without lo hi (t.without lo hi db) = t.without lo hi db := by
  unfold logStore.without
  rw [List.filter_filter]
  apply List.filter_congr
  intro kv _
  simp

/-- On a store without foreign keys, and unless the loop variable would wrap, running
`DeleteRange` twice leaves the store that running it once leaves. -/
theorem DeleteRange_twice_exact (pfx : Bytes) (f g : Faults) (m fuel min max : Nat)
    (e : Engine) (hm : 0 < m) (hs : DB.sorted e.db = true)
    (hw : (NewLogStore pfx).onlyLogKeys e.db) (hmin : min < 2 ^ 64) (hmax : max < 2 ^ 64)
    (hnw : max + 1 < 2 ^ 64 ∨ e.db.get (pfx ++ putUint64 (2 ^ 64 - 1)) = none)
    (hfuel : e.db.length < fuel) :
    ∃ r1, (NewLogStore pfx).DeleteRange f m fuel min max e = some r1 ∧
      (r1.1 = none →
        ∃ r2, (NewLogStore pfx).DeleteRange g m fuel min max r1.2 = some r2 ∧
          (r2.1 = none → r2.2.db = r1.2.db)) := by
  obtain ⟨r1, h1, h2⟩ := DeleteRange_exact pfx f m fuel min max e hm hs hw hmin hmax hnw hfuel
  refine ⟨r1, h1, fun hok => ?_⟩
  have hdb := h2 hok
  have hsub : ∀ kv ∈ r1.2.db, kv ∈ e.db := by
    intro kv hkv
    rw [hdb] at hkv
    exact (List.mem_filter.1 hkv).1
  have hs1 : DB.sorted r1.2.db = true := by
    rw [hdb]; exact DB.sorted_filter e.db _ hs
  have hw1 : (NewLogStore pfx).onlyLogKeys r1.2.db := fun kv hkv => hw kv (hsub kv hkv)
  have hnw1 : max + 1 < 2 ^ 64 ∨ r1.2.db.get (pfx ++ putUint64 (2 ^ 64 - 1)) = none := by
    rcases hnw with h | h
    · exact Or.inl h
    · right
      cases hg : r1.2.db.get (pfx ++ putUint64 (2 ^ 64 - 1)) with
      | none => rfl
      | some v =>
        have := DB.get_isSome_of_mem e.db _ (hsub _ (DB.get_mem _ _ _ hg))
        rw [h] at this
        exact absurd this (by decide)
  have hlen : r1.2.db.length < fuel := by
    have : r1.2.db.length ≤ e.db.length := by
      rw [hdb]; exact List.length_filter_le _ _
    omega
  obtain ⟨r2, h3, h4⟩ := DeleteRange_exact pfx g m fuel min max r1.2 hm hs1 hw1 hmin hmax
    hnw1 hlen
  refine ⟨r2, h3, fun hok2 => ?_⟩
  rw [h4 hok2]
  conv_lhs => rw [hdb]
  rw [without_idem, ← hdb]

theorem DeleteRangeIter_flush_indep (t : logStore) (f : Faults) (m max i : Nat)
    (txn : Option Txn) (it it2 : Option Iterator) (e : Engine) (hb : i % m = 0) :
    t.DeleteRangeIter f m max i txn it e = t.DeleteRangeIter f m max i txn it2 e := by
  unfold logStore.DeleteRangeIter DeleteRangeFlush
  simp only [hb, if_true]

/-- At a batch boundary the loop does not depend on the iterator it is entered with. -/
theorem DeleteRangeLoop_flush_indep (t : logStore) (f : Faults) (m max fuel i : Nat)
    (txn : Option Txn) (it it2 : Option Iterator) (e : Engine) (hb : i % m = 0) :
    t.DeleteRangeLoop f m max fuel i txn it e = t.DeleteRangeLoop f m max fuel i txn it2 e := by
  cases fuel with
  | zero => rfl
  | succ n =>
    rw [logStore.DeleteRangeLoop, logStore.DeleteRangeLoop,
      DeleteRangeIter_flush_indep t f m max i txn it it2 e hb]

theorem without_without (pfx : Bytes) (lo hi : Nat) (db : DB) :
    (NewLogStore pfx).without lo hi ((NewLogStore pfx).without 0 (2 ^ 64) db) =
      (NewLogStore pfx).without 0 (2 ^ 64) db := by
  unfold logStore.without
  rw [List.filter_filter]
  apply List.filter_congr
  intro kv _
  cases hx : (NewLogStore pfx).indexOf kv.1 with
  | none => rfl
  | some ix =>
    have := (indexOf_some pfx kv.1 ix hx).2
    simp
    omega

theorem without_all (pfx : Bytes) (lo : Nat) (db : DB) :
    (NewLogStore pfx).without 0 (2 ^ 64) ((NewLogStore pfx).without lo (2 ^ 64) db) =
      (NewLogStore pfx).without 0 (2 ^ 64) db := by
  unfold logStore.without
  rw [List.filter_filter]
  apply List.filter_congr
  intro kv _
  cases hx : (NewLogStore pfx).indexOf kv.1 with
  | none => rfl
  | some ix =>
    have := (indexOf_some pfx kv.1 ix hx).2
    simp
    omega

/-- On a store without foreign keys that holds index `2 ^ 64 - 1`, with `max = 2 ^ 64 - 1`:
the loop of `DeleteRange` ends, and when it returns no error every entry is gone, the
entries below `min` included. -/
theorem DeleteRangeLoop_wrap (pfx : Bytes) (f : Faults) (m min max : Nat) (db0 : DB)
    (hm : 0 < m) (hs : DB.sorted db0 = true) (hw : (NewLogStore pfx).onlyLogKeys db0)
    (hmax : max + 1 = 2 ^ 64) (hst : db0.get (pfx ++ putUint64 (2 ^ 64 - 1)) ≠ none) :
    ∀ (fuel i : Nat) (txn : Option Txn) (it : Option Iterator) (e : Engine),
      DeleteRangeInv pfx min max db0 i txn it e → remaining db0 it + db0.length + 1 < fuel →
      ∃ res, (NewLogStore pfx).DeleteRangeLoop f m max fuel i txn it e = some res ∧
        (res.1 = none → res.2.db = (NewLogStore pfx).without 0 (2 ^ 64) db0) := by
  have hmax2 : max < 2 ^ 64 := by omega
  intro fuel
  induction fuel with
  | zero => intro i txn it e _ h; omega
  | succ fuel ih =>
    intro i txn it e inv hfuel
    have hi : i ≤ max := by have := inv.lt; omega
    rw [logStore.DeleteRangeLoop, if_pos hi]
    rcases DeleteRangeIter_open pfx f m min max db0 i txn it e hm inv with
      ⟨err, e1, h1⟩ | ⟨x, j, e1, h1, inv1, hlen⟩
    · rw [h1]
      exact ⟨_, rfl, fun h => absurd h (by simp)⟩
    · rw [h1]
      rcases DeleteRangeItem_cases pfx f min max db0 i x j e1 hs hw hmax2 inv1 with
        ⟨_, hn⟩ | ⟨err, e2, h2⟩ | ⟨i2, x2, j2, e2, h2, inv2, hlt⟩ | ⟨x2, j2, e2, h2, _, _, hv⟩
      · exfalso
        obtain ⟨v, hv⟩ := Option.ne_none_iff_exists'.1 hst
        have := hn _ (DB.get_mem db0 _ _ hv) (2 ^ 64 - 1) (indexOf_key pfx _ (by norm_num))
          (by omega)
        omega
      · rw [h2]
        exact ⟨_, rfl, fun h => absurd h (by simp)⟩
      · rw [h2]
        exact ih i2 (some x2) (some j2) e2 inv2 (by
          show j2.items.length + db0.length + 1 < fuel
          omega)
      · rw [h2]
        show ∃ res, (NewLogStore pfx).DeleteRangeLoop f m max fuel 0 (some x2) (some j2) e2 =
          some res ∧ _
        rw [DeleteRangeLoop_flush_indep _ f m max fuel 0 (some x2) (some j2)
          (some ⟨((NewLogStore pfx).without min (2 ^ 64) db0).filter (fun kv =>
            !decide (compareBytes kv.1 (pfx ++ putUint64 0) = Ordering.lt))⟩) e2
          (Nat.zero_mod m)]
        have hlen1 : ((NewLogStore pfx).without min (2 ^ 64) db0).length ≤ db0.length :=
          List.length_filter_le _ _
        have hgone : ((NewLogStore pfx).without min (2 ^ 64) db0).get
            (pfx ++ putUint64 (2 ^ 64 - 1)) = none := by
          cases hg : ((NewLogStore pfx).without min (2 ^ 64) db0).get
              (pfx ++ putUint64 (2 ^ 64 - 1)) with
          | none => rfl
          | some v =>
            have h3 : (NewLogStore pfx).stored ((NewLogStore pfx).without min (2 ^ 64) db0)
                (2 ^ 64 - 1) := by
              unfold logStore.stored
              rw [getRawKey_new, hg]
              rfl
            have h4 := (stored_without pfx min (2 ^ 64) db0 (2 ^ 64 - 1) (by norm_num)).1 h3
            have := inv.lo
            have := inv.lt
            omega
        obtain ⟨res, hr1, hr2⟩ := DeleteRangeLoop_exact pfx f m 0 max
          ((NewLogStore pfx).without min (2 ^ 64) db0) hm (DB.sorted_filter db0 _ hs)
          (fun kv hkv => hw kv (List.mem_filter.1 hkv).1) hmax2 (Or.inr hgone) fuel 0
          (some x2) (some ⟨((NewLogStore pfx).without min (2 ^ 64) db0).filter (fun kv =>
            !decide (compareBytes kv.1 (pfx ++ putUint64 0) = Ordering.lt))⟩) e2
          ⟨le_refl _, Or.inl rfl, by norm_num, by
              show e2.db.apply x2.pending = _
              rw [hv, without_empty _ 0 0 _ (le_refl _)],
            fun j3 hj3 => by rw [← Option.some.inj hj3], by simp⟩
          (by
            show (((NewLogStore pfx).without min (2 ^ 64) db0).filter _).length < fuel
            have := List.length_filter_le (fun kv : Bytes × Bytes =>
              !decide (compareBytes kv.1 (pfx ++ putUint64 0) = Ordering.lt))
              ((NewLogStore pfx).without min (2 ^ 64) db0)
            omega)
        refine ⟨res, hr1, fun hok => ?_⟩
        rw [hr2 hok, hmax, without_all]

/-- The store left by `DeleteRange` on a store without foreign keys, for all `min` and
`max`: the entries with index in `min ≤ i ≤ max` are removed, and all entries are removed
when `max = 2 ^ 64 - 1`, `min ≤ max` and index `2 ^ 64 - 1` is stored. The loop ends within
`2 * len + 2` iterations. -/
theorem DeleteRange_exact_full (pfx : Bytes) (f : Faults) (m fuel min max : Nat) (e : Engine)
    (hm : 0 < m) (hs : DB.sorted e.db = true) (hw : (NewLogStore pfx).onlyLogKeys e.db)
    (hmin : min < 2 ^ 64) (hmax : max < 2 ^ 64) (hfuel : 2 * e.db.length + 1 < fuel) :
    ∃ res, (NewLogStore pfx).DeleteRange f m fuel min max e = some res ∧
      (res.1 = none → res.2.db =
        if min ≤ max ∧ max + 1 = 2 ^ 64 ∧ e.db.get (pfx ++ putUint64 (2 ^ 64 - 1)) ≠ none
        then (NewLogStore pfx).without 0 (2 ^ 64) e.db
        else (NewLogStore pfx).without min (max + 1) e.db) := by
  have hinit : DeleteRangeInv pfx min max e.db min none none e :=
    ⟨le_refl _, Or.inl rfl, hmin, by
      rw [without_empty _ min min e.db (le_refl _)]; rfl, by simp, by simp⟩
  by_cases hc : min ≤ max ∧ max + 1 = 2 ^ 64 ∧
      e.db.get (pfx ++ putUint64 (2 ^ 64 - 1)) ≠ none
  · rw [if_pos hc]
    unfold logStore.DeleteRange
    exact DeleteRangeLoop_wrap pfx f m min max e.db hm hs hw hc.2.1 hc.2.2 fuel min none none e
      hinit (by show e.db.length + e.db.length + 1 < fuel; omega)
  · rw [if_neg hc]
    by_cases hle : min ≤ max
    · have hnw : max + 1 < 2 ^ 64 ∨ e.db.get (pfx ++ putUint64 (2 ^ 64 - 1)) = none := by
        by_cases h1 : max + 1 = 2 ^ 64
        · right
          by_contra h2
          exact hc ⟨hle, h1, h2⟩
        · left; omega
      exact DeleteRange_exact pfx f m fuel min max e hm hs hw hmin hmax hnw (by omega)
    · cases fuel with
      | zero => omega
      | succ n =>
        unfold logStore.DeleteRange
        rw [logStore.DeleteRangeLoop, if_neg hle]
        refine ⟨_, rfl, fun _ => ?_⟩
        show e.db = _
        rw [without_empty _ min (max + 1) e.db (by omega)]

/-- On every store without foreign keys, running `DeleteRange` twice leaves the store that
running it once leaves. -/
theorem DeleteRange_twice_wellformed (pfx : Bytes) (f g : Faults) (m fuel min max : Nat)
    (e : Engine) (hm : 0 < m) (hs : DB.sorted e.db = true)
    (hw : (NewLogStore pfx).onlyLogKeys e.db) (hmin : min < 2 ^ 64) (hmax : max < 2 ^ 64)
    (hfuel : 2 * e.db.length + 1 < fuel) :
    ∃ r1, (NewLogStore pfx).DeleteRange f m fuel min max e = some r1 ∧
      (r1.1 = none →
        ∃ r2, (NewLogStore pfx).DeleteRange g m fuel min max r1.2 = some r2 ∧
          (r2.1 = none → r2.2.db = r1.2.db)) := by
  obtain ⟨r1, h1, h2⟩ := DeleteRange_exact_full pfx f m fuel min max e hm hs hw hmin hmax hfuel
  refine ⟨r1, h1, fun hok => ?_⟩
  have hdb := h2 hok
  have hfil : ∃ q, r1.2.db = e.db.filter q := by
    rw [hdb]
    split_ifs
    · exact ⟨_, rfl⟩
    · exact ⟨_, rfl⟩
  obtain ⟨q, hq⟩ := hfil
  have hsub : ∀ kv ∈ r1.2.db, kv ∈ e.db := by
    intro kv hkv
    rw [hq] at hkv
    exact (List.mem_filter.1 hkv).1
  have hs1 : DB.sorted r1.2.db = true := by
    rw [hq]; exact DB.sorted_filter e.db _ hs
  have hw1 : (NewLogStore pfx).onlyLogKeys r1.2.db := fun kv hkv => hw kv (hsub kv hkv)
  have hlen : 2 * r1.2.db.length + 1 < fuel := by
    have : r1.2.db.length ≤ e.db.length := by
      rw [hq]; exact List.length_filter_le _ _
    omega
  obtain ⟨r2, h3, h4⟩ := DeleteRange_exact_full pfx g m fuel min max r1.2 hm hs1 hw1 hmin hmax
    hlen
  refine ⟨r2, h3, fun hok2 => ?_⟩
  rw [h4 hok2]
  by_cases hc : min ≤ max ∧ max + 1 = 2 ^ 64 ∧
      e.db.get (pfx ++ putUint64 (2 ^ 64 - 1)) ≠ none
  · rw [if_pos hc] at hdb
    have hgone : r1.2.db.get (pfx ++ putUint64 (2 ^ 64 - 1)) = none := by
      cases hg : r1.2.db.get (pfx ++ putUint64 (2 ^ 64 - 1)) with
      | none => rfl
      | some v =>
        have h5 : (NewLogStore pfx).stored r1.2.db (2 ^ 64 - 1) := by
          unfold logStore.stored
          rw [getRawKey_new, hg]
          rfl
        rw [hdb] at h5
        have h6 := (stored_without pfx 0 (2 ^ 64) e.db (2 ^ 64 - 1) (by norm_num)).1 h5
        omega
    rw [if_neg (fun h => h.2.2 hgone)]
    conv_lhs => rw [hdb]
    rw [without_without, ← hdb]
  · rw [if_neg hc] at hdb
    have hc2 : ¬ (min ≤ max ∧ max + 1 = 2 ^ 64 ∧
        r1.2.db.get (pfx ++ putUint64 (2 ^ 64 - 1)) ≠ none) := by
      rintro ⟨a, b, c⟩
      apply hc
      refine ⟨a, b, ?_⟩
      obtain ⟨v, hv⟩ := Option.ne_none_iff_exists'.1 c
      have := DB.get_isSome_of_mem e.db _ (hsub _ (DB.get_mem _ _ _ hv))
      intro h7
      rw [h7] at this
      exact absurd this (by decide)
    rw [if_neg hc2]
    conv_lhs => rw [hdb]
    rw [without_idem, ← hdb]

/-! ## `LastIndex` below the seek key -/

theorem DB.sorted_pairwise (db : DB) (hs : DB.sorted db = true) :
    db.Pairwise (fun a b => compareBytes a.1 b.1 = Ordering.lt) := by
  induction db with
  | nil => exact List.Pairwise.nil
  | cons a rest ih =>
    have hsr := DB.sorted_cons a rest hs
    exact List.Pairwise.cons hsr.2 (ih hsr.1)

/-- In an ascending list, the last item that passes a filter follows every other item that
passes it. -/
theorem DB.filter_last_ge (db : DB) (q : Bytes × Bytes → Bool) (h : Bytes × Bytes) (tl : DB)
    (hs : DB.sorted db = true) (hf : (db.filter q).reverse = h :: tl) :
    ∀ kv ∈ db, q kv = true → kv = h ∨ compareBytes kv.1 h.1 = Ordering.lt := by
  have hp := List.pairwise_reverse.2 ((DB.sorted_pairwise db hs).filter q)
  rw [hf] at hp
  intro kv hkv hq
  have hm : kv ∈ (db.filter q).reverse :=
    List.mem_reverse.2 (List.mem_filter.2 ⟨hkv, hq⟩)
  rw [hf] at hm
  rcases List.mem_cons.1 hm with h1 | h1
  · exact Or.inl h1
  · exact Or.inr ((List.pairwise_cons.1 hp).1 kv h1)

theorem key_lt_seekKey (pfx : Bytes) (i : Nat) (hi : i < 255 * 2 ^ 56) :
    compareBytes (pfx ++ putUint64 i) (pfx ++ [(255 : Byte)]) = Ordering.lt := by
  rw [compareBytes_append_left]
  unfold putUint64
  rw [compareBytes_cons, if_pos]
  show i / 2 ^ 56 % 256 < 255
  omega

/-- On an ascending store whose keys under the prefix are all keys of indices below
`255 * 2 ^ 56`, `LastIndex` returns no error; it returns 0 when no key lies under the
prefix, and otherwise the largest stored index. -/
theorem LastIndex_largest (pfx : Bytes) (db : DB) (hs : db.sorted = true)
    (hw : (NewLogStore pfx).onlyLogKeys db)
    (hlow : ∀ i, i < 2 ^ 64 → (NewLogStore pfx).stored db i → i < 255 * 2 ^ 56) :
    ((NewLogStore pfx).LastIndex db).2 = none ∧
    ((∀ kv ∈ db, hasPfx kv.1 pfx = false) → ((NewLogStore pfx).LastIndex db).1 = 0) ∧
    ((∃ kv ∈ db, hasPfx kv.1 pfx = true) →
      ((NewLogStore pfx).LastIndex db).1 < 2 ^ 64 ∧
      (NewLogStore pfx).stored db ((NewLogStore pfx).LastIndex db).1 ∧
      ∀ j, j < 2 ^ 64 → (NewLogStore pfx).stored db j →
        j ≤ ((NewLogStore pfx).LastIndex db).1) := by
  -- every key under the prefix is the key of a stored index and lies before the seek key
  have hkey : ∀ kv ∈ db, hasPfx kv.1 pfx = true →
      ∃ i, i < 2 ^ 64 ∧ kv.1 = pfx ++ putUint64 i ∧ (NewLogStore pfx).stored db i ∧
        compareBytes kv.1 (pfx ++ [(255 : Byte)]) = Ordering.lt := by
    intro kv hkv hp
    obtain ⟨i, hix⟩ := indexOf_of_logKey pfx kv.1 hp (hw kv hkv hp)
    obtain ⟨hk, hlt⟩ := indexOf_some pfx kv.1 i hix
    have hst : (NewLogStore pfx).stored db i := by
      unfold logStore.stored
      rw [getRawKey_new, ← hk]
      exact DB.get_isSome_of_mem db kv hkv
    exact ⟨i, hlt, hk, hst, by rw [hk]; exact key_lt_seekKey pfx i (hlow i hlt hst)⟩
  have hq : ∀ kv ∈ db, hasPfx kv.1 pfx = true →
      (!decide (compareBytes kv.1 (pfx ++ [(255 : Byte)]) = Ordering.gt)) = true := by
    intro kv hkv hp
    obtain ⟨i, -, -, -, hlt⟩ := hkey kv hkv hp
    simp [hlt]
  unfold logStore.LastIndex seekReverse
  cases hf : (db.filter (fun kv =>
      !decide (compareBytes kv.1 ((NewLogStore pfx).pfx ++ [(255 : Byte)]) = Ordering.gt))).reverse with
  | nil =>
    rw [boundaryIndex_nil]
    refine ⟨rfl, fun _ => rfl, ?_⟩
    rintro ⟨kv, hkv, hp⟩
    have : kv ∈ (db.filter (fun kv =>
        !decide (compareBytes kv.1 ((NewLogStore pfx).pfx ++ [(255 : Byte)]) = Ordering.gt))).reverse :=
      List.mem_reverse.2 (List.mem_filter.2 ⟨hkv, hq kv hkv hp⟩)
    rw [hf] at this
    simp at this
  | cons h tl =>
    have hmem : h ∈ (db.filter (fun kv =>
        !decide (compareBytes kv.1 ((NewLogStore pfx).pfx ++ [(255 : Byte)]) = Ordering.gt))).reverse := by
      rw [hf]; exact List.mem_cons_self _ _
    have hh := List.mem_filter.1 (List.mem_reverse.1 hmem)
    have hge := DB.filter_last_ge db _ h tl hs hf
    cases hp : hasPfx h.1 pfx with
    | true =>
      have hl : h.1.length = pfx.length + 8 := hw h hh.1 hp
      obtain ⟨hv, hk, hlt⟩ := boundaryIndex_logKey pfx h tl 0 hp hl
      rw [hv]
      refine ⟨rfl, ?_, fun _ => ⟨hlt, ?_, ?_⟩⟩
      · intro hall
        rw [hall h hh.1] at hp
        exact absurd hp (by decide)
      · unfold logStore.stored
        rw [getRawKey_new, ← hk]
        exact DB.get_isSome_of_mem db h hh.1
      · intro j hj hst
        unfold logStore.stored at hst
        rw [getRawKey_new] at hst
        obtain ⟨val, hval⟩ := Option.isSome_iff_exists.1 hst
        have hm := DB.get_mem db _ _ hval
        rcases hge _ hm (hq _ hm (hasPfx_append pfx _)) with h1 | h1
        · have h2 : pfx ++ putUint64 j = h.1 := by rw [← h1]
          rw [hk] at h2
          have := putUint64_injective _ _ hj hlt (List.append_cancel_left h2)
          exact le_of_eq this
        · rw [hk] at h1
          exact le_of_lt ((key_lt_iff pfx j _ hj hlt).1 h1)
    | false =>
      rw [boundaryIndex_other pfx h tl 0 hp]
      refine ⟨rfl, fun _ => rfl, ?_⟩
      rintro ⟨kv, hkv, hpk⟩
      exfalso
      rcases hge kv hkv (hq kv hkv hpk) with h1 | h1
      · rw [h1, hp] at hpk
        exact absurd hpk (by decide)
      · have hkp : compareBytes kv.1 pfx ≠ Ordering.lt := by
          have := compareBytes_append_self pfx (kv.1.drop pfx.length)
          rwa [← hasPfx_eq_append _ _ hpk] at this
        have hb := hasPfx_of_between pfx h.1 [(255 : Byte)]
          (fun hlt => hkp (compareBytes_lt_trans _ _ _ h1 hlt))
          (by simpa [NewLogStore] using hh.2)
        rw [hp] at hb
        exact absurd hb (by decide)

/-! ## The stable store: `Set` and `getImpl` -/

/-- A successful `Set` leaves the store with the key `pfx ++ key` set to the value. -/
theorem stableSet_ok (t : stableStore) (f : Faults) (key val : Bytes) (e e2 : Engine)
    (hok : t.Set f key val e = (none, e2)) : e2.db = e.db.set (t.pfx ++ key) val := by
  unfold stableStore.Set newTransaction txnSet at hok
  cases hf1 : f e.calls with
  | some err => simp [hf1] at hok
  | none =>
    simp only [hf1, txnCommit] at hok
    cases hf2 : f (e.calls + 1) with
    | some err => simp [hf2] at hok
    | none =>
      simp only [hf2, Prod.mk.injEq, true_and] at hok
      rw [← hok]
      simp [DB.apply, DB.applyOp]

theorem getImpl_present (t : stableStore) (db : DB) (key dst v : Bytes)
    (h : db.get (t.pfx ++ key) = some v) : t.getImpl db key dst = (v, none) := by
  simp [stableStore.getImpl, txnGet, h, valueCopy, safeCopy]

theorem getImpl_absent (t : stableStore) (db : DB) (key dst : Bytes)
    (h : db.get (t.pfx ++ key) = none) : t.getImpl db key dst = (dst, none) := by
  simp [stableStore.getImpl, txnGet, h]

/-! ## Boundary discovery in the presence of foreign keys -/

/-- On an item under the prefix, `boundaryIndex` yields the index of the key when the suffix
has eight bytes and the default otherwise. -/
theorem boundaryIndex_under (pfx : Bytes) (h : Bytes × Bytes) (tl : DB) (d : Nat)
    (hp : hasPfx h.1 pfx = true) :
    (NewLogStore pfx).boundaryIndex ⟨h :: tl⟩ d =
      (((NewLogStore pfx).indexOf h.1).getD d, none) := by
  by_cases hl : h.1.length = pfx.length + 8
  · have hk : (h.1.drop pfx.length).length = 8 := by simp [hl]
    rw [(boundaryIndex_logKey pfx h tl d hp hl).1]
    simp [logStore.indexOf, NewLogStore, hp, hl, uint64_eq_beVal _ hk]
  · have hi : (NewLogStore pfx).indexOf h.1 = none := by
      simp [logStore.indexOf, NewLogStore, hl]
    rw [hi]
    have hk : ¬ (h.1.length - pfx.length = 8) := by omega
    simp [logStore.boundaryIndex, Iterator.validForPfx, NewLogStore, hp, hk]

theorem hasPfx_ge (pfx k : Bytes) (hp : hasPfx k pfx = true) :
    compareBytes k pfx ≠ Ordering.lt := by
  have := compareBytes_append_self pfx (k.drop pfx.length)
  rwa [← hasPfx_eq_append _ _ hp] at this

/-- `FirstIndex` reads the smallest key under the prefix. -/
theorem FirstIndex_of_first (pfx : Bytes) (db : DB) (hs : db.sorted = true)
    (kv : Bytes × Bytes) (hkv : isFirstUnder pfx db kv) :
    (NewLogStore pfx).FirstIndex db = (((NewLogStore pfx).indexOf kv.1).getD 0, none) := by
  obtain ⟨hmem, hp, hmin⟩ := hkv
  unfold logStore.FirstIndex seekForward
  have hq : (!decide (compareBytes kv.1 (NewLogStore pfx).pfx = Ordering.lt)) = true := by
    simpa [NewLogStore] using hasPfx_ge pfx kv.1 hp
  cases hf : db.filter
      (fun kv => !decide (compareBytes kv.1 (NewLogStore pfx).pfx = Ordering.lt)) with
  | nil =>
    have : kv ∈ db.filter
        (fun kv => !decide (compareBytes kv.1 (NewLogStore pfx).pfx = Ordering.lt)) :=
      List.mem_filter.2 ⟨hmem, hq⟩
    rw [hf] at this
    simp at this
  | cons h tl =>
    have hh : h ∈ db.filter
        (fun kv => !decide (compareBytes kv.1 (NewLogStore pfx).pfx = Ordering.lt)) := by
      rw [hf]; exact List.mem_cons_self _ _
    have hh2 := List.mem_filter.1 hh
    have hend : h = kv := by
      rcases DB.filter_head_le db _ h tl hs hf kv hmem hq with h1 | h1
      · exact h1.symm
      · have hb := hasPfx_of_between pfx h.1 (kv.1.drop pfx.length)
          (by simpa [NewLogStore] using hh2.2)
          (by rw [← hasPfx_eq_append _ _ hp, h1]; decide)
        rcases hmin h hh2.1 hb with h3 | h3
        · exact h3
        · exact absurd h3 (compareBytes_lt_asymm _ _ h1)
    rw [hend]
    exact boundaryIndex_under pfx kv tl 0 hp

/-- `LastIndex` reads the greatest key under the prefix, when no key under the prefix sorts
after the seek key. -/
theorem LastIndex_of_last (pfx : Bytes) (db : DB) (hs : db.sorted = true)
    (hseek : ∀ kv ∈ db, hasPfx kv.1 pfx = true →
      compareBytes kv.1 (pfx ++ [(255 : Byte)]) ≠ Ordering.gt)
    (kv : Bytes × Bytes) (hkv : isLastUnder pfx db kv) :
    (NewLogStore pfx).LastIndex db = (((NewLogStore pfx).indexOf kv.1).getD 0, none) := by
  obtain ⟨hmem, hp, hmax⟩ := hkv
  unfold logStore.LastIndex seekReverse
  have hq : (!decide (compareBytes kv.1 ((NewLogStore pfx).pfx ++ [(255 : Byte)]) =
      Ordering.gt)) = true := by
    simpa [NewLogStore] using hseek kv hmem hp
  cases hf : (db.filter (fun kv =>
      !decide (compareBytes kv.1 ((NewLogStore pfx).pfx ++ [(255 : Byte)]) =
        Ordering.gt))).reverse with
  | nil =>
    have : kv ∈ (db.filter (fun kv =>
        !decide (compareBytes kv.1 ((NewLogStore pfx).pfx ++ [(255 : Byte)]) =
          Ordering.gt))).reverse :=
      List.mem_reverse.2 (List.mem_filter.2 ⟨hmem, hq⟩)
    rw [hf] at this
    simp at this
  | cons h tl =>
    have hh : h ∈ (db.filter (fun kv =>
        !decide (compareBytes kv.1 ((NewLogStore pfx).pfx ++ [(255 : Byte)]) =
          Ordering.gt))).reverse := by
      rw [hf]; exact List.mem_cons_self _ _
    have hh2 := List.mem_filter.1 (List.mem_reverse.1 hh)
    have hend : h = kv := by
      rcases DB.filter_last_ge db _ h tl hs hf kv hmem hq with h1 | h1
      · exact h1.symm
      · have hb := hasPfx_of_between pfx h.1 [(255 : Byte)]
          (fun hlt => hasPfx_ge pfx kv.1 hp (compareBytes_lt_trans _ _ _ h1 hlt))
          (by simpa [NewLogStore] using hh2.2)
        rcases hmax h hh2.1 hb with h3 | h3
        · exact h3
        · exact absurd h3 (compareBytes_lt_asymm _ _ h1)
    rw [hend]
    exact boundaryIndex_under pfx kv tl 0 hp

/-- With no key under the prefix both boundaries are 0. -/
theorem boundary_of_none (pfx : Bytes) (db : DB)
    (hnone : ∀ kv ∈ db, hasPfx kv.1 pfx = false) :
    (NewLogStore pfx).FirstIndex db = (0, none) ∧
    (NewLogStore pfx).LastIndex db = (0, none) := by
  constructor
  · unfold logStore.FirstIndex seekForward
    cases hf : db.filter
        (fun kv => !decide (compareBytes kv.1 (NewLogStore pfx).pfx = Ordering.lt)) with
    | nil => exact boundaryIndex_nil _ 0
    | cons h tl =>
      have hh : h ∈ db.filter
          (fun kv => !decide (compareBytes kv.1 (NewLogStore pfx).pfx = Ordering.lt)) := by
        rw [hf]; exact List.mem_cons_self _ _
      exact boundaryIndex_other pfx h tl 0 (hnone h (List.mem_filter.1 hh).1)
  · unfold logStore.LastIndex seekReverse
    cases hf : (db.filter (fun kv =>
        !decide (compareBytes kv.1 ((NewLogStore pfx).pfx ++ [(255 : Byte)]) =
          Ordering.gt))).reverse with
    | nil => exact boundaryIndex_nil _ 0
    | cons h tl =>
      have hh : h ∈ (db.filter (fun kv =>
          !decide (compareBytes kv.1 ((NewLogStore pfx).pfx ++ [(255 : Byte)]) =
            Ordering.gt))).reverse := by
        rw [hf]; exact List.mem_cons_self _ _
      exact boundaryIndex_other pfx h tl 0
        (hnone h (List.mem_filter.1 (List.mem_reverse.1 hh)).1)

theorem boundaryIndex_noerr (t : logStore) (it : Iterator) (d : Nat) :
    (t.boundaryIndex it d).2 = none := by
  unfold logStore.boundaryIndex
  split
  · split
    · rfl
    · next item _ _ =>
      simp only []
      by_cases h1 : item.1.length > t.pfxLen
      · rw [if_pos h1]
        by_cases hk : (item.1.drop t.pfxLen).length = 8
        · rw [if_pos hk]
          rw [uint64_eq_beVal _ hk]
        · rw [if_neg hk]
      · rw [if_neg h1]
  · rfl

theorem isFirstUnder_dropForeign (pfx : Bytes) (db : DB) (kv : Bytes × Bytes)
    (hkv : isFirstUnder pfx db kv) (hl : kv.1.length = pfx.length + 8) :
    isFirstUnder pfx (dropForeign pfx db) kv := by
  obtain ⟨hmem, hp, hmin⟩ := hkv
  refine ⟨List.mem_filter.2 ⟨hmem, by simp [hl]⟩, hp, ?_⟩
  intro kv2 h2 hp2
  exact hmin kv2 (List.mem_filter.1 h2).1 hp2

theorem isLastUnder_dropForeign (pfx : Bytes) (db : DB) (kv : Bytes × Bytes)
    (hkv : isLastUnder pfx db kv) (hl : kv.1.length = pfx.length + 8) :
    isLastUnder pfx (dropForeign pfx db) kv := by
  obtain ⟨hmem, hp, hmax⟩ := hkv
  refine ⟨List.mem_filter.2 ⟨hmem, by simp [hl]⟩, hp, ?_⟩
  intro kv2 h2 hp2
  exact hmax kv2 (List.mem_filter.1 h2).1 hp2

theorem indexOf_foreign (pfx k : Bytes) (hl : k.length ≠ pfx.length + 8) :
    (NewLogStore pfx).indexOf k = none := by
  simp [logStore.indexOf, NewLogStore, hl]

/-! ## `DeleteRange` where it has nothing to delete -/

/-- With `min > max` the loop body is never entered. -/
theorem DeleteRange_min_gt_max (t : logStore) (f : Faults) (m fuel min max : Nat) (e : Engine)
    (h : max < min) : t.DeleteRange f m (fuel + 1) min max e = some (none, e) := by
  unfold logStore.DeleteRange
  rw [logStore.DeleteRangeLoop, if_neg (by omega)]
  rfl

/-- With no key under the prefix, the first iteration leaves the loop and an empty
transaction is committed. -/
theorem DeleteRange_no_keys (pfx : Bytes) (f : Faults) (m fuel min max : Nat) (e : Engine)
    (hm : 0 < m) (hle : min ≤ max) (hnone : ∀ kv ∈ e.db, hasPfx kv.1 pfx = false) :
    ∃ res, (NewLogStore pfx).DeleteRange f m (fuel + 1) min max e = some res ∧
      res.2.db = e.db ∧ (f e.calls = none → res.1 = none) := by
  have hm0 : m ≠ 0 := by omega
  have hv : ∀ key : Bytes, (seekForward e.db key).validForPfx pfx = false := by
    intro key
    unfold Iterator.validForPfx seekForward
    cases hf : e.db.filter (fun kv => !decide (compareBytes kv.1 key = Ordering.lt)) with
    | nil => rfl
    | cons h tl =>
      have : h ∈ e.db.filter (fun kv => !decide (compareBytes kv.1 key = Ordering.lt)) := by
        rw [hf]; exact List.mem_cons_self _ _
      exact hnone h (List.mem_filter.1 this).1
  unfold logStore.DeleteRange
  rw [logStore.DeleteRangeLoop, if_pos hle]
  unfold logStore.DeleteRangeIter DeleteRangeFlush
  simp only [hm0, if_false, ite_self, newTransaction, Txn.view, DB.apply_nil]
  unfold logStore.DeleteRangeItem
  have hv2 := hv ((NewLogStore pfx).getRawKey min)
  simp only [NewLogStore] at hv2 ⊢
  rw [hv2]
  simp only [Bool.false_eq_true, if_false]
  unfold DeleteRangeFinish txnCommit
  cases hf : f e.calls with
  | some err => exact ⟨_, rfl, rfl, fun h => absurd h (by simp)⟩
  | none => exact ⟨_, rfl, rfl, fun _ => rfl⟩

/-! ## A run of `DeleteRange` that never ends -/

/-- The key of index `2 ^ 64 - 1` followed by one more byte sorts at or after the key of
every index. -/
theorem foreign_top_ge (i : Nat) (hi : i < 2 ^ 64) :
    compareBytes (foreignItem (2 ^ 64 - 1) 0).1 ((NewLogStore logPfx).getRawKey i)
      ≠ Ordering.lt := by
  have h1 : compareBytes (foreignItem (2 ^ 64 - 1) 0).1
      ((NewLogStore logPfx).getRawKey (2 ^ 64 - 1)) ≠ Ordering.lt :=
    compareBytes_append_self _ _
  have h2 : compareBytes ((NewLogStore logPfx).getRawKey (2 ^ 64 - 1))
      ((NewLogStore logPfx).getRawKey i) ≠ Ordering.lt := by
    rw [getRawKey_new, getRawKey_new]
    intro h
    have := (key_lt_iff logPfx (2 ^ 64 - 1) i (by norm_num) hi).1 h
    omega
  exact compareBytes_ge_trans _ _ _ h1 h2

/-- With batch size 1 every iteration commits and seeks again; on the store that holds only
a foreign key after all keys of indices, each iteration skips that key and moves the loop
variable on, and `index <= max` holds for every value of the loop variable. -/
theorem DeleteRangeLoop_never_ends :
    ∀ (fuel i : Nat) (txn : Option Txn) (it : Option Iterator) (e : Engine),
      i < 2 ^ 64 → e.db = [foreignItem (2 ^ 64 - 1) 0] →
      (∀ x, txn = some x → x.pending = []) →
      (NewLogStore logPfx).DeleteRangeLoop noFaults 1 (2 ^ 64 - 1) fuel i txn it e = none := by
  intro fuel
  induction fuel with
  | zero => intro i txn it e _ _ _; rfl
  | succ fuel ih =>
    intro i txn it e hi hdb hpend
    have hseek : ∀ db : DB, db = [foreignItem (2 ^ 64 - 1) 0] →
        seekForward db ((NewLogStore logPfx).getRawKey i) =
          ⟨[foreignItem (2 ^ 64 - 1) 0]⟩ := by
      intro db h
      unfold seekForward
      rw [h, List.filter_cons_of_pos (by simpa using foreign_top_ge i hi)]
      rfl
    have hitem : ∀ (x : Txn) (e1 : Engine),
        (NewLogStore logPfx).DeleteRangeItem noFaults (2 ^ 64 - 1) i x
          ⟨[foreignItem (2 ^ 64 - 1) 0]⟩ e1 = LoopStep.next ((i + 1) % 2 ^ 64) x ⟨[]⟩ e1 := by
      intro x e1
      rfl
    rw [logStore.DeleteRangeLoop, if_pos (by omega)]
    unfold logStore.DeleteRangeIter DeleteRangeFlush
    simp only [Nat.mod_one, if_true, one_ne_zero, if_false]
    cases txn with
    | none =>
      simp only [newTransaction, Txn.view, DB.apply_nil]
      rw [hseek e.db hdb, hitem]
      exact ih _ _ _ _ (Nat.mod_lt _ (by norm_num)) hdb (fun x hx => by
        rw [← Option.some.inj hx])
    | some x =>
      have hp := hpend x rfl
      simp only [txnCommit, noFaults, newTransaction, Txn.view, DB.apply_nil, hp]
      rw [hseek e.db hdb, hitem]
      exact ih _ _ _ _ (Nat.mod_lt _ (by norm_num)) hdb (fun x hx => by
        rw [← Option.some.inj hx])

/-- On a store without foreign keys, `DeleteRange` over a range that holds no stored index
ends and, when it returns no error, leaves the store as it was. -/
theorem DeleteRange_nothing_in_range (pfx : Bytes) (f : Faults) (m fuel min max : Nat)
    (e : Engine) (hm : 0 < m) (hs : DB.sorted e.db = true)
    (hw : (NewLogStore pfx).onlyLogKeys e.db) (hmin : min < 2 ^ 64) (hmax : max < 2 ^ 64)
    (hfuel : 2 * e.db.length + 1 < fuel)
    (hn : (NewLogStore pfx).noneIn min (max + 1) e.db) :
    ∃ res, (NewLogStore pfx).DeleteRange f m fuel min max e = some res ∧
      (res.1 = none → res.2.db = e.db) := by
  obtain ⟨res, h1, h2⟩ := DeleteRange_exact_full pfx f m fuel min max e hm hs hw hmin hmax hfuel
  refine ⟨res, h1, fun hok => ?_⟩
  rw [h2 hok, if_neg]
  · by_cases hle : min ≤ max + 1
    · rw [← without_extend _ min min (max + 1) e.db (le_refl _) hle hn,
        without_empty _ min min e.db (le_refl _)]
    · exact without_empty _ min (max + 1) e.db (by omega)
  · rintro ⟨a, b, c⟩
    obtain ⟨v, hv⟩ := Option.ne_none_iff_exists'.1 c
    have := hn _ (DB.get_mem e.db _ _ hv) (2 ^ 64 - 1) (indexOf_key pfx _ (by norm_num))
      (by omega)
    omega

/-! ## Foreign keys are never deleted -/

theorem mem_apply_deletes (t : logStore) (ops : List Op) (db : DB) (kv : Bytes × Bytes)
    (hops : deletesLogKeys t ops) (hkv : kv ∈ db) (hl : kv.1.length ≠ t.pfxLen + 8) :
    kv ∈ db.apply ops := by
  induction ops generalizing db with
  | nil => exact hkv
  | cons op rest ih =>
    obtain ⟨k, hk, hlen⟩ := hops op (List.mem_cons_self _ _)
    have h1 : db.apply (op :: rest) = (db.applyOp op).apply rest := rfl
    rw [h1]
    apply ih _ (fun o ho => hops o (List.mem_cons_of_mem _ ho))
    rw [hk]
    show kv ∈ db.delete k
    unfold DB.delete
    refine List.mem_filter.2 ⟨hkv, ?_⟩
    have : kv.1 ≠ k := fun h => hl (by rw [h]; exact hlen)
    simp [this]

theorem deletesLogKeys_nil (t : logStore) : deletesLogKeys t [] := by
  intro op h; simp at h

theorem DeleteRangeFinish_keeps (t : logStore) (f : Faults) (txn : Option Txn) (e : Engine)
    (hp : deletesLogKeys t (pendingOf txn)) (kv : Bytes × Bytes) (hkv : kv ∈ e.db)
    (hl : kv.1.length ≠ t.pfxLen + 8) : kv ∈ (DeleteRangeFinish f txn e).2.db := by
  cases txn with
  | none => exact hkv
  | some x =>
    unfold DeleteRangeFinish txnCommit
    cases f e.calls with
    | some err => exact hkv
    | none => exact mem_apply_deletes t x.pending e.db kv hp hkv hl

/-- One pass through the loop body keeps the foreign keys and buffers deletions of keys
with an eight-byte suffix only. -/
theorem DeleteRangeIter_keeps (t : logStore) (f : Faults) (m max i : Nat)
    (txn : Option Txn) (it : Option Iterator) (e : Engine)
    (hp : deletesLogKeys t (pendingOf txn)) (kv : Bytes × Bytes) (hkv : kv ∈ e.db)
    (hl : kv.1.length ≠ t.pfxLen + 8) :
    match t.DeleteRangeIter f m max i txn it e with
    | LoopStep.exit txn1 e1 => deletesLogKeys t (pendingOf txn1) ∧ kv ∈ e1.db
    | LoopStep.fail _ e1 => kv ∈ e1.db
    | LoopStep.next _ txn1 _ e1 => deletesLogKeys t txn1.pending ∧ kv ∈ e1.db := by
  -- the item part
  have item : ∀ (x : Txn) (j : Iterator) (e1 : Engine), deletesLogKeys t x.pending →
      kv ∈ e1.db →
      match t.DeleteRangeItem f max i x j e1 with
      | LoopStep.exit txn1 e2 => deletesLogKeys t (pendingOf txn1) ∧ kv ∈ e2.db
      | LoopStep.fail _ e2 => kv ∈ e2.db
      | LoopStep.next _ txn1 _ e2 => deletesLogKeys t txn1.pending ∧ kv ∈ e2.db := by
    intro x j e1 hx h1
    unfold logStore.DeleteRangeItem
    split_ifs with hv
    · cases hj : j.items with
      | nil => exact ⟨hx, h1⟩
      | cons item tl =>
        simp only []
        split_ifs with h2 h3
        · exact h1
        · cases hu : uint64 (item.1.drop t.pfxLen) with
          | none => exact h1
          | some idx =>
            simp only []
            split_ifs with h4
            · exact ⟨hx, h1⟩
            · unfold txnDelete
              cases f e1.calls with
              | some err => exact h1
              | none =>
                refine ⟨?_, h1⟩
                intro op hop
                rcases List.mem_append.1 hop with h5 | h5
                · exact hx op h5
                · refine ⟨item.1, List.mem_singleton.1 h5, ?_⟩
                  rw [List.length_drop] at h3
                  omega
        · exact ⟨hx, h1⟩
    · exact ⟨hx, h1⟩
  unfold logStore.DeleteRangeIter
  split_ifs with hm
  · exact hkv
  · unfold DeleteRangeFlush
    split_ifs with hb
    · cases txn with
      | none => exact item _ _ _ (deletesLogKeys_nil t) hkv
      | some x =>
        unfold txnCommit
        cases f e.calls with
        | some err => exact hkv
        | none =>
          exact item _ _ _ (deletesLogKeys_nil t) (mem_apply_deletes t x.pending e.db kv hp hkv hl)
    · cases txn with
      | none => exact item _ _ _ (deletesLogKeys_nil t) hkv
      | some x => exact item _ _ _ hp hkv

/-- Whenever `DeleteRange` returns, with or without an error, every key whose length is not
that of the prefix plus eight bytes is still stored. -/
theorem DeleteRangeLoop_keeps_foreign (t : logStore) (f : Faults) (m max : Nat) :
    ∀ (fuel i : Nat) (txn : Option Txn) (it : Option Iterator) (e : Engine)
      (res : Option Error × Engine),
      deletesLogKeys t (pendingOf txn) →
      t.DeleteRangeLoop f m max fuel i txn it e = some res →
      ∀ kv ∈ e.db, kv.1.length ≠ t.pfxLen + 8 → kv ∈ res.2.db := by
  intro fuel
  induction fuel with
  | zero =>
    intro i txn it e res _ h
    simp [logStore.DeleteRangeLoop] at h
  | succ fuel ih =>
    intro i txn it e res hp h kv hkv hl
    rw [logStore.DeleteRangeLoop] at h
    split_ifs at h with hi
    · have hstep := DeleteRangeIter_keeps t f m max i txn it e hp kv hkv hl
      cases hs : t.DeleteRangeIter f m max i txn it e with
      | exit txn1 e1 =>
        rw [hs] at h hstep
        simp only [Option.some.injEq] at h
        rw [← h]
        exact DeleteRangeFinish_keeps t f txn1 e1 hstep.1 kv hstep.2 hl
      | fail err e1 =>
        rw [hs] at h hstep
        simp only [Option.some.injEq] at h
        rw [← h]
        exact hstep
      | next i1 txn1 it1 e1 =>
        rw [hs] at h hstep
        exact ih i1 (some txn1) (some it1) e1 res hstep.1 h kv hstep.2 hl
    · simp only [Option.some.injEq] at h
      rw [← h]
      exact DeleteRangeFinish_keeps t f txn e hp kv hkv hl

theorem DeleteRange_keeps_foreign (t : logStore) (f : Faults) (m fuel min max : Nat)
    (e : Engine) (res : Option Error × Engine)
    (h : t.DeleteRange f m fuel min max e = some res) :
    ∀ kv ∈ e.db, kv.1.length ≠ t.pfxLen + 8 → kv ∈ res.2.db :=
  DeleteRangeLoop_keeps_foreign t f m max fuel min none none e res (deletesLogKeys_nil t) h

/-- What holds of the boundaries whatever keys lie under the prefix: on an ascending store
`FirstIndex` and `LastIndex` return no error, and 0 when no key lies under the prefix.
`FirstIndex` looks at the smallest key under the prefix only: when its suffix has eight
bytes the result is the one on the store with the foreign keys removed, and when it is
foreign the result is 0. `LastIndex` does the same with the greatest key under the prefix,
provided no key under the prefix sorts after the seek key `pfx ++ 0xFF`. -/
theorem boundary_by_first_and_last (pfx : Bytes) (db : DB) (hs : db.sorted = true) :
    ((NewLogStore pfx).FirstIndex db).2 = none ∧
    ((NewLogStore pfx).LastIndex db).2 = none ∧
    ((∀ kv ∈ db, hasPfx kv.1 pfx = false) →
      (NewLogStore pfx).FirstIndex db = (0, none) ∧
      (NewLogStore pfx).LastIndex db = (0, none)) ∧
    (∀ kv, isFirstUnder pfx db kv →
      (kv.1.length = pfx.length + 8 →
        (NewLogStore pfx).FirstIndex db = (NewLogStore pfx).FirstIndex (dropForeign pfx db)) ∧
      (kv.1.length ≠ pfx.length + 8 → (NewLogStore pfx).FirstIndex db = (0, none))) ∧
    ((∀ kv ∈ db, hasPfx kv.1 pfx = true →
        compareBytes kv.1 (pfx ++ [(255 : Byte)]) ≠ Ordering.gt) →
      ∀ kv, isLastUnder pfx db kv →
        (kv.1.length = pfx.length + 8 →
          (NewLogStore pfx).LastIndex db = (NewLogStore pfx).LastIndex (dropForeign pfx db)) ∧
        (kv.1.length ≠ pfx.length + 8 → (NewLogStore pfx).LastIndex db = (0, none))) := by
  refine ⟨boundaryIndex_noerr _ _ _, boundaryIndex_noerr _ _ _, boundary_of_none pfx db, ?_, ?_⟩
  · intro kv hkv
    constructor
    · intro hl
      rw [FirstIndex_of_first pfx db hs kv hkv,
        FirstIndex_of_first pfx (dropForeign pfx db) (DB.sorted_filter db _ hs) kv
          (isFirstUnder_dropForeign pfx db kv hkv hl)]
    · intro hl
      rw [FirstIndex_of_first pfx db hs kv hkv, indexOf_foreign pfx kv.1 hl]
      rfl
  · intro hseek kv hkv
    constructor
    · intro hl
      rw [LastIndex_of_last pfx db hs hseek kv hkv,
        LastIndex_of_last pfx (dropForeign pfx db) (DB.sorted_filter db _ hs)
          (fun kv2 h2 => hseek kv2 (List.mem_filter.1 h2).1) kv
          (isLastUnder_dropForeign pfx db kv hkv hl)]
    · intro hl
      rw [LastIndex_of_last pfx db hs hseek kv hkv, indexOf_foreign pfx kv.1 hl]
      rfl

/-! ## The scenario of `TestLogOperations` -/

/-- The assertions of `TestLogOperations` hold on the embedding. -/
theorem TestLogOperations_replay :
    (NewLogStore logPfx).FirstIndex [] = (0, none) ∧
    (NewLogStore logPfx).LastIndex [] = (0, none) ∧
    ((NewLogStore logPfx).GetLog sampleCodec [] 100 zeroLog).1 = some Error.ErrLogNotFound ∧
    ((NewLogStore logPfx).StoreLog sampleCodec noFaults sampleLog (Engine.ofDB [])).1 = none ∧
    (NewLogStore logPfx).FirstIndex
      ((NewLogStore logPfx).StoreLog sampleCodec noFaults sampleLog (Engine.ofDB [])).2.db =
        (123, none) ∧
    (NewLogStore logPfx).LastIndex
      ((NewLogStore logPfx).StoreLog sampleCodec noFaults sampleLog (Engine.ofDB [])).2.db =
        (123, none) ∧
    (NewLogStore logPfx).FirstIndex [logItem 123 1, logItem 124 2] = (123, none) ∧
    (NewLogStore logPfx).LastIndex [logItem 123 1, logItem 124 2] = (124, none) ∧
    ((NewLogStore logPfx).DeleteRange noFaults 1000 3 0 123
      (Engine.ofDB [logItem 123 1, logItem 124 2])).map (fun r => (r.1, r.2.db)) =
        some (none, [logItem 124 2]) ∧
    (NewLogStore logPfx).FirstIndex [logItem 124 2] = (124, none) ∧
    (NewLogStore logPfx).LastIndex [logItem 124 2] = (124, none) := by
  decide

/-! ## The claims -/

/-- C1 (failing input): with the indices 5 and `2 ^ 64 - 1` stored, `DeleteRange(10, 2^64-1)`
returns no error within four iterations and leaves the store empty: the loop variable
wraps from `2 ^ 64 - 1` to 0, the scan restarts at index 0 and removes index 5, which lies
below `min`. -/
theorem DeleteRange_wraps_below_min :
    DB.sorted [logItem 5 1, logItem (2 ^ 64 - 1) 2] = true ∧
    DB.get [logItem 5 1, logItem (2 ^ 64 - 1) 2] ((NewLogStore logPfx).getRawKey 5) = some [1] ∧
    5 < 10 ∧
    ((NewLogStore logPfx).DeleteRange noFaults 1000 4 10 (2 ^ 64 - 1)
      (Engine.ofDB [logItem 5 1, logItem (2 ^ 64 - 1) 2])).map (fun r => (r.1, r.2.db)) =
      some (none, []) := by
  decide

/-- C2 (failing input): with the indices 5 and `255 * 2 ^ 56` stored `LastIndex` returns 5,
and with `255 * 2 ^ 56` alone it returns 0: a key whose index has the most significant
byte `0xFF` sorts after the seek key `"log" ++ 0xFF`, so the reverse seek passes it by. -/
theorem LastIndex_misses_high_index :
    DB.sorted [logItem 5 1, logItem (255 * 2 ^ 56) 2] = true ∧
    DB.get [logItem 5 1, logItem (255 * 2 ^ 56) 2]
      ((NewLogStore logPfx).getRawKey (255 * 2 ^ 56)) = some [2] ∧
    (NewLogStore logPfx).LastIndex [logItem 5 1, logItem (255 * 2 ^ 56) 2] = (5, none) ∧
    (NewLogStore logPfx).LastIndex [logItem (255 * 2 ^ 56) 2] = (0, none) := by
  decide

/-- C3: on an ascending store whose keys under the prefix all have the shape written by
`StoreLog`/`StoreLogs`, `FirstIndex` returns no error; it returns 0 when no key lies under
the prefix, and otherwise the smallest stored index. -/
theorem FirstIndex_smallest (pfx : Bytes) (db : DB) (hs : db.sorted = true)
    (hw : (NewLogStore pfx).onlyLogKeys db) :
    ((NewLogStore pfx).FirstIndex db).2 = none ∧
    ((∀ kv ∈ db, hasPfx kv.1 pfx = false) → ((NewLogStore pfx).FirstIndex db).1 = 0) ∧
    ((∃ kv ∈ db, hasPfx kv.1 pfx = true) →
      ((NewLogStore pfx).FirstIndex db).1 < 2 ^ 64 ∧
      (NewLogStore pfx).stored db ((NewLogStore pfx).FirstIndex db).1 ∧
      ∀ j, j < 2 ^ 64 → (NewLogStore pfx).stored db j →
        ((NewLogStore pfx).FirstIndex db).1 ≤ j) := by
  have hq : ∀ kv : Bytes × Bytes, hasPfx kv.1 pfx = true →
      (!decide (compareBytes kv.1 pfx = Ordering.lt)) = true := by
    intro kv hp
    have := compareBytes_append_self pfx (kv.1.drop pfx.length)
    rw [← hasPfx_eq_append _ _ hp] at this
    simpa using this
  unfold logStore.FirstIndex seekForward
  cases hf : db.filter (fun kv => !decide (compareBytes kv.1 (NewLogStore pfx).pfx = Ordering.lt)) with
  | nil =>
    rw [boundaryIndex_nil]
    refine ⟨rfl, fun _ => rfl, ?_⟩
    rintro ⟨kv, hkv, hp⟩
    have : kv ∈ db.filter (fun kv => !decide (compareBytes kv.1 (NewLogStore pfx).pfx = Ordering.lt)) :=
      List.mem_filter.2 ⟨hkv, hq kv hp⟩
    rw [hf] at this
    simp at this
  | cons h tl =>
    have hmem : h ∈ db.filter (fun kv => !decide (compareBytes kv.1 (NewLogStore pfx).pfx = Ordering.lt)) := by
      rw [hf]; exact List.mem_cons_self _ _
    have hh := List.mem_filter.1 hmem
    have hle := DB.filter_head_le db _ h tl hs hf
    cases hp : hasPfx h.1 pfx with
    | true =>
      have hl : h.1.length = pfx.length + 8 := hw h hh.1 hp
      obtain ⟨hv, hkey, hlt⟩ := boundaryIndex_logKey pfx h tl 0 hp hl
      rw [hv]
      refine ⟨rfl, ?_, fun _ => ⟨hlt, ?_, ?_⟩⟩
      · intro hall
        rw [hall h hh.1] at hp
        exact absurd hp (by decide)
      · unfold logStore.stored
        rw [getRawKey_new, ← hkey]
        exact DB.get_isSome_of_mem db h hh.1
      · intro j hj hst
        unfold logStore.stored at hst
        rw [getRawKey_new] at hst
        obtain ⟨val, hval⟩ := Option.isSome_iff_exists.1 hst
        have hm := DB.get_mem db _ _ hval
        rcases hle _ hm (hq _ (hasPfx_append pfx _)) with h1 | h1
        · have h2 : pfx ++ putUint64 j = h.1 := by rw [← h1]
          rw [hkey] at h2
          have := putUint64_injective _ _ hj hlt (List.append_cancel_left h2)
          exact le_of_eq this.symm
        · rw [hkey] at h1
          simp only [compareBytes_append_left] at h1
          rw [compareBytes_putUint64 _ _ hlt hj] at h1
          split_ifs at h1 with h3
          exact le_of_lt h3
    | false =>
      rw [boundaryIndex_other pfx h tl 0 hp]
      refine ⟨rfl, fun _ => rfl, ?_⟩
      rintro ⟨kv, hkv, hpk⟩
      exfalso
      rcases hle kv hkv (hq kv hpk) with h1 | h1
      · rw [h1, hp] at hpk
        exact absurd hpk (by decide)
      · have hb := hasPfx_of_between pfx h.1 (kv.1.drop pfx.length) (by simpa [NewLogStore] using hh.2)
          (by rw [← hasPfx_eq_append _ _ hpk, h1]; decide)
        rw [hp] at hb
        exact absurd hb (by decide)

/-- C3, instantiated on the store of the tests holding the indices 123 and 124. -/
theorem FirstIndex_smallest_witness :
    (DB.sorted [logItem 123 1, logItem 124 2] = true ∧
      (NewLogStore logPfx).onlyLogKeys [logItem 123 1, logItem 124 2]) ∧
    (((NewLogStore logPfx).FirstIndex [logItem 123 1, logItem 124 2]).2 = none ∧
      ((∀ kv ∈ [logItem 123 1, logItem 124 2], hasPfx kv.1 logPfx = false) →
        ((NewLogStore logPfx).FirstIndex [logItem 123 1, logItem 124 2]).1 = 0) ∧
      ((∃ kv ∈ [logItem 123 1, logItem 124 2], hasPfx kv.1 logPfx = true) →
        ((NewLogStore logPfx).FirstIndex [logItem 123 1, logItem 124 2]).1 < 2 ^ 64 ∧
        (NewLogStore logPfx).stored [logItem 123 1, logItem 124 2]
          ((NewLogStore logPfx).FirstIndex [logItem 123 1, logItem 124 2]).1 ∧
        ∀ j, j < 2 ^ 64 → (NewLogStore logPfx).stored [logItem 123 1, logItem 124 2] j →
          ((NewLogStore logPfx).FirstIndex [logItem 123 1, logItem 124 2]).1 ≤ j)) :=
  ⟨⟨by decide, by unfold logStore.onlyLogKeys; decide⟩,
   FirstIndex_smallest logPfx [logItem 123 1, logItem 124 2]
     (by decide) (by unfold logStore.onlyLogKeys; decide)⟩

/-- C4: for every valid entry and every engine state, after a `StoreLog` that returns no
error, `GetLog` of the entry's index returns no error and yields the entry, provided the
codec decodes the entry's encoding back to it; an earlier value under the key is irrelevant. -/
theorem StoreLog_then_GetLog (pfx : Bytes) (c : Codec) (f : Faults) (log dst : Log)
    (e e2 : Engine) (hv : log.valid)
    (hrt : ∀ b, c.marshal (toRaftLog log) = Except.ok b →
      c.unmarshal b = Except.ok (toRaftLog log))
    (hok : (NewLogStore pfx).StoreLog c f log e = (none, e2)) :
    (NewLogStore pfx).GetLog c e2.db log.Index dst = (none, log) := by
  obtain ⟨data, hm, hdb⟩ := StoreLog_ok _ c f log e e2 hok
  refine GetLog_of_get _ c e2.db log dst data hv ?_ (hrt data hm)
  rw [hdb, DB.get_set, if_pos rfl]

/-- C4, instantiated: the entry of index 123 stored into an empty engine. -/
theorem StoreLog_then_GetLog_witness :
    sampleLog.valid ∧
    (NewLogStore logPfx).StoreLog sampleCodec noFaults sampleLog (Engine.ofDB []) =
      (none, ((NewLogStore logPfx).StoreLog sampleCodec noFaults sampleLog (Engine.ofDB [])).2) ∧
    (NewLogStore logPfx).GetLog sampleCodec
      ((NewLogStore logPfx).StoreLog sampleCodec noFaults sampleLog (Engine.ofDB [])).2.db
      sampleLog.Index zeroLog = (none, sampleLog) :=
  ⟨by unfold Log.valid; decide, by decide,
   StoreLog_then_GetLog logPfx sampleCodec noFaults sampleLog zeroLog (Engine.ofDB []) _
     (by unfold Log.valid; decide)
     (by intro b hb; cases hb; rfl)
     (by decide)⟩

/-- C5: when no key `pfx ++ putUint64 i` is stored, `GetLog(i)` returns `ErrLogNotFound`, no
other error, and leaves the caller's entry as it was. -/
theorem GetLog_absent (pfx : Bytes) (c : Codec) (db : DB) (i : Nat) (dst : Log)
    (h : db.get (pfx ++ putUint64 i) = none) :
    (NewLogStore pfx).GetLog c db i dst = (some Error.ErrLogNotFound, dst) := by
  unfold logStore.GetLog txnGet
  rw [getRawKey_new]
  simp [h]

/-- C5, instantiated: index 100 in the empty store, as in the tests. -/
theorem GetLog_absent_witness :
    DB.get [] (logPfx ++ putUint64 100) = none ∧
    (NewLogStore logPfx).GetLog sampleCodec [] 100 zeroLog =
      (some Error.ErrLogNotFound, zeroLog) :=
  ⟨rfl, GetLog_absent logPfx sampleCodec [] 100 zeroLog rfl⟩

/-- C6: for a positive batch size and valid entries with pairwise distinct indices, after a
`StoreLogs` that returns no error every entry of the list is read back by `GetLog`,
whatever the length of the list, provided the codec decodes each encoding back. -/
theorem StoreLogs_then_GetLog (pfx : Bytes) (c : Codec) (f : Faults) (m : Nat)
    (logs : List Log) (e e2 : Engine) (dst : Log) (hm : 0 < m)
    (hv : ∀ l ∈ logs, l.valid) (hnd : (logs.map Log.Index).Nodup)
    (hrt : ∀ l ∈ logs, ∀ b, c.marshal (toRaftLog l) = Except.ok b →
      c.unmarshal b = Except.ok (toRaftLog l))
    (hok : (NewLogStore pfx).StoreLogs c f m logs e = (none, e2)) :
    ∀ l ∈ logs, (NewLogStore pfx).GetLog c e2.db l.Index dst = (none, l) := by
  intro l hl
  have hp := StoreLogs_post (NewLogStore pfx) c f m logs e hm
  rw [hok] at hp
  obtain ⟨hmar, hdb, -, -⟩ := hp
  obtain ⟨data, hd⟩ := hmar l hl
  refine GetLog_of_get _ c e2.db l dst data (hv l hl) ?_ (hrt l hl data hd)
  have hdb2 : e2.db = e.db.apply (logs.map ((NewLogStore pfx).writeOf c)) := hdb
  rw [hdb2]
  exact get_apply_writes _ c logs e.db hv hnd l hl data hd

/-- C6, instantiated: three entries with batch size 2, so that two transactions are used. -/
theorem StoreLogs_then_GetLog_witness :
    (0 < 2 ∧ (sampleLogs.map Log.Index).Nodup ∧
      (NewLogStore logPfx).StoreLogs sampleCodec noFaults 2 sampleLogs (Engine.ofDB []) =
        (none, ((NewLogStore logPfx).StoreLogs sampleCodec noFaults 2 sampleLogs
          (Engine.ofDB [])).2)) ∧
    ∀ l ∈ sampleLogs, (NewLogStore logPfx).GetLog sampleCodec
      ((NewLogStore logPfx).StoreLogs sampleCodec noFaults 2 sampleLogs (Engine.ofDB [])).2.db
      l.Index zeroLog = (none, l) :=
  ⟨⟨by decide, by decide, by decide⟩,
   StoreLogs_then_GetLog logPfx sampleCodec noFaults 2 sampleLogs (Engine.ofDB []) _ zeroLog
     (by decide) (by decide) (by decide)
     (by
       intro l hl b hb
       simp only [sampleLogs, List.mem_cons, List.mem_singleton, List.not_mem_nil, or_false] at hl
       rcases hl with h | h | h <;> subst h <;> cases hb <;> rfl)
     (by decide)⟩

/-- C7: for a positive batch size, when a step of `StoreLogs` is the first to fail (the
serialization or the `Set` of the entry at position `i`, or the `Commit` of a sub-batch,
every serialization and engine call before it succeeding), `StoreLogs` returns the error of
that step, and the store is the initial store with exactly the entries at the positions
below the start of the failing sub-batch written: the committed transactions are exactly
the sub-batches before the failing one, and nothing of the failing sub-batch or after it is
stored. The failing sub-batch is the one holding position `i`, `i / m`, for a serialization
or a `Set`, and the sub-batch being committed for a `Commit`. -/
theorem StoreLogs_failure (pfx : Bytes) (c : Codec) (f : Faults) (m : Nat) (logs : List Log)
    (e : Engine) (s : FailedStep) (err : Error) (hm : 0 < m)
    (hfail : failsFirstAt c f m logs e.calls s err) :
    ((NewLogStore pfx).StoreLogs c f m logs e).1 = some err ∧
    s.subBatch m * m < logs.length ∧
    ((NewLogStore pfx).StoreLogs c f m logs e).2.db =
      e.db.apply ((logs.take (s.subBatch m * m)).map ((NewLogStore pfx).writeOf c)) ∧
    ((NewLogStore pfx).StoreLogs c f m logs e).2.committed = e.committed ++
      (List.range (s.subBatch m)).map (batch m (logs.map ((NewLogStore pfx).writeOf c))) := by
  have h1 := StoreLogsLoop_fails (NewLogStore pfx) c f m logs e s err hm hfail logs [] 0 0 none e
    (by simp) (by simp) (by omega) ⟨rfl, rfl⟩ (by omega) (by omega)
    (stepAhead_start c f m logs e.calls s err hfail.2.2)
  have h2 : failedWith e m s err ((NewLogStore pfx).StoreLogs c f m logs e) := by
    simpa [logStore.StoreLogs] using h1
  have hp := StoreLogs_post (NewLogStore pfx) c f m logs e hm
  unfold StoreLogsPost at hp
  rw [h2.1] at hp
  obtain ⟨k, hk, _, hdb, hcom⟩ := hp
  have hlen := h2.2
  rw [hcom] at hlen
  simp only [List.length_append, List.length_map, List.length_range] at hlen
  have hk2 : k = s.subBatch m := by omega
  subst hk2
  exact ⟨h2.1, hk, hdb, hcom⟩

/-- C7, instantiated: three entries with batch size 2. The `Set` of the third entry fails,
the `Commit` of the first sub-batch fails, the serialization of the third entry fails. -/
theorem StoreLogs_failure_witness :
    ((0 < 2 ∧
      failsFirstAt sampleCodec (failAt 3) 2 sampleLogs (Engine.ofDB []).calls
        (FailedStep.atSet 2) (Error.engine 1)) ∧
      ((NewLogStore logPfx).StoreLogs sampleCodec (failAt 3) 2 sampleLogs
        (Engine.ofDB [])).1 = some (Error.engine 1) ∧
      1 * 2 < sampleLogs.length ∧
      ((NewLogStore logPfx).StoreLogs sampleCodec (failAt 3) 2 sampleLogs
        (Engine.ofDB [])).2.db =
        (Engine.ofDB []).db.apply
          ((sampleLogs.take (1 * 2)).map ((NewLogStore logPfx).writeOf sampleCodec)) ∧
      ((NewLogStore logPfx).StoreLogs sampleCodec (failAt 3) 2 sampleLogs
        (Engine.ofDB [])).2.committed =
        (Engine.ofDB []).committed ++
          (List.range 1).map
            (batch 2 (sampleLogs.map ((NewLogStore logPfx).writeOf sampleCodec)))) ∧
    ((0 < 2 ∧
      failsFirstAt sampleCodec (failAt 2) 2 sampleLogs (Engine.ofDB []).calls
        (FailedStep.atCommit 0) (Error.engine 1)) ∧
      ((NewLogStore logPfx).StoreLogs sampleCodec (failAt 2) 2 sampleLogs
        (Engine.ofDB [])).1 = some (Error.engine 1) ∧
      0 * 2 < sampleLogs.length ∧
      ((NewLogStore logPfx).StoreLogs sampleCodec (failAt 2) 2 sampleLogs
        (Engine.ofDB [])).2.db =
        (Engine.ofDB []).db.apply
          ((sampleLogs.take (0 * 2)).map ((NewLogStore logPfx).writeOf sampleCodec)) ∧
      ((NewLogStore logPfx).StoreLogs sampleCodec (failAt 2) 2 sampleLogs
        (Engine.ofDB [])).2.committed =
        (Engine.ofDB []).committed ++
          (List.range 0).map
            (batch 2 (sampleLogs.map ((NewLogStore logPfx).writeOf sampleCodec)))) ∧
    ((0 < 2 ∧
      failsFirstAt pickyCodec noFaults 2 sampleLogs (Engine.ofDB []).calls
        (FailedStep.atMarshal 2) (Error.encoding 2)) ∧
      ((NewLogStore logPfx).StoreLogs pickyCodec noFaults 2 sampleLogs
        (Engine.ofDB [])).1 = some (Error.encoding 2) ∧
      1 * 2 < sampleLogs.length ∧
      ((NewLogStore logPfx).StoreLogs pickyCodec noFaults 2 sampleLogs
        (Engine.ofDB [])).2.db =
        (Engine.ofDB []).db.apply
          ((sampleLogs.take (1 * 2)).map ((NewLogStore logPfx).writeOf pickyCodec)) ∧
      ((NewLogStore logPfx).StoreLogs pickyCodec noFaults 2 sampleLogs
        (Engine.ofDB [])).2.committed =
        (Engine.ofDB []).committed ++
          (List.range 1).map
            (batch 2 (sampleLogs.map ((NewLogStore logPfx).writeOf pickyCodec)))) :=
  have hset : failsFirstAt sampleCodec (failAt 3) 2 sampleLogs (Engine.ofDB []).calls
      (FailedStep.atSet 2) (Error.engine 1) :=
    ⟨fun _ _ => ⟨_, rfl⟩, by decide, by decide, by decide⟩
  have hcommit : failsFirstAt sampleCodec (failAt 2) 2 sampleLogs (Engine.ofDB []).calls
      (FailedStep.atCommit 0) (Error.engine 1) :=
    ⟨fun _ _ => ⟨_, rfl⟩, by decide, by decide, by decide⟩
  have hmarshal : failsFirstAt pickyCodec noFaults 2 sampleLogs (Engine.ofDB []).calls
      (FailedStep.atMarshal 2) (Error.encoding 2) :=
    ⟨by
      intro l hl
      simp only [FailedStep.marshalledBefore, sampleLogs, List.take, List.mem_cons,
        List.mem_singleton, List.not_mem_nil, or_false] at hl
      rcases hl with h | h <;> subst h <;> exact ⟨_, rfl⟩,
     fun _ _ => rfl, ⟨_, rfl, rfl⟩⟩
  ⟨⟨⟨by decide, hset⟩,
    StoreLogs_failure logPfx sampleCodec (failAt 3) 2 sampleLogs (Engine.ofDB [])
      (FailedStep.atSet 2) (Error.engine 1) (by decide) hset⟩,
   ⟨⟨by decide, hcommit⟩,
    StoreLogs_failure logPfx sampleCodec (failAt 2) 2 sampleLogs (Engine.ofDB [])
      (FailedStep.atCommit 0) (Error.engine 1) (by decide) hcommit⟩,
   ⟨⟨by decide, hmarshal⟩,
    StoreLogs_failure logPfx pickyCodec noFaults 2 sampleLogs (Engine.ofDB [])
      (FailedStep.atMarshal 2) (Error.encoding 2) (by decide) hmarshal⟩⟩

/-- C8: for a positive batch size, a `StoreLogs` that returns no error commits exactly
`batchCount m n` transactions, transaction `k` holding the writes of the entries at
positions `k * m` up to `min ((k + 1) * m) n - 1` in order, so at most `m` each; it opens
as many transactions, and none for the empty list; every entry has been serialized. -/
theorem StoreLogs_batches (pfx : Bytes) (c : Codec) (f : Faults) (m : Nat) (logs : List Log)
    (e e2 : Engine) (hm : 0 < m)
    (hok : (NewLogStore pfx).StoreLogs c f m logs e = (none, e2)) :
    e2.committed = e.committed ++
      (List.range (batchCount m logs.length)).map
        (batch m (logs.map ((NewLogStore pfx).writeOf c))) ∧
    e2.committed.length = e.committed.length + batchCount m logs.length ∧
    e2.opened = e.opened + batchCount m logs.length ∧
    (∀ k, (batch m (logs.map ((NewLogStore pfx).writeOf c)) k).length ≤ m) ∧
    (logs = [] → e2.opened = e.opened ∧ e2.committed = e.committed) ∧
    (∀ l ∈ logs, c.marshals l) := by
  have hp := StoreLogs_post (NewLogStore pfx) c f m logs e hm
  rw [hok] at hp
  obtain ⟨hmar, -, hcom, hop⟩ := hp
  have hcom2 : e2.committed = e.committed ++
      (List.range (batchCount m logs.length)).map
        (batch m (logs.map ((NewLogStore pfx).writeOf c))) := hcom
  have hop2 : e2.opened = e.opened + batchCount m logs.length := hop
  refine ⟨hcom2, by rw [hcom2]; simp, hop2, ?_, ?_, hmar⟩
  · intro k
    unfold batch
    exact List.length_take_le _ _
  · intro hnil
    subst hnil
    have h0 : batchCount m 0 = 0 := by
      unfold batchCount
      apply Nat.div_eq_of_lt
      omega
    rw [hcom2, hop2]
    simp [h0]

/-- C8, instantiated: three entries with batch size 2 commit two transactions. -/
theorem StoreLogs_batches_witness :
    (0 < 2 ∧
      (NewLogStore logPfx).StoreLogs sampleCodec noFaults 2 sampleLogs (Engine.ofDB []) =
        (none, ((NewLogStore logPfx).StoreLogs sampleCodec noFaults 2 sampleLogs
          (Engine.ofDB [])).2)) ∧
    ((NewLogStore logPfx).StoreLogs sampleCodec noFaults 2 sampleLogs
      (Engine.ofDB [])).2.committed.length = (Engine.ofDB []).committed.length +
        batchCount 2 sampleLogs.length :=
  ⟨⟨by decide, by decide⟩,
   (StoreLogs_batches logPfx sampleCodec noFaults 2 sampleLogs (Engine.ofDB []) _
     (by decide) (by decide)).2.1⟩

/-- C9 (failing input): with batch size 2 and the indices 2, 4, 6 stored,
`DeleteRange(2, 6)` commits a single transaction holding three deletions: the batch
boundary is tested on the loop variable, which is never a multiple of 2 after an even index
is deleted. -/
theorem DeleteRange_sparse_oversized_batch :
    DB.sorted [logItem 2 1, logItem 4 1, logItem 6 1] = true ∧
    ((NewLogStore logPfx).DeleteRange noFaults 2 4 2 6
      (Engine.ofDB [logItem 2 1, logItem 4 1, logItem 6 1])).map
        (fun r => (r.1, r.2.db, r.2.committed)) =
      some (none, [],
        [[Op.delete (logItem 2 1).1, Op.delete (logItem 4 1).1, Op.delete (logItem 6 1).1]]) := by
  decide

/-- C10 (failing input): on a store holding index 8, two keys with a nine-byte suffix and
index 9, `DeleteRange(5, 9)` removes index 8 only, and a second `DeleteRange(5, 9)` then
removes index 9: the state after two runs differs from the state after one. -/
theorem DeleteRange_twice_differs :
    DB.sorted [logItem 8 1, foreignItem 8 0, foreignItem 8 1, logItem 9 1] = true ∧
    ((NewLogStore logPfx).DeleteRange noFaults 100 10 5 9
      (Engine.ofDB [logItem 8 1, foreignItem 8 0, foreignItem 8 1, logItem 9 1])).map
        (fun r => (r.1, r.2.db)) =
      some (none, [foreignItem 8 0, foreignItem 8 1, logItem 9 1]) ∧
    (((NewLogStore logPfx).DeleteRange noFaults 100 10 5 9
      (Engine.ofDB [logItem 8 1, foreignItem 8 0, foreignItem 8 1, logItem 9 1])).bind
        (fun r => (NewLogStore logPfx).DeleteRange noFaults 100 10 5 9 r.2)).map
        (fun r => (r.1, r.2.db)) =
      some (none, [foreignItem 8 0, foreignItem 8 1]) := by
  decide

/-- C11 (failing input): on a store holding two keys with a nine-byte suffix between the
keys of the indices 5 and 6, and index 6, `DeleteRange(5, 6)` returns no error and removes
nothing, while on the store holding index 6 alone it removes index 6: each skipped foreign
key still runs `index++`, and the loop variable passes `max` before the iterator reaches
index 6. -/
theorem DeleteRange_foreign_keys_shadow :
    DB.sorted [foreignItem 5 0, foreignItem 5 1, logItem 6 1] = true ∧
    ((NewLogStore logPfx).DeleteRange noFaults 100 10 5 6
      (Engine.ofDB [foreignItem 5 0, foreignItem 5 1, logItem 6 1])).map
        (fun r => (r.1, r.2.db)) =
      some (none, [foreignItem 5 0, foreignItem 5 1, logItem 6 1]) ∧
    ((NewLogStore logPfx).DeleteRange noFaults 100 10 5 6 (Engine.ofDB [logItem 6 1])).map
        (fun r => (r.1, r.2.db)) =
      some (none, []) := by
  decide

/-- C12 (failing input): with index 5 stored and a foreign key as the smallest key under
the prefix `FirstIndex` returns 0, and with index 5 stored and a foreign key as the
greatest key under the prefix `LastIndex` returns 0, while both return 5, the only stored
index, on the store with the foreign key removed: the guard on the length of the suffix
keeps the foreign key from being decoded, but no other key is looked at. -/
theorem boundary_not_ignoring_foreign :
    DB.sorted [(logPfx ++ [(0 : Byte)], [0]), logItem 5 1] = true ∧
    dropForeign logPfx [(logPfx ++ [(0 : Byte)], [0]), logItem 5 1] = [logItem 5 1] ∧
    (NewLogStore logPfx).FirstIndex [(logPfx ++ [(0 : Byte)], [0]), logItem 5 1] = (0, none) ∧
    (NewLogStore logPfx).FirstIndex [logItem 5 1] = (5, none) ∧
    DB.sorted [logItem 5 1, foreignItem 5 7] = true ∧
    dropForeign logPfx [logItem 5 1, foreignItem 5 7] = [logItem 5 1] ∧
    (NewLogStore logPfx).LastIndex [logItem 5 1, foreignItem 5 7] = (0, none) ∧
    (NewLogStore logPfx).LastIndex [logItem 5 1] = (5, none) := by
  decide

/-- C13 (failing input): with index 3 and a foreign key after the key of index
`2 ^ 64 - 1` stored, no stored index lies in the range of `DeleteRange(2^64-1, 2^64-1)`, yet
the call returns no error and removes index 3: the skipped foreign key runs `index++`,
which wraps to 0, and the scan restarts from index 0 with every index at most `max`. -/
theorem DeleteRange_empty_range_deletes :
    DB.sorted [logItem 3 1, foreignItem (2 ^ 64 - 1) 0] = true ∧
    DB.get [logItem 3 1, foreignItem (2 ^ 64 - 1) 0]
      ((NewLogStore logPfx).getRawKey (2 ^ 64 - 1)) = none ∧
    ((NewLogStore logPfx).DeleteRange noFaults 1000 6 (2 ^ 64 - 1) (2 ^ 64 - 1)
      (Engine.ofDB [logItem 3 1, foreignItem (2 ^ 64 - 1) 0])).map
        (fun r => (r.1, r.2.db)) =
      some (none, [foreignItem (2 ^ 64 - 1) 0]) := by
  decide

/-- C14: for every prefix and all indices `a`, `b` below `2 ^ 64`, the key of `a` is less
than the key of `b` in the bytewise order exactly when `a < b`, and the keys are equal
exactly when `a = b`. -/
theorem getRawKey_order (pfx : Bytes) (a b : Nat) (ha : a < 2 ^ 64) (hb : b < 2 ^ 64) :
    (compareBytes ((NewLogStore pfx).getRawKey a) ((NewLogStore pfx).getRawKey b) = Ordering.lt
      ↔ a < b) ∧
    ((NewLogStore pfx).getRawKey a = (NewLogStore pfx).getRawKey b ↔ a = b) := by
  rw [getRawKey_new, getRawKey_new]
  refine ⟨key_lt_iff pfx a b ha hb, ?_, ?_⟩
  · intro h
    exact putUint64_injective a b ha hb (List.append_cancel_left h)
  · intro h; rw [h]

/-- C14, instantiated at the indices 123 and 124 of the tests. -/
theorem getRawKey_order_witness :
    ((123 : Nat) < 2 ^ 64 ∧ (124 : Nat) < 2 ^ 64) ∧
    ((compareBytes ((NewLogStore logPfx).getRawKey 123) ((NewLogStore logPfx).getRawKey 124)
        = Ordering.lt ↔ 123 < 124) ∧
      ((NewLogStore logPfx).getRawKey 123 = (NewLogStore logPfx).getRawKey 124 ↔ 123 = 124)) :=
  ⟨⟨by norm_num, by norm_num⟩, getRawKey_order logPfx 123 124 (by norm_num) (by norm_num)⟩

/-- C15: for every prefix and every index below `2 ^ 64`, `getRawKey` is the prefix followed
by the eight big-endian bytes of the index, of length `len(prefix) + 8`, and decoding the
bytes after the prefix gives the index back; a successful `Set` of the stable store writes
the value under the prefix followed by the key bytes, where `getImpl` reads it. -/
theorem key_layout (pfx key val dst : Bytes) (index : Nat) (f : Faults) (e e2 : Engine)
    (hi : index < 2 ^ 64)
    (hok : (NewStableStore pfx).Set f key val e = (none, e2)) :
    (NewLogStore pfx).getRawKey index = pfx ++ putUint64 index ∧
    ((NewLogStore pfx).getRawKey index).length = pfx.length + 8 ∧
    (putUint64 index).length = 8 ∧ beVal (putUint64 index) = index ∧
    uint64 (((NewLogStore pfx).getRawKey index).drop (NewLogStore pfx).pfxLen) = some index ∧
    e2.db = e.db.set (pfx ++ key) val ∧
    (NewStableStore pfx).getImpl e2.db key dst = (val, none) := by
  have hdb := stableSet_ok (NewStableStore pfx) f key val e e2 hok
  have hdb2 : e2.db = e.db.set (pfx ++ key) val := hdb
  refine ⟨getRawKey_new pfx index, ?_, rfl, beVal_putUint64 index hi, ?_, hdb2, ?_⟩
  · rw [getRawKey_new]; simp [putUint64_length]
  · rw [getRawKey_new]
    simp [NewLogStore, uint64_putUint64 index hi]
  · apply getImpl_present
    show e2.db.get (pfx ++ key) = some val
    rw [hdb2, DB.get_set, if_pos rfl]

/-- C15, instantiated at index 123 and the key `"two"` of the tests. -/
theorem key_layout_witness :
    ((123 : Nat) < 2 ^ 64 ∧
      (NewStableStore confPfx).Set noFaults keyTwo valVal (Engine.ofDB []) =
        (none, ((NewStableStore confPfx).Set noFaults keyTwo valVal (Engine.ofDB [])).2)) ∧
    ((NewLogStore confPfx).getRawKey 123 = confPfx ++ putUint64 123 ∧
      ((NewLogStore confPfx).getRawKey 123).length = confPfx.length + 8 ∧
      (putUint64 123).length = 8 ∧ beVal (putUint64 123) = 123 ∧
      uint64 (((NewLogStore confPfx).getRawKey 123).drop (NewLogStore confPfx).pfxLen) =
        some 123 ∧
      ((NewStableStore confPfx).Set noFaults keyTwo valVal (Engine.ofDB [])).2.db =
        (Engine.ofDB []).db.set (confPfx ++ keyTwo) valVal ∧
      (NewStableStore confPfx).getImpl
        ((NewStableStore confPfx).Set noFaults keyTwo valVal (Engine.ofDB [])).2.db keyTwo [] =
        (valVal, none)) :=
  ⟨⟨by norm_num, by decide⟩,
   key_layout confPfx keyTwo valVal [] 123 noFaults (Engine.ofDB [])
     ((NewStableStore confPfx).Set noFaults keyTwo valVal (Engine.ofDB [])).2 (by norm_num)
     (by decide)⟩

/-- C16: when no value is stored under `pfx ++ k`, `Get` returns the empty byte sequence
and no error, and `GetUint64` returns 0 and no error. -/
theorem stable_absent (pfx : Bytes) (db : DB) (k : Bytes) (h : db.get (pfx ++ k) = none) :
    (NewStableStore pfx).Get db k = ([], none) ∧
    (NewStableStore pfx).GetUint64 db k = (0, none) := by
  constructor
  · exact getImpl_absent (NewStableStore pfx) db k [] h
  · unfold stableStore.GetUint64
    rw [getImpl_absent (NewStableStore pfx) db k _ h]
    rfl

/-- C16, instantiated on the empty store. -/
theorem stable_absent_witness :
    DB.get [] (confPfx ++ keyTwo) = none ∧
    ((NewStableStore confPfx).Get [] keyTwo = ([], none) ∧
      (NewStableStore confPfx).GetUint64 [] keyTwo = (0, none)) :=
  ⟨rfl, stable_absent confPfx [] keyTwo rfl⟩

/-- C17: for every key, every value below `2 ^ 64` and every engine state, after a
`SetUint64` that returns no error `GetUint64` returns the value and no error. -/
theorem SetUint64_then_GetUint64 (pfx k : Bytes) (v : Nat) (f : Faults) (e e2 : Engine)
    (hv : v < 2 ^ 64)
    (hok : (NewStableStore pfx).SetUint64 f k v e = (none, e2)) :
    (NewStableStore pfx).GetUint64 e2.db k = (v, none) := by
  have hdb : e2.db = e.db.set (pfx ++ k) (putUint64 v) :=
    stableSet_ok (NewStableStore pfx) f k (putUint64 v) e e2 hok
  unfold stableStore.GetUint64
  rw [getImpl_present (NewStableStore pfx) e2.db k _ (putUint64 v)
    (by show e2.db.get (pfx ++ k) = _; rw [hdb, DB.get_set, if_pos rfl])]
  simp [uint64_putUint64 v hv]

/-- C17, instantiated at the value `2 ^ 64 - 1`. -/
theorem SetUint64_then_GetUint64_witness :
    ((2 ^ 64 - 1 : Nat) < 2 ^ 64 ∧
      (NewStableStore confPfx).SetUint64 noFaults keyTwo (2 ^ 64 - 1) (Engine.ofDB []) =
        (none, ((NewStableStore confPfx).SetUint64 noFaults keyTwo (2 ^ 64 - 1)
          (Engine.ofDB [])).2)) ∧
    (NewStableStore confPfx).GetUint64
      ((NewStableStore confPfx).SetUint64 noFaults keyTwo (2 ^ 64 - 1) (Engine.ofDB [])).2.db
      keyTwo = (2 ^ 64 - 1, none) :=
  ⟨⟨by norm_num, by decide⟩,
   SetUint64_then_GetUint64 confPfx keyTwo (2 ^ 64 - 1) noFaults (Engine.ofDB []) _
     (by norm_num) (by decide)⟩

/-- C18: for every key, every byte sequence and every engine state, after a `Set` that
returns no error `Get` returns the value and no error, whatever was stored under the key
before; for the empty value (`nil` or empty) it returns the empty byte sequence. -/
theorem Set_then_Get (pfx k v : Bytes) (f : Faults) (e e2 : Engine)
    (hok : (NewStableStore pfx).Set f k v e = (none, e2)) :
    (NewStableStore pfx).Get e2.db k = (v, none) ∧
    (v = [] → (NewStableStore pfx).Get e2.db k = ([], none)) := by
  have hdb : e2.db = e.db.set (pfx ++ k) v := stableSet_ok (NewStableStore pfx) f k v e e2 hok
  have h : (NewStableStore pfx).Get e2.db k = (v, none) :=
    getImpl_present (NewStableStore pfx) e2.db k [] v
      (by show e2.db.get (pfx ++ k) = _; rw [hdb, DB.get_set, if_pos rfl])
  exact ⟨h, fun hv => by rw [h, hv]⟩

/-- C18, instantiated: the empty value written over `"val"`. -/
theorem Set_then_Get_witness :
    (NewStableStore confPfx).Set noFaults keyTwo []
        (Engine.ofDB [(confPfx ++ keyTwo, valVal)]) =
      (none, ((NewStableStore confPfx).Set noFaults keyTwo []
        (Engine.ofDB [(confPfx ++ keyTwo, valVal)])).2) ∧
    (NewStableStore confPfx).Get
      ((NewStableStore confPfx).Set noFaults keyTwo []
        (Engine.ofDB [(confPfx ++ keyTwo, valVal)])).2.db keyTwo = ([], none) :=
  ⟨by decide,
   (Set_then_Get confPfx keyTwo [] noFaults (Engine.ofDB [(confPfx ++ keyTwo, valVal)]) _
     (by decide)).1⟩

/-- C19 (failing input): with batch size 1, `min = 0`, `max = 2 ^ 64 - 1` and the store
holding one foreign key after the keys of all indices, the loop of `DeleteRange` does not
end: no bound on the number of iterations is enough for it to return. -/
theorem DeleteRange_never_ends :
    ∀ fuel, (NewLogStore logPfx).DeleteRange noFaults 1 fuel 0 (2 ^ 64 - 1)
      (Engine.ofDB [foreignItem (2 ^ 64 - 1) 0]) = none := by
  intro fuel
  exact DeleteRangeLoop_never_ends fuel 0 none none _ (by norm_num) rfl (by simp)

/-- C20 (failing input): after `Set("two", "val")`, `getImpl` hands `GetUint64("two")` a
buffer of three bytes, and the eight-byte decoder is applied to it and panics; the same
happens after `Set("two", nil)` with a buffer of no bytes. -/
theorem GetUint64_short_value_panics :
    ((NewStableStore confPfx).Set noFaults keyTwo valVal (Engine.ofDB [])).1 = none ∧
    (NewStableStore confPfx).getImpl
      ((NewStableStore confPfx).Set noFaults keyTwo valVal (Engine.ofDB [])).2.db keyTwo
      (List.replicate 8 (0 : Byte)) = (valVal, none) ∧
    valVal.length = 3 ∧
    (NewStableStore confPfx).GetUint64
      ((NewStableStore confPfx).Set noFaults keyTwo valVal (Engine.ofDB [])).2.db keyTwo =
      (0, some Error.panic) ∧
    (NewStableStore confPfx).GetUint64
      ((NewStableStore confPfx).Set noFaults keyTwo [] (Engine.ofDB [])).2.db keyTwo =
      (0, some Error.panic) := by
  decide

end RaftBadger
